import Mathlib




/-!
Verification of the transform/scene-graph subsystem of the gunship engine
(`src/src/component/transform.rs`) together with the parts of the math
library it consumes (`src/lib/polygon_math/src/vector.rs`,
`src/lib/polygon_math/src/matrix.rs`).

Scalars are modelled by `ℚ`: every concrete value appearing in the claims
(0, 1, small integers and their quotients) is exactly representable in
`f32`, and on such values the operations used here (`+`, `-`, `*`, exact
division) are computed exactly by IEEE arithmetic, so the rational model
agrees with the floating-point code on every computation performed in this
development.

`point.rs` and `quaternion.rs` of `polygon_math` are not part of the
sources available here; the few operations the transform code needs from
them (`Point` as a 3D point with a `w` component, point/vector addition
and subtraction, negation, `Quaternion` with fields `w x y z`,
`Quaternion::identity`, quaternion multiplication, `as_matrix4`, and
`look_rotation`) are modelled from the spec where so marked.
-/

set_option allowUnsafeReducibility true

attribute [semireducible] Rat.add Rat.mul Rat.sub Rat.div Rat.inv Rat.neg

namespace Gunship

/-- Scalar type of the model (stands for the exactly-representable `f32`
values manipulated by the claims). -/
abbrev Scalar := ℚ

/-- `Vector3` from `vector.rs`: three scalar components. -/
structure Vector3 where
  x : Scalar
  y : Scalar
  z : Scalar
deriving DecidableEq, Repr

namespace Vector3

/-- `Vector3::new`. -/
def new (x y z : Scalar) : Vector3 := ⟨x, y, z⟩

/-- `Vector3::zero`. -/
def zero : Vector3 := ⟨0, 0, 0⟩

/-- `Vector3::one`. -/
def one : Vector3 := ⟨1, 1, 1⟩

/-- `impl Add for Vector3` (component-wise, via `AddAssign`). -/
instance : Add Vector3 := ⟨fun a b => ⟨a.x + b.x, a.y + b.y, a.z + b.z⟩⟩

/-- `impl Sub for Vector3` (component-wise, via `SubAssign`). -/
instance : Sub Vector3 := ⟨fun a b => ⟨a.x - b.x, a.y - b.y, a.z - b.z⟩⟩

/-- `impl Mul for Vector3` (component-wise, via `MulAssign`). -/
instance : Mul Vector3 := ⟨fun a b => ⟨a.x * b.x, a.y * b.y, a.z * b.z⟩⟩

/-- `impl Neg for Vector3`. -/
instance : Neg Vector3 := ⟨fun a => ⟨-a.x, -a.y, -a.z⟩⟩

/-- `impl Div<f32> for Vector3` (via `DivAssign<f32>`): divides every
component of the vector by the scalar. -/
def divScalar (v : Vector3) (s : Scalar) : Vector3 := ⟨v.x / s, v.y / s, v.z / s⟩

/-- `impl Div<Vector3> for f32`, exactly as written in `vector.rs`
(`fn div(self, rhs: Vector3) -> Vector3 { rhs / self }`): the result is
the VECTOR divided by the scalar, not the per-component reciprocal. -/
def scalarDiv (s : Scalar) (v : Vector3) : Vector3 := v.divScalar s

end Vector3

/-- `Point` of `polygon_math`. Modelled from the spec: a 3D point; the
`w` component exists because `Mul<Matrix4> for Point` in `matrix.rs`
reads `self.w`, and homogeneous points carry `w = 1`. -/
structure Point where
  x : Scalar
  y : Scalar
  z : Scalar
  w : Scalar
deriving DecidableEq, Repr

namespace Point

/-- Modelled from the spec: `Point::new` builds a homogeneous point
(`w = 1`). -/
def new (x y z : Scalar) : Point := ⟨x, y, z, 1⟩

/-- Modelled from the spec: `Point::origin`. -/
def origin : Point := Point.new 0 0 0

/-- Modelled from the spec ("vector arithmetic (add, negate ...)"):
point + vector translates the coordinates; `w` is untouched.  Only the
`x`, `y`, `z` coordinates are ever consumed downstream
(`Matrix4::from_point` reads exactly those). -/
def addVector (p : Point) (v : Vector3) : Point := ⟨p.x + v.x, p.y + v.y, p.z + v.z, p.w⟩

/-- Modelled from the spec ("point/vector subtraction yielding a
direction"): point - point gives the direction vector between them. -/
def subPoint (p q : Point) : Vector3 := ⟨p.x - q.x, p.y - q.y, p.z - q.z⟩

/-- Modelled from the spec ("negate"): negates the coordinates; `w` is
untouched (only `x`, `y`, `z` are consumed by `Matrix4::from_point`). -/
def negate (p : Point) : Point := ⟨-p.x, -p.y, -p.z, p.w⟩

end Point

/-- `Quaternion` of `polygon_math`. Modelled from the spec: a unit
quaternion with components `w x y z` (the field names are those consumed
by `Matrix4::from_quaternion` in `matrix.rs`). -/
structure Quaternion where
  w : Scalar
  x : Scalar
  y : Scalar
  z : Scalar
deriving DecidableEq, Repr

namespace Quaternion

/-- Modelled from the spec: `Quaternion::identity`, the identity
rotation. -/
def identity : Quaternion := ⟨1, 0, 0, 0⟩

/-- Modelled from the spec ("quaternion multiplication"): the Hamilton
product.  The claims verified here use it only at the identity or as an
uninterpreted composition on both sides of an equation, so any faithful
multiplication with identity `Quaternion.identity` yields the same
results. -/
instance : Mul Quaternion :=
  ⟨fun a b =>
    ⟨a.w * b.w - a.x * b.x - a.y * b.y - a.z * b.z,
     a.w * b.x + a.x * b.w + a.y * b.z - a.z * b.y,
     a.w * b.y - a.x * b.z + a.y * b.w + a.z * b.x,
     a.w * b.z + a.x * b.y - a.y * b.x + a.z * b.w⟩⟩

end Quaternion

/-- `Matrix4` from `matrix.rs`: a row-major 4x4 matrix; field `mRC` is
`self[R][C]` of the source. -/
structure Matrix4 where
  m00 : Scalar
  m01 : Scalar
  m02 : Scalar
  m03 : Scalar
  m10 : Scalar
  m11 : Scalar
  m12 : Scalar
  m13 : Scalar
  m20 : Scalar
  m21 : Scalar
  m22 : Scalar
  m23 : Scalar
  m30 : Scalar
  m31 : Scalar
  m32 : Scalar
  m33 : Scalar
deriving DecidableEq, Repr

namespace Matrix4

/-- `Matrix4::identity`. -/
def identity : Matrix4 :=
  ⟨1, 0, 0, 0,
   0, 1, 0, 0,
   0, 0, 1, 0,
   0, 0, 0, 1⟩

/-- `Matrix4::translation`. -/
def translation (x y z : Scalar) : Matrix4 :=
  ⟨1, 0, 0, x,
   0, 1, 0, y,
   0, 0, 1, z,
   0, 0, 0, 1⟩

/-- `Matrix4::from_point`. -/
def from_point (p : Point) : Matrix4 := translation p.x p.y p.z

/-- `Matrix4::from_quaternion`. -/
def from_quaternion (q : Quaternion) : Matrix4 :=
  ⟨q.w * q.w + q.x * q.x - q.y * q.y - q.z * q.z, 2 * q.x * q.y - 2 * q.w * q.z,
      2 * q.x * q.z + 2 * q.w * q.y, 0,
   2 * q.x * q.y + 2 * q.w * q.z, q.w * q.w - q.x * q.x + q.y * q.y - q.z * q.z,
      2 * q.y * q.z - 2 * q.w * q.x, 0,
   2 * q.x * q.z - 2 * q.w * q.y, 2 * q.y * q.z + 2 * q.w * q.x,
      q.w * q.w - q.x * q.x - q.y * q.y + q.z * q.z, 0,
   0, 0, 0, 1⟩

/-- `Matrix4::from_scale_vector`. -/
def from_scale_vector (s : Vector3) : Matrix4 :=
  ⟨s.x, 0, 0, 0,
   0, s.y, 0, 0,
   0, 0, s.z, 0,
   0, 0, 0, 1⟩

/-- `Matrix4::transpose` (the in-place swap loop of the source realises
exactly the transposed matrix). -/
def transpose (m : Matrix4) : Matrix4 :=
  ⟨m.m00, m.m10, m.m20, m.m30,
   m.m01, m.m11, m.m21, m.m31,
   m.m02, m.m12, m.m22, m.m32,
   m.m03, m.m13, m.m23, m.m33⟩

/-- `impl Mul<Matrix4> for Matrix4`: the sixteen unrolled 4-term dot
products of the source, entry for entry. -/
instance : Mul Matrix4 :=
  ⟨fun a b =>
    ⟨a.m00 * b.m00 + a.m01 * b.m10 + a.m02 * b.m20 + a.m03 * b.m30,
     a.m00 * b.m01 + a.m01 * b.m11 + a.m02 * b.m21 + a.m03 * b.m31,
     a.m00 * b.m02 + a.m01 * b.m12 + a.m02 * b.m22 + a.m03 * b.m32,
     a.m00 * b.m03 + a.m01 * b.m13 + a.m02 * b.m23 + a.m03 * b.m33,
     a.m10 * b.m00 + a.m11 * b.m10 + a.m12 * b.m20 + a.m13 * b.m30,
     a.m10 * b.m01 + a.m11 * b.m11 + a.m12 * b.m21 + a.m13 * b.m31,
     a.m10 * b.m02 + a.m11 * b.m12 + a.m12 * b.m22 + a.m13 * b.m32,
     a.m10 * b.m03 + a.m11 * b.m13 + a.m12 * b.m23 + a.m13 * b.m33,
     a.m20 * b.m00 + a.m21 * b.m10 + a.m22 * b.m20 + a.m23 * b.m30,
     a.m20 * b.m01 + a.m21 * b.m11 + a.m22 * b.m21 + a.m23 * b.m31,
     a.m20 * b.m02 + a.m21 * b.m12 + a.m22 * b.m22 + a.m23 * b.m32,
     a.m20 * b.m03 + a.m21 * b.m13 + a.m22 * b.m23 + a.m23 * b.m33,
     a.m30 * b.m00 + a.m31 * b.m10 + a.m32 * b.m20 + a.m33 * b.m30,
     a.m30 * b.m01 + a.m31 * b.m11 + a.m32 * b.m21 + a.m33 * b.m31,
     a.m30 * b.m02 + a.m31 * b.m12 + a.m32 * b.m22 + a.m33 * b.m32,
     a.m30 * b.m03 + a.m31 * b.m13 + a.m32 * b.m23 + a.m33 * b.m33⟩⟩

/-- `Matrix4::translation_part`: `Point::new(self[0][3], self[1][3],
self[2][3])`. -/
def translation_part (m : Matrix4) : Point := Point.new m.m03 m.m13 m.m23

end Matrix4

/-- Modelled from the spec ("quaternion-to-matrix conversion"):
`Quaternion::as_matrix4` from the missing `quaternion.rs`; the conversion
formula itself is `Matrix4::from_quaternion` of `matrix.rs`. -/
def Quaternion.as_matrix4 (q : Quaternion) : Matrix4 := Matrix4.from_quaternion q

/-- The `Transform` component of `transform.rs`.  The `Cell`-wrapped
fields of the Rust struct are plain fields here; the code is
single-threaded and every interior mutation is modelled by producing the
updated record. -/
structure Transform where
  position         : Point
  rotation         : Quaternion
  scale            : Vector3
  local_matrix     : Matrix4
  position_derived : Point
  rotation_derived : Quaternion
  scale_derived    : Vector3
  matrix_derived   : Matrix4
  out_of_date      : Bool
deriving DecidableEq

namespace Transform

/-- `Transform::new`. -/
def new : Transform where
  position         := Point.origin
  rotation         := Quaternion.identity
  scale            := Vector3.one
  local_matrix     := Matrix4.identity
  position_derived := Point.origin
  rotation_derived := Quaternion.identity
  scale_derived    := Vector3.one
  matrix_derived   := Matrix4.identity
  out_of_date      := false

/-- `Transform::set_position`. -/
def set_position (t : Transform) (new_position : Point) : Transform :=
  { t with position := new_position, out_of_date := true }

/-- `Transform::set_rotation`. -/
def set_rotation (t : Transform) (new_rotation : Quaternion) : Transform :=
  { t with rotation := new_rotation, out_of_date := true }

/-- `Transform::set_scale`. -/
def set_scale (t : Transform) (new_scale : Vector3) : Transform :=
  { t with scale := new_scale, out_of_date := true }

/-- `Transform::translate`. -/
def translate (t : Transform) (translation : Vector3) : Transform :=
  { t with position := t.position.addVector translation, out_of_date := true }

/-- `Transform::rotate`. -/
def rotate (t : Transform) (rotation : Quaternion) : Transform :=
  { t with rotation := t.rotation * rotation, out_of_date := true }

/-- `Transform::look_at`.  `Quaternion::look_rotation` lives in the
missing `quaternion.rs`; the spec specifies only its signature ("a
look-rotation constructor from a forward+up pair"), so it is passed in as
a parameter. -/
def look_at (look_rotation : Vector3 → Vector3 → Quaternion)
    (t : Transform) (interest : Point) (up : Vector3) : Transform :=
  { t with rotation := look_rotation (interest.subPoint t.position) up,
           out_of_date := true }

/-- `Transform::look_direction` (same `look_rotation` parameter as
`look_at`). -/
def look_direction (look_rotation : Vector3 → Vector3 → Quaternion)
    (t : Transform) (forward : Vector3) (up : Vector3) : Transform :=
  { t with rotation := look_rotation forward up, out_of_date := true }

/-- The value `Transform::local_matrix` returns: when `out_of_date` is
set the matrix is recomputed from the current position, rotation, and
scale, otherwise the cache is read. -/
def local_matrix' (t : Transform) : Matrix4 :=
  if t.out_of_date then
    Matrix4.from_point t.position * (t.rotation.as_matrix4 * Matrix4.from_scale_vector t.scale)
  else
    t.local_matrix

/-- `Transform::local_matrix` also writes the recomputed matrix back to
the cache; this is the transform after that write. -/
def local_matrix_cached (t : Transform) : Transform :=
  { t with local_matrix := t.local_matrix' }

/-- `Transform::position_derived`: asserts (fails fatally) when the
transform is out of date. -/
def position_derived' (t : Transform) : Option Point :=
  if t.out_of_date then none else some t.position_derived

/-- `Transform::rotation_derived`: asserts when out of date. -/
def rotation_derived' (t : Transform) : Option Quaternion :=
  if t.out_of_date then none else some t.rotation_derived

/-- `Transform::scale_derived`: asserts when out of date. -/
def scale_derived' (t : Transform) : Option Vector3 :=
  if t.out_of_date then none else some t.scale_derived

/-- `Transform::derived_matrix`: asserts when out of date. -/
def derived_matrix (t : Transform) : Option Matrix4 :=
  if t.out_of_date then none else some t.matrix_derived

/-- `Transform::derived_normal_matrix`: asserts when out of date, then
returns the transpose of
`from_scale_vector(1.0 / scale_derived) * (rotation_matrix_transpose * from_point(-position_derived))`,
where `1.0 / v` is the scalar/vector division of `vector.rs`
(`Vector3.scalarDiv`). -/
def derived_normal_matrix (t : Transform) : Option Matrix4 :=
  if t.out_of_date then none
  else
    let inv :=
      Matrix4.from_scale_vector (Vector3.scalarDiv 1 t.scale_derived)
        * (t.rotation_derived.as_matrix4.transpose
            * Matrix4.from_point t.position_derived.negate)
    some inv.transpose

/-- `Transform::update`: recomputes the local matrix (through the cache),
derives matrix/position/rotation/scale from the parent's derived state,
and clears `out_of_date`.  The reads `parent.derived_matrix()`,
`parent.rotation_derived()` and `parent.scale_derived()` assert that the
parent is up to date, so the update fails fatally (`none`) on an
out-of-date parent. -/
def update (t : Transform) (parent : Transform) : Option Transform :=
  if parent.out_of_date then none
  else
    let lm := t.local_matrix'
    let dm := parent.matrix_derived * lm
    some { t with
      local_matrix     := lm
      matrix_derived   := dm
      position_derived := dm.translation_part
      rotation_derived := parent.rotation_derived * t.rotation
      scale_derived    := t.scale * parent.scale_derived
      out_of_date      := false }

end Transform

/-- `DUMMY_TRANSFORM`: the thread-local identity sentinel transform used
as the effective parent of parentless entries. -/
def DUMMY_TRANSFORM : Transform := Transform.new

/-- `Entity`: opaque unique identifier (an externally allocated id). -/
abbrev Entity := Nat

/-- Association-list lookup, modelling `HashMap::get`. -/
def alookup {β : Type} : List (Entity × β) → Entity → Option β
  | [], _ => none
  | (k, v) :: l, e => if k = e then some v else alookup l e

/-- Removal of a key, modelling the deletion performed by
`HashMap::remove` (and by `insert` on an existing key). -/
def aerase {β : Type} : List (Entity × β) → Entity → List (Entity × β)
  | [], _ => []
  | (k, v) :: l, e => if k = e then aerase l e else (k, v) :: aerase l e

/-- `HashMap::insert`: overwrites any existing binding of the key. -/
def ainsert {β : Type} (l : List (Entity × β)) (e : Entity) (v : β) : List (Entity × β) :=
  (e, v) :: aerase l e

/-- `Vec::swap_remove(i)`: returns the element at `i` and the vector with
the last element moved into slot `i`; fails (panics) when `i` is out of
bounds. -/
def swapRemove {α : Type} (l : List α) (i : Nat) : Option (α × List α) :=
  match l[i]?, l.getLast? with
  | some a, some b => some (a, (l.set i b).dropLast)
  | _, _ => none

/-- `HashSet::insert`: adds the element when absent. -/
def hsInsert (l : List Entity) (e : Entity) : List Entity :=
  if e ∈ l then l else e :: l

/-- `TransformManager` of `transform.rs`.  `transforms` and `entities`
are the parallel depth-indexed rows; `indices` is the entity → (row,
slot) map; `marked_for_destroy` is the pending-destruction set. -/
structure TransformManager where
  transforms : List (List Transform)
  entities : List (List (Entity × Option Entity))
  indices : List (Entity × (Nat × Nat))
  marked_for_destroy : List Entity
deriving DecidableEq

namespace TransformManager

/-- `TransformManager::new`: empty manager with one (empty) root row. -/
def new : TransformManager where
  transforms := [[]]
  entities := [[]]
  indices := []
  marked_for_destroy := []

/-- `TransformManager::assign`: pushes a fresh transform at the end of
row 0, records `(entity, None)`, asserts that the two row-0 arrays have
equal lengths, and points the index at the new slot.  The source performs
no duplicate check: an existing binding of `entity` is silently
overwritten by `HashMap::insert`.  Fails (panics) only if row 0 is
missing. -/
def assign (tm : TransformManager) (entity : Entity) : Option TransformManager :=
  match tm.transforms[0]?, tm.entities[0]? with
  | some trow, some erow =>
    let index := trow.length
    let trow' := trow ++ [Transform.new]
    let erow' := erow ++ [(entity, (none : Option Entity))]
    if trow'.length = erow'.length then
      some { tm with
        transforms := tm.transforms.set 0 trow'
        entities := tm.entities.set 0 erow'
        indices := ainsert tm.indices entity (0, index) }
    else none
  | _, _ => none

/-- `TransformManager::get` (and `get_mut`): index lookup followed by the
slot read; fails (panics) when the entity has no transform. -/
def get (tm : TransformManager) (entity : Entity) : Option Transform :=
  match alookup tm.indices entity with
  | none => none
  | some (row, index) =>
    match tm.transforms[row]? with
    | none => none
    | some trow => trow[index]?

/-- `TransformManager::remove`: removes the index binding, swap-removes
the entity's slot from both parallel rows (the two `debug_assert!`s of
the source are modelled as failures), and when the removed slot was not
the last of the row re-points the index entry of the entity that
`swap_remove` moved into the freed slot. -/
def remove (tm : TransformManager) (entity : Entity) :
    Option (Transform × TransformManager) :=
  match alookup tm.indices entity with
  | none => none
  | some (row, index) =>
    let indices' := aerase tm.indices entity
    match tm.transforms[row]?, tm.entities[row]? with
    | some trow, some erow =>
      if trow.length = erow.length then
        match swapRemove erow index, swapRemove trow index with
        | some ((removed_entity, _), erow'), some (t, trow') =>
          if removed_entity = entity then
            if index ≠ erow'.length then
              match erow'[index]? with
              | some (moved_entity, _) =>
                some (t, { tm with
                  transforms := tm.transforms.set row trow'
                  entities := tm.entities.set row erow'
                  indices := ainsert indices' moved_entity (row, index) })
              | none => none
            else
              some (t, { tm with
                transforms := tm.transforms.set row trow'
                entities := tm.entities.set row erow'
                indices := indices' })
          else none
        | _, _ => none
      else none
    | _, _ => none

/-- The `while self.transforms.len() < new_row + 1` growth loop of
`set_row_recursive`: appends the same number of empty rows to both
arrays until the transforms array has at least `target` rows. -/
def growTo (tm : TransformManager) (target : Nat) : TransformManager :=
  let k := target - tm.transforms.length
  { tm with
    transforms := tm.transforms ++ List.replicate k []
    entities := tm.entities ++ List.replicate k [] }

/-- The `for (child, maybe_parent) in self.entities[old_row + 1].clone()`
loop of `set_row_recursive`: walks the snapshotted list, recursing (via
`step`) into each entry whose recorded parent equals `ent`. -/
def childFold (ent : Entity) (step : TransformManager → Entity → Option TransformManager) :
    TransformManager → List (Entity × Option Entity) → Option TransformManager
  | tm, [] => some tm
  | tm, (child, mp) :: rest =>
    if mp = some ent then
      match step tm child with
      | none => none
      | some tm' => childFold ent step tm' rest
    else childFold ent step tm rest

/-- `TransformManager::set_row_recursive`, with an explicit recursion-depth
fuel: the Rust function recurses on the hierarchy and diverges on cyclic
parent links, which the model renders as `none` when the fuel is
exhausted.  Apart from the fuel the body mirrors the source line by line:
the `debug_assert!` on `(new_row, parent)`; the index lookup (panic if
absent); `remove`; the growth loop; the push onto row `new_row` recording
`(entity, parent)`; the index insert; and the recursion over a snapshot
of row `old_row + 1` (reading that row panics when it does not exist). -/
def set_row_recursive :
    Nat → TransformManager → Entity → Option Entity → Nat → Option TransformManager
  | 0, _, _, _, _ => none
  | fuel + 1, tm, entity, parent, new_row =>
    if (new_row = 0 ∧ parent = none) ∨ (0 < new_row ∧ parent ≠ none) then
      match alookup tm.indices entity with
      | none => none
      | some (old_row, _) =>
        match tm.remove entity with
        | none => none
        | some (t, tm1) =>
          let tm2 := tm1.growTo (new_row + 1)
          match tm2.transforms[new_row]?, tm2.entities[new_row]? with
          | some trow, some erow =>
            let child_index := trow.length
            let tm4 : TransformManager :=
              { transforms := tm2.transforms.set new_row (trow ++ [t])
                entities := tm2.entities.set new_row (erow ++ [(entity, parent)])
                indices := ainsert tm2.indices entity (new_row, child_index)
                marked_for_destroy := tm2.marked_for_destroy }
            match tm4.entities[old_row + 1]? with
            | none => none
            | some children =>
              childFold entity
                (fun tmAcc child =>
                  set_row_recursive fuel tmAcc child (some entity) (new_row + 1))
                tm4 children
          | _, _ => none
    else none

/-- Fuel large enough for every terminating run of `set_row_recursive`:
the Rust recursion descends one hierarchy level per call, so on any state
whose hierarchy is acyclic the depth is bounded by the number of indexed
entities. -/
def srrFuel (tm : TransformManager) : Nat := tm.indices.length + 1

/-- `TransformManager::set_child`: looks up the parent's row (panic if
absent) and relocates `child` together with its subtree to
`parent_row + 1`. -/
def set_child (tm : TransformManager) (parent child : Entity) : Option TransformManager :=
  match alookup tm.indices parent with
  | none => none
  | some (parent_row, _) =>
    set_row_recursive (srrFuel tm) tm child (some parent) (parent_row + 1)

/-- The child-row scan shared by `walk_hierarchy` and `walk_children`:
when the root has a transform and the row after it exists (the source
guards on `self.transforms.len() > child_row` but then indexes
`self.entities[child_row]`, a panic when that row is missing), the scan
filters the child row, calling `.unwrap()` on every recorded parent — a
panic (`none`) as soon as any scanned entry has no recorded parent. -/
def childrenOf (tm : TransformManager) (entity : Entity) : Option (List Entity) :=
  match alookup tm.indices entity with
  | none => some []
  | some (row, _) =>
    if row + 1 < tm.transforms.length then
      match tm.entities[row + 1]? with
      | none => none
      | some erow =>
        erow.foldr
          (fun child acc =>
            match acc, child.2 with
            | some l, some p => some (if p = entity then child.1 :: l else l)
            | _, _ => none)
          (some [])
    else some []

/-- `TransformManager::destroy` (and `ComponentManager::destroy_all`):
inserts the entity into the pending-destruction set; no other field is
touched. -/
def destroy (tm : TransformManager) (entity : Entity) : TransformManager :=
  { tm with marked_for_destroy := hsInsert tm.marked_for_destroy entity }

/-- `ComponentManager::destroy_all` for `TransformManager`: identical to
`destroy`. -/
def destroy_all (tm : TransformManager) (entity : Entity) : TransformManager :=
  { tm with marked_for_destroy := hsInsert tm.marked_for_destroy entity }

/-- `TransformManager::destroy_immediate`: immediate removal (panics when
the entity has no transform). -/
def destroy_immediate (tm : TransformManager) (entity : Entity) : Option TransformManager :=
  match tm.remove entity with
  | none => none
  | some (_, tm') => some tm'

/-- The drain loop of `destroy_marked`: destroys each drained entity
immediately, failing fatally on the first one without a transform. -/
def removeAll : TransformManager → List Entity → Option TransformManager
  | tm, [] => some tm
  | tm, e :: rest =>
    match tm.remove e with
    | none => none
    | some (_, tm') => removeAll tm' rest

/-- `ComponentManager::destroy_marked` for `TransformManager`: swaps the
pending set with an empty one, then destroys every drained entity
immediately. -/
def destroy_marked (tm : TransformManager) : Option TransformManager :=
  removeAll { tm with marked_for_destroy := [] } tm.marked_for_destroy

/-- Resolution of the effective parent transform in `transform_update`:
the `DUMMY_TRANSFORM` sentinel for parentless entries, otherwise `get` on
the manager (a panic when the parent is not registered). -/
def parentRes (tm : TransformManager) (parentOpt : Option Entity) : Option Transform :=
  match parentOpt with
  | none => some DUMMY_TRANSFORM
  | some p => tm.get p

/-- One `transform.borrow().update(..)` step of `transform_update` at row
`r`, slot `i`: reads the stored transform and its recorded parent,
resolves the effective parent, and writes back the updated transform. -/
def updateEntry (tm : TransformManager) (r i : Nat) : Option TransformManager :=
  match tm.transforms[r]? with
  | none => none
  | some trow =>
    match trow[i]?, tm.entities[r]? with
    | some t, some erow =>
      match erow[i]? with
      | none => none
      | some (_, parentOpt) =>
        match parentRes tm parentOpt with
        | none => none
        | some pt =>
          match t.update pt with
          | none => none
          | some t' =>
            some { tm with transforms := tm.transforms.set r (trow.set i t') }
    | _, _ => none

/-- The inner loop of `transform_update`: updates `n` consecutive entries
of row `r` starting at slot `i`, threading the manager state (each entry
sees every earlier in-place cell write). -/
def updateRowFrom (r : Nat) : TransformManager → Nat → Nat → Option TransformManager
  | tm, _, 0 => some tm
  | tm, i, n + 1 =>
    match updateEntry tm r i with
    | none => none
    | some tm' => updateRowFrom r tm' (i + 1) n

/-- The outer loop of `transform_update`: processes `n` consecutive rows
starting at row `r`; within a row the zipped iteration visits
`min (transform row length) (entity row length)` entries. -/
def updateRowsFrom : TransformManager → Nat → Nat → Option TransformManager
  | tm, _, 0 => some tm
  | tm, r, n + 1 =>
    let len :=
      min ((tm.transforms[r]?.getD []).length) ((tm.entities[r]?.getD []).length)
    match updateRowFrom r tm 0 len with
    | none => none
    | some tm' => updateRowsFrom tm' (r + 1) n

end TransformManager

/-- `transform_update` (the per-frame system hook): iterates
`transforms.iter().zip(entities.iter())` row by row in increasing row
order and, within each row, slot by slot, updating every stored transform
unconditionally, with the identity sentinel as effective parent of
parentless entries. -/
def transform_update (tm : TransformManager) : Option TransformManager :=
  TransformManager.updateRowsFrom tm 0 (min tm.transforms.length tm.entities.length)

/-- `TransformManager::update_single`, with recursion-depth fuel (the
Rust function recurses into the parent chain and diverges on a cyclic
chain): updates the entity's ancestors first, then the entity itself from
its parent's refreshed state. -/
def TransformManager.update_single :
    Nat → TransformManager → Entity → Option TransformManager
  | 0, _, _ => none
  | fuel + 1, tm, entity =>
    match alookup tm.indices entity with
    | none => none
    | some (row, index) =>
      match tm.entities[row]? with
      | none => none
      | some erow =>
        match erow[index]? with
        | none => none
        | some (_, parentOpt) =>
          match parentOpt with
          | none =>
            match tm.get entity with
            | none => none
            | some t =>
              match t.update DUMMY_TRANSFORM with
              | none => none
              | some t' =>
                some { tm with transforms :=
                  tm.transforms.set row (((tm.transforms[row]?).getD []).set index t') }
          | some parent =>
            match TransformManager.update_single fuel tm parent with
            | none => none
            | some tm' =>
              match tm'.get parent, tm'.get entity with
              | some pt, some t =>
                match t.update pt with
                | none => none
                | some t' =>
                  some { tm' with transforms :=
                    tm'.transforms.set row (((tm'.transforms[row]?).getD []).set index t') }
              | _, _ => none

namespace TransformManager

/-- The stored `(entity, parent)` entry at row `r`, slot `i`. -/
def entryAt (tm : TransformManager) (r i : Nat) : Option (Entity × Option Entity) :=
  (tm.entities[r]?).bind (·[i]?)

/-- The row recorded for an entity by the index. -/
def rowOf (tm : TransformManager) (e : Entity) : Option Nat :=
  (alookup tm.indices e).map Prod.fst

/-- The parent link of an entity's stored entry, resolved through the
index: `none` when the entity is not stored, `some q` where `q` is the
recorded optional parent otherwise. -/
def parentLink (tm : TransformManager) (e : Entity) : Option (Option Entity) :=
  (alookup tm.indices e).bind fun ri => (entryAt tm ri.1 ri.2).map Prod.snd

/-- Both row arrays have the same number of rows and equal lengths row
by row. -/
@[reducible] def rowsSync (tm : TransformManager) : Prop :=
  tm.transforms.length = tm.entities.length
    ∧ ∀ p ∈ tm.transforms.zip tm.entities, p.1.length = p.2.length

/-- Every index binding resolves to a slot whose stored entity is the
key. -/
@[reducible] def idxSound (tm : TransformManager) : Prop :=
  ∀ b ∈ tm.indices, (entryAt tm b.2.1 b.2.2).map Prod.fst = some b.1

/-- Every stored slot's entity is indexed at exactly that slot. -/
@[reducible] def storageSound (tm : TransformManager) : Prop :=
  ∀ rp ∈ tm.entities.enum, ∀ ip ∈ rp.2.enum, alookup tm.indices ip.2.1 = some (rp.1, ip.1)

/-- The index map binds each entity at most once. -/
@[reducible] def keysNodup (tm : TransformManager) : Prop :=
  (tm.indices.map Prod.fst).Nodup

/-- An entry's recorded parent is `None` exactly on row 0 (the claim-C10
invariant). -/
@[reducible] def parentNoneIffRow0 (tm : TransformManager) : Prop :=
  ∀ rp ∈ tm.entities.enum, ∀ ent ∈ rp.2, (ent.2 = none ↔ rp.1 = 0)

/-- Every recorded parent is itself stored, one row above its child. -/
@[reducible] def parentRowOK (tm : TransformManager) : Prop :=
  ∀ rp ∈ tm.entities.enum, ∀ ent ∈ rp.2, ∀ p ∈ ent.2.toList,
    (alookup tm.indices p).map Prod.fst = some (rp.1 - 1)

/-- `parentRowOK` weakened by a set `B` of excused entities (used while
`set_row_recursive` is mid-flight and the entries of not-yet-relocated
descendants are stale). -/
@[reducible] def parentRowOKExcept (B : Set Entity) (tm : TransformManager) : Prop :=
  ∀ rp ∈ tm.entities.enum, ∀ ent ∈ rp.2, ent.1 ∉ B → ∀ p ∈ ent.2.toList,
    (alookup tm.indices p).map Prod.fst = some (rp.1 - 1)

/-- The base structural invariant: synced rows, sound index/storage
bijection, functional index, and a present root row. -/
@[reducible] def WFbase (tm : TransformManager) : Prop :=
  rowsSync tm ∧ idxSound tm ∧ storageSound tm ∧ keysNodup tm
    ∧ 0 < tm.transforms.length

/-- The full hierarchical-store invariant. -/
@[reducible] def WF (tm : TransformManager) : Prop :=
  WFbase tm ∧ parentNoneIffRow0 tm ∧ parentRowOK tm

/-- Intermediate states of the per-frame pass: rows before `k` hold the
updated transforms (each produced by `Transform.update` from the original
transform and its effective parent's current value, hence clean), rows
from `k` on are untouched, and no other field has changed. -/
def UpdatedBelow (tm : TransformManager) (k : Nat) (tmk : TransformManager) : Prop :=
  tmk.entities = tm.entities
  ∧ tmk.indices = tm.indices
  ∧ tmk.marked_for_destroy = tm.marked_for_destroy
  ∧ tmk.transforms.length = tm.transforms.length
  ∧ (∀ r, k ≤ r → tmk.transforms[r]? = tm.transforms[r]?)
  ∧ (∀ r, r < k → (tmk.transforms[r]?).map List.length = (tm.transforms[r]?).map List.length)
  ∧ (∀ r, r < k → ∀ (i : Nat) t0 ent, (tm.transforms[r]?).bind (·[i]?) = some t0 →
      (tm.entities[r]?).bind (·[i]?) = some ent →
      ∃ pt t1, (tmk.transforms[r]?).bind (·[i]?) = some t1
        ∧ t0.update pt = some t1
        ∧ parentRes tmk ent.2 = some pt)
  ∧ (∀ r, r < k → ∀ (i : Nat) t1, (tmk.transforms[r]?).bind (·[i]?) = some t1 →
      t1.out_of_date = false)

/-- No stored entry records `e` as its parent. -/
@[reducible] def childless (tm : TransformManager) (e : Entity) : Prop :=
  ∀ row ∈ tm.entities, ∀ ent ∈ row, ent.2 ≠ some e

/-- The states reachable by the operations exactly as claim C1 words
them: `assign` (which in the source performs no duplicate check),
`set_child`, and removal of childless entities — a step exists whenever
the source operation completes (a panic or divergence produces no
state). -/
inductive ReachableU : TransformManager → Prop
  | base : ReachableU TransformManager.new
  | assign_step (tm tm' : TransformManager) (e : Entity) :
      ReachableU tm → tm.assign e = some tm' → ReachableU tm'
  | set_child_step (tm tm' : TransformManager) (p c : Entity) :
      ReachableU tm → tm.set_child p c = some tm' → ReachableU tm'
  | remove_step (tm tm' : TransformManager) (e : Entity) (t : Transform) :
      ReachableU tm → childless tm e → tm.remove e = some (t, tm') → ReachableU tm'

/-- Reachability as in `ReachableU`, but with `assign` restricted to
entities that do not already have a transform (the amendment forced by
the duplicate-assign counterexample). -/
inductive ReachableF : TransformManager → Prop
  | base : ReachableF TransformManager.new
  | assign_step (tm tm' : TransformManager) (e : Entity) :
      ReachableF tm → alookup tm.indices e = none → tm.assign e = some tm' →
      ReachableF tm'
  | set_child_step (tm tm' : TransformManager) (p c : Entity) :
      ReachableF tm → tm.set_child p c = some tm' → ReachableF tm'
  | remove_step (tm tm' : TransformManager) (e : Entity) (t : Transform) :
      ReachableF tm → childless tm e → tm.remove e = some (t, tm') → ReachableF tm'

/-- Number of parent links followed from `e`'s entry to an entry whose
recorded parent is `none`, allowing at most `fuel` links; `none` when a
link is dangling or the budget is exhausted. -/
def depthFrom : Nat → TransformManager → Entity → Option Nat
  | 0, tm, e =>
    match parentLink tm e with
    | some none => some 0
    | _ => none
  | fuel + 1, tm, e =>
    match parentLink tm e with
    | some none => some 0
    | some (some p) => (depthFrom fuel tm p).map (· + 1)
    | none => none

end TransformManager

/-- Mutation of one entity's transform through
`TransformManager::get_mut` (index lookup, then an in-place write of the
borrowed transform): fails when the entity has no transform. -/
def TransformManager.modifyTransform (tm : TransformManager) (e : Entity)
    (f : Transform → Transform) : Option TransformManager :=
  match alookup tm.indices e with
  | none => none
  | some (r, i) =>
    match tm.transforms[r]? with
    | none => none
    | some trow =>
      match trow[i]? with
      | none => none
      | some t => some { tm with transforms := tm.transforms.set r (trow.set i (f t)) }

/-- A one-entity state (entity 1 at row 0, slot 0) used by the C5
counterexample. -/
def c5State : TransformManager where
  transforms := [[Transform.new]]
  entities := [[(1, none)]]
  indices := [(1, (0, 0))]
  marked_for_destroy := []

/-- The state `assign` silently produces when called on `c5State` with
the already-registered entity 1. -/
def c5Assigned : TransformManager :=
  (c5State.assign 1).getD TransformManager.new

/-- A three-entity single-row state (e1, e2, e3 at row 0) used by the C6
swap-remove witness. -/
def c6State : TransformManager where
  transforms := [[Transform.new, Transform.new, Transform.new]]
  entities := [[(1, none), (2, none), (3, none)]]
  indices := [(1, (0, 0)), (2, (0, 1)), (3, (0, 2))]
  marked_for_destroy := []

/-- `c6State` with entity 2 marked for destruction, used by the C9
witness. -/
def c9State : TransformManager :=
  { c6State with marked_for_destroy := [2] }

/-- A state whose pending-destruction set holds an entity (7) with no
transform, used by the C9 witness for the failure direction. -/
def c9Stale : TransformManager :=
  { c6State with marked_for_destroy := [7] }

section ChainScenario

open TransformManager

/-- The chain scenario of the spec: entities A=1 (root), B=2 (child of
A), C=3 (child of B) with local positions (1,0,0), (0,1,0), (0,0,1). -/
def chainManager : Option TransformManager :=
  (TransformManager.new.assign 1).bind fun t1 =>
  (t1.assign 2).bind fun t2 =>
  (t2.assign 3).bind fun t3 =>
  (t3.set_child 1 2).bind fun t4 =>
  (t4.set_child 2 3).bind fun t5 =>
  (t5.modifyTransform 1 (·.set_position (Point.new 1 0 0))).bind fun t6 =>
  (t6.modifyTransform 2 (·.set_position (Point.new 0 1 0))).bind fun t7 =>
  t7.modifyTransform 3 (·.set_position (Point.new 0 0 1))

/-- C's derived position after one update pass over the chain scenario. -/
def chainCPosition : Option Point :=
  chainManager.bind fun tm =>
  (transform_update tm).bind fun tm' =>
  (tm'.get 3).bind fun t =>
  t.position_derived'

end ChainScenario

/-- The normal matrix exactly as claim C7 words it: the transpose of
`S_inv * R_inv * T_inv` where `S_inv` is the diagonal scale matrix built
from the PER-AXIS RECIPROCALS of the derived scale, `R_inv` the transpose
of the derived rotation's matrix, and `T_inv` the translation by the
negated derived position.  (Comparison definition following the spec's
words; the code's version is `Transform.derived_normal_matrix`.) -/
def specNormalMatrix (t : Transform) : Matrix4 :=
  (Matrix4.from_scale_vector ⟨1 / t.scale_derived.x, 1 / t.scale_derived.y, 1 / t.scale_derived.z⟩
    * (t.rotation_derived.as_matrix4.transpose
        * Matrix4.from_point t.position_derived.negate)).transpose

/-- A concrete up-to-date transform with non-unit derived scale — the
failing input for claim C7. -/
def c7Input : Transform :=
  { Transform.new with scale_derived := ⟨2, 1, 1⟩ }

/-- The parent-presence invariant of claim C10: both row arrays have the
same number of rows, and an entry's recorded parent is `none` exactly
when the entry sits in row 0. -/
@[reducible] def TransformManager.presenceInv (tm : TransformManager) : Prop :=
  tm.transforms.length = tm.entities.length ∧ TransformManager.parentNoneIffRow0 tm

/-- A reachable one-entity state (`new` followed by `assign 1`), used by
the C10 witness. -/
def c10State : TransformManager :=
  (TransformManager.new.assign 1).getD TransformManager.new

/-- Intermediate states of the C4 scenario: assign entities 1, 2, 3,
then make 2 a child of 1. -/
def c4s1 : TransformManager :=
  (TransformManager.new.assign 1).getD TransformManager.new

def c4s2 : TransformManager := (c4s1.assign 2).getD TransformManager.new

def c4s3 : TransformManager := (c4s2.assign 3).getD TransformManager.new

/-- The C4 failing state: entities 1 and 3 at row 0, entity 2 at row 1
as child of 1.  Reparenting 2 under 3 (`set_child 3 2`) reads the row
below 2's old row — row 2, which does not exist — and panics. -/
def c4State : TransformManager := (c4s3.set_child 1 2).getD TransformManager.new

/-- The recorded-parent function of a state: `some p` when the entity is
stored with recorded parent `Some(p)`, `none` when it is unregistered or
a root. -/
def TransformManager.parentF (tm : TransformManager) (x : Entity) : Option Entity :=
  match tm.parentLink x with
  | some (some p) => some p
  | _ => none

/-- One upward step along an abstract parent function `g`. -/
def fstep (g : Entity → Option Entity) (x y : Entity) : Prop := g x = some y

/-- Reflexive-transitive reachability along parent links: `Reaches g x y`
holds when following recorded parents from `x` arrives at `y` (in zero or
more steps) — `y` is `x` itself or one of its ancestors. -/
def Reaches (g : Entity → Option Entity) : Entity → Entity → Prop :=
  Relation.ReflTransGen (fstep g)

/-- Strict reachability (at least one parent link followed). -/
def ReachesS (g : Entity → Option Entity) : Entity → Entity → Prop :=
  Relation.TransGen (fstep g)

/-- Adjacent elements of the list are parent-linked under `g`. -/
def gsteps (g : Entity → Option Entity) : List Entity → Prop
  | [] => True
  | [_] => True
  | x :: y :: rest => g x = some y ∧ gsteps g (y :: rest)

/-- `u` is stored exactly one row deeper than `v`. -/
def pairHealthy (tm : TransformManager) (u v : Entity) : Prop :=
  ∃ r, TransformManager.rowOf tm v = some r
    ∧ TransformManager.rowOf tm u = some (r + 1)

/-- Every adjacent (child, parent) pair of the list is `pairHealthy`. -/
def listHealthy (tm : TransformManager) : List Entity → Prop
  | [] => True
  | [_] => True
  | x :: y :: rest => pairHealthy tm x y ∧ listHealthy tm (y :: rest)

/-- The state built by the remove/grow/push phase of
`set_row_recursive`, before the recursion over the snapshotted child
row: the moved transform appended to row `nr` recording `(e, Some pe)`,
and the index re-pointed at that slot. -/
def TransformManager.srrPush (tm1 : TransformManager) (e pe : Entity) (nr : Nat)
    (t : Transform) (trow : List Transform)
    (erow : List (Entity × Option Entity)) : TransformManager :=
  { transforms := (tm1.growTo (nr + 1)).transforms.set nr (trow ++ [t])
    entities := (tm1.growTo (nr + 1)).entities.set nr (erow ++ [(e, some pe)])
    indices := ainsert (tm1.growTo (nr + 1)).indices e (nr, trow.length)
    marked_for_destroy := (tm1.growTo (nr + 1)).marked_for_destroy }

/-- Intermediate states of the C1 counterexample chain: assign 10, 11,
12; make 11 a child of 10 and 12 a child of 11; then `assign 11` again
(the unchecked duplicate assignment). -/
def c1s1 : TransformManager :=
  (TransformManager.new.assign 10).getD TransformManager.new

def c1s2 : TransformManager := (c1s1.assign 11).getD TransformManager.new

def c1s3 : TransformManager := (c1s2.assign 12).getD TransformManager.new

def c1s4 : TransformManager := (c1s3.set_child 10 11).getD TransformManager.new

def c1s5 : TransformManager := (c1s4.set_child 11 12).getD TransformManager.new

/-- The broken state of the C1 counterexample: after the duplicate
`assign 11`, entity 12 is still indexed at row 2 but its parent chain
(12 → 11, 11 now re-registered as a root) has length 1. -/
def c1Broken : TransformManager := (c1s5.assign 11).getD TransformManager.new

/-- C2.  Per-entity update correctness: for an up-to-date parent,
`Transform::update` succeeds and sets the derived matrix to
`parent.derived_matrix * local_matrix`, the derived position to the
translation column of that product, the derived rotation to
`parent.derived_rotation * local.rotation`, the derived scale to the
component-wise product `local.scale * parent.derived_scale`, and clears
`out_of_date`; and in the A→B→C chain scenario with local positions
(1,0,0), (0,1,0), (0,0,1), C's derived position after one update pass is
(1,1,1). -/
theorem transform_update_correct (t p : Transform) (h : p.out_of_date = false) :
    t.update p = some
      { t with
        local_matrix     := t.local_matrix'
        matrix_derived   := p.matrix_derived * t.local_matrix'
        position_derived := (p.matrix_derived * t.local_matrix').translation_part
        rotation_derived := p.rotation_derived * t.rotation
        scale_derived    := t.scale * p.scale_derived
        out_of_date      := false }
      ∧ chainCPosition = some (Point.new 1 1 1) := by
  constructor
  · simp [Transform.update, h]
  · decide

/-- Witness for C2 at a concrete input. -/
theorem transform_update_correct_witness :
    Transform.new.update Transform.new = some
      { Transform.new with
        local_matrix     := Transform.new.local_matrix'
        matrix_derived   := Transform.new.matrix_derived * Transform.new.local_matrix'
        position_derived :=
          (Transform.new.matrix_derived * Transform.new.local_matrix').translation_part
        rotation_derived := Transform.new.rotation_derived * Transform.new.rotation
        scale_derived    := Transform.new.scale * Transform.new.scale_derived
        out_of_date      := false }
      ∧ chainCPosition = some (Point.new 1 1 1) :=
  transform_update_correct Transform.new Transform.new rfl

/-- C7 (code bug).  The claim says `derived_normal_matrix` inverts the
scale through per-axis reciprocals, via the scalar/vector division
`1.0 / v`.  But `impl Div<Vector3> for f32` in `vector.rs` computes
`rhs / self` — the vector divided by the scalar — so `1.0 / v` evaluates
to `v` itself, and on the up-to-date input with derived scale (2,1,1) the
code produces the scale matrix for (2,1,1) where the claimed formula
requires (1/2,1,1). -/
theorem derived_normal_matrix_bug :
    Vector3.scalarDiv 1 c7Input.scale_derived = c7Input.scale_derived
      ∧ c7Input.derived_normal_matrix = some (Matrix4.from_scale_vector ⟨2, 1, 1⟩)
      ∧ specNormalMatrix c7Input = Matrix4.from_scale_vector ⟨1/2, 1, 1⟩
      ∧ c7Input.derived_normal_matrix ≠ some (specNormalMatrix c7Input) := by
  refine ⟨by decide, by decide, by decide, by decide⟩

/-- C8.  Dirty-flag contract: every local setter (`set_position`,
`set_rotation`, `set_scale`, `translate`, `rotate`, `look_at`,
`look_direction`) sets `out_of_date`; `update` clears it; every
derived-field getter fails fatally exactly when the flag is set and
returns the stored derived value otherwise; and `local_matrix` is always
readable, recomputing from the current position/rotation/scale exactly
when the flag is set. -/
theorem dirty_flag_contract
    (lr : Vector3 → Vector3 → Quaternion) (t p : Transform)
    (np : Point) (nr q : Quaternion) (ns v fwd up : Vector3) (interest : Point) :
    (t.set_position np).out_of_date = true
    ∧ (t.set_rotation nr).out_of_date = true
    ∧ (t.set_scale ns).out_of_date = true
    ∧ (t.translate v).out_of_date = true
    ∧ (t.rotate q).out_of_date = true
    ∧ (Transform.look_at lr t interest up).out_of_date = true
    ∧ (Transform.look_direction lr t fwd up).out_of_date = true
    ∧ (∀ t', t.update p = some t' → t'.out_of_date = false)
    ∧ (t.out_of_date = true →
        t.position_derived' = none ∧ t.rotation_derived' = none
          ∧ t.scale_derived' = none ∧ t.derived_matrix = none
          ∧ t.derived_normal_matrix = none)
    ∧ (t.out_of_date = false →
        t.position_derived' = some t.position_derived
          ∧ t.rotation_derived' = some t.rotation_derived
          ∧ t.scale_derived' = some t.scale_derived
          ∧ t.derived_matrix = some t.matrix_derived)
    ∧ (t.out_of_date = true →
        t.local_matrix' =
          Matrix4.from_point t.position
            * (t.rotation.as_matrix4 * Matrix4.from_scale_vector t.scale))
    ∧ (t.out_of_date = false → t.local_matrix' = t.local_matrix) := by
  refine ⟨rfl, rfl, rfl, rfl, rfl, rfl, rfl, ?_, ?_, ?_, ?_, ?_⟩
  · intro t' h
    unfold Transform.update at h
    by_cases hp : p.out_of_date <;> simp [hp] at h
    exact h ▸ rfl
  · intro h
    simp [Transform.position_derived', Transform.rotation_derived',
      Transform.scale_derived', Transform.derived_matrix,
      Transform.derived_normal_matrix, h]
  · intro h
    simp [Transform.position_derived', Transform.rotation_derived',
      Transform.scale_derived', Transform.derived_matrix, h]
  · intro h; simp [Transform.local_matrix', h]
  · intro h; simp [Transform.local_matrix', h]

section AssocLemmas

variable {β : Type}

theorem alookup_cons (k : Entity) (v : β) (l : List (Entity × β)) (e : Entity) :
    alookup ((k, v) :: l) e = if k = e then some v else alookup l e := rfl

theorem mem_of_alookup_eq_some {l : List (Entity × β)} {e : Entity} {v : β}
    (h : alookup l e = some v) : (e, v) ∈ l := by
  induction l with
  | nil => simp [alookup] at h
  | cons b l ih =>
    obtain ⟨k, w⟩ := b
    rw [alookup_cons] at h
    split_ifs at h with hk
    · injection h with h'
      subst h'; subst hk
      exact List.mem_cons_self _ _
    · exact List.mem_cons_of_mem _ (ih h)

theorem alookup_isSome_of_mem {l : List (Entity × β)} {e : Entity} {v : β}
    (h : (e, v) ∈ l) : (alookup l e).isSome := by
  induction l with
  | nil => simp at h
  | cons b l ih =>
    obtain ⟨k, w⟩ := b
    rw [alookup_cons]
    rcases List.mem_cons.1 h with h1 | h1
    · obtain ⟨h2, h3⟩ := Prod.mk.injEq .. ▸ h1
      simp [h2.symm]
    · by_cases hk : k = e <;> simp [hk, ih h1]

theorem alookup_eq_none_iff {l : List (Entity × β)} {e : Entity} :
    alookup l e = none ↔ e ∉ l.map Prod.fst := by
  induction l with
  | nil => simp [alookup]
  | cons b l ih =>
    obtain ⟨k, w⟩ := b
    rw [alookup_cons]
    by_cases hk : k = e <;> simp [hk, ih, Ne.symm, eq_comm]

theorem mem_map_fst_of_alookup {l : List (Entity × β)} {e : Entity} {v : β}
    (h : alookup l e = some v) : e ∈ l.map Prod.fst := by
  by_contra hc
  rw [← alookup_eq_none_iff] at hc
  rw [hc] at h
  exact Option.noConfusion h

theorem aerase_cons_self {l : List (Entity × β)} {e : Entity} {w : β} :
    aerase ((e, w) :: l) e = aerase l e := by
  simp [aerase]

theorem aerase_cons_ne {l : List (Entity × β)} {e k : Entity} {w : β} (h : k ≠ e) :
    aerase ((k, w) :: l) e = (k, w) :: aerase l e := by
  simp [aerase, h]

theorem mem_aerase {l : List (Entity × β)} {e : Entity} {b : Entity × β} :
    b ∈ aerase l e ↔ b ∈ l ∧ b.1 ≠ e := by
  induction l with
  | nil => simp [aerase]
  | cons c l ih =>
    obtain ⟨k, w⟩ := c
    by_cases hk : k = e
    · subst hk
      rw [aerase_cons_self, ih, List.mem_cons]
      constructor
      · rintro ⟨h1, h2⟩; exact ⟨Or.inr h1, h2⟩
      · rintro ⟨h1 | h1, h2⟩
        · rw [h1] at h2; simp at h2
        · exact ⟨h1, h2⟩
    · rw [aerase_cons_ne hk, List.mem_cons, List.mem_cons, ih]
      constructor
      · rintro (h1 | ⟨h1, h2⟩)
        · rw [h1]; exact ⟨Or.inl rfl, hk⟩
        · exact ⟨Or.inr h1, h2⟩
      · rintro ⟨h1 | h1, h2⟩
        · exact Or.inl h1
        · exact Or.inr ⟨h1, h2⟩

theorem aerase_sublist (l : List (Entity × β)) (e : Entity) : (aerase l e).Sublist l := by
  induction l with
  | nil => simp [aerase]
  | cons c l ih =>
    obtain ⟨k, w⟩ := c
    by_cases hk : k = e
    · subst hk; rw [aerase_cons_self]; exact ih.cons _
    · rw [aerase_cons_ne hk]; exact ih.cons₂ _

theorem alookup_aerase_self (l : List (Entity × β)) (e : Entity) :
    alookup (aerase l e) e = none := by
  rw [alookup_eq_none_iff]
  intro hmem
  obtain ⟨b, hb, hb1⟩ := List.mem_map.1 hmem
  exact absurd hb1 (mem_aerase.1 hb).2

theorem alookup_aerase_ne {l : List (Entity × β)} {e x : Entity} (h : x ≠ e) :
    alookup (aerase l e) x = alookup l x := by
  induction l with
  | nil => simp [aerase]
  | cons c l ih =>
    obtain ⟨k, w⟩ := c
    by_cases hk : k = e
    · subst hk
      rw [aerase_cons_self, ih, alookup_cons, if_neg (fun h2 => h h2.symm)]
    · rw [aerase_cons_ne hk, alookup_cons, alookup_cons, ih]

theorem alookup_ainsert_self (l : List (Entity × β)) (e : Entity) (v : β) :
    alookup (ainsert l e v) e = some v := by
  simp [ainsert, alookup_cons]

theorem alookup_ainsert_ne {l : List (Entity × β)} {e x : Entity} (v : β) (h : x ≠ e) :
    alookup (ainsert l e v) x = alookup l x := by
  rw [ainsert, alookup_cons, if_neg (fun he => h he.symm), alookup_aerase_ne h]

theorem keys_aerase_nodup {l : List (Entity × β)} (e : Entity)
    (h : (l.map Prod.fst).Nodup) : ((aerase l e).map Prod.fst).Nodup :=
  ((aerase_sublist l e).map Prod.fst).nodup h

theorem keys_ainsert_nodup {l : List (Entity × β)} (e : Entity) (v : β)
    (h : (l.map Prod.fst).Nodup) : ((ainsert l e v).map Prod.fst).Nodup := by
  rw [ainsert, List.map_cons]
  refine List.Nodup.cons ?_ (keys_aerase_nodup e h)
  intro hmem
  obtain ⟨b, hb, hb1⟩ := List.mem_map.1 hmem
  exact (mem_aerase.1 hb).2 hb1

theorem alookup_eq_some_of_mem {l : List (Entity × β)} {e : Entity} {v : β}
    (hnd : (l.map Prod.fst).Nodup) (h : (e, v) ∈ l) : alookup l e = some v := by
  induction l with
  | nil => simp at h
  | cons b l ih =>
    obtain ⟨k, w⟩ := b
    rw [List.map_cons, List.nodup_cons] at hnd
    rcases List.mem_cons.1 h with h1 | h1
    · cases h1; simp [alookup_cons]
    · rw [alookup_cons]
      by_cases hk : k = e
      · subst hk
        exact absurd (List.mem_map.2 ⟨(k, v), h1, rfl⟩) hnd.1
      · simpa [hk] using ih hnd.2 h1

end AssocLemmas

section SwapRemoveLemmas

variable {α : Type}

theorem swapRemove_eq_some {l : List α} {i : Nat} {a : α} {l' : List α}
    (h : swapRemove l i = some (a, l')) :
    l[i]? = some a ∧ ∃ b, l.getLast? = some b ∧ l' = (l.set i b).dropLast := by
  unfold swapRemove at h
  cases hg : l[i]? with
  | none => rw [hg] at h; exact absurd h (by simp)
  | some x =>
    cases hl : l.getLast? with
    | none => rw [hg, hl] at h; exact absurd h (by simp)
    | some b =>
      rw [hg, hl] at h
      simp only [Option.some.injEq, Prod.mk.injEq] at h
      exact ⟨by rw [h.1], b, rfl, h.2.symm⟩

theorem swapRemove_isSome {l : List α} {i : Nat} (h : i < l.length) :
    (swapRemove l i).isSome := by
  have hx : l[i]? = some l[i] := List.getElem?_eq_getElem h
  have hb : l.getLast?.isSome := List.getLast?_isSome.2 (by
    intro hnil; rw [hnil] at h; simp at h)
  obtain ⟨b, hb⟩ := Option.isSome_iff_exists.1 hb
  unfold swapRemove
  rw [hx, hb]
  rfl

theorem swapRemove_length {l : List α} {i : Nat} {a : α} {l' : List α}
    (h : swapRemove l i = some (a, l')) : l'.length = l.length - 1 := by
  obtain ⟨-, b, -, rfl⟩ := swapRemove_eq_some h
  simp

theorem swapRemove_getElem?_ne {l : List α} {i : Nat} {a : α} {l' : List α}
    (h : swapRemove l i = some (a, l')) {j : Nat} (hj : j < l.length - 1) (hne : j ≠ i) :
    l'[j]? = l[j]? := by
  obtain ⟨-, b, -, rfl⟩ := swapRemove_eq_some h
  rw [List.getElem?_dropLast, if_pos (by simpa using hj), List.getElem?_set_ne (Ne.symm hne)]

theorem swapRemove_getElem?_self {l : List α} {i : Nat} {a : α} {l' : List α}
    (h : swapRemove l i = some (a, l')) (hi : i < l.length - 1) :
    l'[i]? = l.getLast? := by
  obtain ⟨-, b, hb, rfl⟩ := swapRemove_eq_some h
  rw [List.getElem?_dropLast, if_pos (by simpa using hi),
    List.getElem?_set_self (by omega), hb]

theorem swapRemove_getElem?_ge {l : List α} {i : Nat} {a : α} {l' : List α}
    (h : swapRemove l i = some (a, l')) {j : Nat} (hj : l.length - 1 ≤ j) :
    l'[j]? = none := by
  obtain ⟨-, b, -, rfl⟩ := swapRemove_eq_some h
  rw [List.getElem?_eq_none_iff]
  simpa using hj

theorem swapRemove_mem {l : List α} {i : Nat} {a : α} {l' : List α}
    (h : swapRemove l i = some (a, l')) {x : α} (hx : x ∈ l') : x ∈ l := by
  obtain ⟨-, b, hb, rfl⟩ := swapRemove_eq_some h
  have h1 : x ∈ l.set i b := (List.dropLast_sublist _).mem hx
  obtain ⟨j, hj, hget⟩ := List.getElem_of_mem h1
  rw [List.length_set] at hj
  by_cases hij : i = j
  · subst hij
    rw [List.getElem_set_self] at hget
    subst hget
    rw [List.getLast?_eq_getElem?] at hb
    exact List.getElem?_mem hb
  · rw [List.getElem_set_ne hij] at hget
    exact hget ▸ List.getElem_mem _

end SwapRemoveLemmas

section ManagerLemmas

open TransformManager

theorem rowsSync_rowlen {tm : TransformManager} (h : rowsSync tm) {j : Nat}
    {a : List Transform} {b : List (Entity × Option Entity)}
    (ha : tm.transforms[j]? = some a) (hb : tm.entities[j]? = some b) :
    a.length = b.length :=
  h.2 (a, b) (List.getElem?_mem (List.getElem?_zip_eq_some.2 ⟨ha, hb⟩))

theorem storageSound_get {tm : TransformManager} (h : storageSound tm) {r i : Nat}
    {row : List (Entity × Option Entity)} {ent : Entity × Option Entity}
    (hr : tm.entities[r]? = some row) (hi : row[i]? = some ent) :
    alookup tm.indices ent.1 = some (r, i) :=
  h (r, row) (List.mem_enum_iff_getElem?.2 hr) (i, ent) (List.mem_enum_iff_getElem?.2 hi)

theorem idxSound_get {tm : TransformManager} (h : idxSound tm) {e : Entity} {r i : Nat}
    (hl : alookup tm.indices e = some (r, i)) :
    ∃ row ent, tm.entities[r]? = some row ∧ row[i]? = some ent ∧ ent.1 = e := by
  have h1 := h (e, (r, i)) (mem_of_alookup_eq_some hl)
  unfold entryAt at h1
  cases hr : tm.entities[r]? with
  | none => simp [hr] at h1
  | some row =>
    cases hi : row[i]? with
    | none => simp [hr, hi] at h1
    | some ent =>
      simp only [hr, hi, Option.some_bind, Option.map_some] at h1
      injection h1 with h1
      exact ⟨row, ent, rfl, hi, h1⟩

theorem parentRowOK_get {tm : TransformManager} (h : parentRowOK tm) {r : Nat}
    {row : List (Entity × Option Entity)} {ent : Entity × Option Entity} {p : Entity}
    (hr : tm.entities[r]? = some row) (hmem : ent ∈ row) (hp : ent.2 = some p) :
    (alookup tm.indices p).map Prod.fst = some (r - 1) :=
  h (r, row) (List.mem_enum_iff_getElem?.2 hr) ent hmem p (by simp [hp])

theorem parentNoneIffRow0_get {tm : TransformManager} (h : parentNoneIffRow0 tm) {r : Nat}
    {row : List (Entity × Option Entity)} {ent : Entity × Option Entity}
    (hr : tm.entities[r]? = some row) (hmem : ent ∈ row) :
    ent.2 = none ↔ r = 0 :=
  h (r, row) (List.mem_enum_iff_getElem?.2 hr) ent hmem

/-- Computational characterisation of a successful `remove`. -/
theorem remove_eq {tm : TransformManager} {e : Entity} {r i : Nat}
    (hWB : WFbase tm) (hidx : alookup tm.indices e = some (r, i)) :
    ∃ q t erow trow erow' trow' newIdx,
      tm.entities[r]? = some erow ∧ tm.transforms[r]? = some trow
      ∧ erow[i]? = some (e, q) ∧ trow[i]? = some t
      ∧ swapRemove erow i = some ((e, q), erow')
      ∧ swapRemove trow i = some (t, trow')
      ∧ tm.remove e = some (t,
          { tm with
            transforms := tm.transforms.set r trow'
            entities := tm.entities.set r erow'
            indices := newIdx })
      ∧ ((i = erow.length - 1 ∧ newIdx = aerase tm.indices e)
        ∨ (i < erow.length - 1 ∧ ∃ me, erow.getLast? = some me ∧ erow'[i]? = some me
            ∧ me.1 ≠ e ∧ newIdx = ainsert (aerase tm.indices e) me.1 (r, i))) := by
  obtain ⟨hsync, hidxS, hstore, hnd, hpos⟩ := hWB
  obtain ⟨erow, ent, her, hei0, hfst⟩ := idxSound_get hidxS hidx
  obtain ⟨q, hq⟩ : ∃ q, ent = (e, q) := ⟨ent.2, by rw [← hfst]⟩
  subst hq
  have hei : erow[i]? = some (e, q) := hei0
  have hrlt : r < tm.entities.length := by
    by_contra hc
    rw [List.getElem?_eq_none_iff.2 (by omega)] at her
    exact Option.noConfusion her
  have hilt : i < erow.length := by
    by_contra hc
    rw [List.getElem?_eq_none_iff.2 (by omega)] at hei
    exact Option.noConfusion hei
  have hrt : r < tm.transforms.length := by rw [hsync.1]; exact hrlt
  obtain ⟨trow, htr⟩ : ∃ a, tm.transforms[r]? = some a :=
    ⟨tm.transforms[r], List.getElem?_eq_getElem hrt⟩
  have hlen : trow.length = erow.length := rowsSync_rowlen hsync htr her
  have hilT : i < trow.length := by omega
  obtain ⟨⟨ef, erow'⟩, hswE⟩ :=
    Option.isSome_iff_exists.1 (swapRemove_isSome hilt)
  obtain ⟨⟨t, trow'⟩, hswT⟩ :=
    Option.isSome_iff_exists.1 (swapRemove_isSome hilT)
  have he1 : erow[i]? = some ef := (swapRemove_eq_some hswE).1
  rw [hei] at he1
  injection he1 with he1
  subst he1
  have ht1 : trow[i]? = some t := (swapRemove_eq_some hswT).1
  have herlen : erow'.length = erow.length - 1 := swapRemove_length hswE
  by_cases hcase : i = erow.length - 1
  · refine ⟨q, t, erow, trow, erow', trow', aerase tm.indices e,
      her, htr, hei, ht1, hswE, hswT, ?_, Or.inl ⟨hcase, rfl⟩⟩
    have hEq : ¬(i ≠ erow'.length) := by rw [herlen]; omega
    unfold remove
    simp only [hidx, htr, her, hswE, hswT, hlen]
    simp [hEq]
  · have hlt : i < erow.length - 1 := by omega
    have hget : erow'[i]? = erow.getLast? := swapRemove_getElem?_self hswE (by omega)
    obtain ⟨me, hme⟩ : ∃ me, erow.getLast? = some me := by
      have hne : erow ≠ [] := by intro hc; rw [hc] at hilt; simp at hilt
      exact Option.isSome_iff_exists.1 (List.getLast?_isSome.2 hne)
    have hmeget : erow'[i]? = some me := by rw [hget, hme]
    have hmelast : erow[erow.length - 1]? = some me := by
      rw [← List.getLast?_eq_getElem?]; exact hme
    have hmene : me.1 ≠ e := by
      intro hc
      have h2 := storageSound_get hstore her hmelast
      rw [hc, hidx] at h2
      injection h2 with h2
      have h3 : i = erow.length - 1 := congrArg Prod.snd h2
      exact hcase h3
    have hEq : i ≠ erow'.length := by rw [herlen]; omega
    refine ⟨q, t, erow, trow, erow', trow', ainsert (aerase tm.indices e) me.1 (r, i),
      her, htr, hei, ht1, hswE, hswT, ?_, Or.inr ⟨hlt, me, hme, hmeget, hmene, rfl⟩⟩
    unfold remove
    simp only [hidx, htr, her, hswE, hswT, hlen, hmeget]
    simp [hEq]

theorem storageSound_iff {tm : TransformManager} :
    storageSound tm ↔ ∀ r row, tm.entities[r]? = some row →
      ∀ i ent, row[i]? = some ent → alookup tm.indices ent.1 = some (r, i) := by
  constructor
  · intro h r row hr i ent hi
    exact storageSound_get h hr hi
  · intro h rp hrp ip hip
    exact h rp.1 rp.2 (List.mem_enum_iff_getElem?.1 hrp) ip.1 ip.2
      (List.mem_enum_iff_getElem?.1 hip)

theorem parentNoneIffRow0_iff {tm : TransformManager} :
    parentNoneIffRow0 tm ↔ ∀ r row, tm.entities[r]? = some row →
      ∀ ent ∈ row, (ent.2 = none ↔ r = 0) := by
  constructor
  · intro h r row hr ent hm
    exact parentNoneIffRow0_get h hr hm
  · intro h rp hrp ent hm
    exact h rp.1 rp.2 (List.mem_enum_iff_getElem?.1 hrp) ent hm

theorem parentRowOK_iff {tm : TransformManager} :
    parentRowOK tm ↔ ∀ r row, tm.entities[r]? = some row →
      ∀ ent ∈ row, ∀ p, ent.2 = some p →
        (alookup tm.indices p).map Prod.fst = some (r - 1) := by
  constructor
  · intro h r row hr ent hm p hp
    exact parentRowOK_get h hr hm hp
  · intro h rp hrp ent hm p hp
    refine h rp.1 rp.2 (List.mem_enum_iff_getElem?.1 hrp) ent hm p ?_
    cases hq : ent.2 with
    | none => rw [hq] at hp; simp at hp
    | some p' =>
      rw [hq] at hp
      simp only [Option.toList_some, List.mem_singleton] at hp
      rw [hp]

/-- Full post-state characterisation of a successful `remove` from a
base-well-formed state. -/
theorem remove_spec {tm : TransformManager} {e : Entity} {r i : Nat}
    (hWB : WFbase tm) (hidx : alookup tm.indices e = some (r, i)) :
    ∃ t tm', tm.remove e = some (t, tm')
      ∧ tm'.transforms.length = tm.transforms.length
      ∧ tm'.entities.length = tm.entities.length
      ∧ tm'.marked_for_destroy = tm.marked_for_destroy
      ∧ WFbase tm'
      ∧ alookup tm'.indices e = none
      ∧ (∀ x, x ≠ e → rowOf tm' x = rowOf tm x)
      ∧ (∀ (r' j : Nat) (ent : Entity × Option Entity),
          (tm'.entities[r']?).bind (·[j]?) = some ent →
          ∃ j0 : Nat, (tm.entities[r']?).bind (·[j0]?) = some ent)
      ∧ (∀ erow0 erow1, tm.entities[r]? = some erow0 → tm'.entities[r]? = some erow1 →
          erow1.length = erow0.length - 1)
      ∧ (∀ erow0 me, tm.entities[r]? = some erow0 → erow0.getLast? = some me →
          i < erow0.length - 1 → alookup tm'.indices me.1 = some (r, i)) := by
  obtain ⟨q, t, erow, trow, erow', trow', newIdx, her, htr, hei, ht1, hswE, hswT, hrem, hdisj⟩ :=
    remove_eq hWB hidx
  obtain ⟨hsync, hidxS, hstore, hnd, hpos⟩ := hWB
  have hrlt : r < tm.entities.length := by
    by_contra hc
    rw [List.getElem?_eq_none_iff.2 (by omega)] at her
    exact Option.noConfusion her
  have hilt : i < erow.length := by
    by_contra hc
    rw [List.getElem?_eq_none_iff.2 (by omega)] at hei
    exact Option.noConfusion hei
  have herlen : erow'.length = erow.length - 1 := swapRemove_length hswE
  have htrlen : trow'.length = trow.length - 1 := swapRemove_length hswT
  have hlen : trow.length = erow.length := rowsSync_rowlen hsync htr her
  set tm' : TransformManager :=
    { tm with
      transforms := tm.transforms.set r trow'
      entities := tm.entities.set r erow'
      indices := newIdx } with htm'
  -- entity rows of tm'
  have hE' : ∀ r', tm'.entities[r']? = if r' = r then some erow' else tm.entities[r']? := by
    intro r'
    by_cases hr' : r' = r
    · subst hr'
      simp only [htm', if_pos rfl]
      exact List.getElem?_set_self hrlt
    · simp only [htm', if_neg hr']
      exact List.getElem?_set_ne (fun hc => hr' hc.symm)
  have hT' : ∀ r', tm'.transforms[r']? = if r' = r then some trow' else tm.transforms[r']? := by
    intro r'
    by_cases hr' : r' = r
    · subst hr'
      simp only [htm', if_pos rfl]
      exact List.getElem?_set_self (by rw [hsync.1]; exact hrlt)
    · simp only [htm', if_neg hr']
      exact List.getElem?_set_ne (fun hc => hr' hc.symm)
  -- entries of erow' come from erow (with slot map)
  have hrowEntry : ∀ j ent, erow'[j]? = some ent →
      (erow[j]? = some ent ∧ j ≠ i ∧ j < erow.length - 1)
        ∨ (j = i ∧ erow.getLast? = some ent ∧ i < erow.length - 1) := by
    intro j ent hj
    have hjlt : j < erow'.length := by
      by_contra hc
      rw [List.getElem?_eq_none_iff.2 (by omega)] at hj
      exact Option.noConfusion hj
    by_cases hji : j = i
    · subst hji
      right
      have := swapRemove_getElem?_self hswE (by omega)
      rw [hj] at this
      exact ⟨rfl, this.symm, by omega⟩
    · left
      have := swapRemove_getElem?_ne hswE (by omega) hji
      rw [hj] at this
      exact ⟨this.symm, hji, by omega⟩
  -- lookups in the new index
  have hlookE : alookup newIdx e = none := by
    rcases hdisj with ⟨hc, rfl⟩ | ⟨hc, me, hme, hmeget, hmene, rfl⟩
    · exact alookup_aerase_self _ _
    · rw [alookup_ainsert_ne _ (fun hc2 => hmene hc2.symm)]
      exact alookup_aerase_self _ _
  have hlookOther : ∀ x, x ≠ e →
      alookup newIdx x = alookup tm.indices x
        ∨ (alookup newIdx x = some (r, i) ∧ alookup tm.indices x = some (r, erow.length - 1)
            ∧ i < erow.length - 1) := by
    intro x hx
    rcases hdisj with ⟨hc, rfl⟩ | ⟨hc, me, hme, hmeget, hmene, rfl⟩
    · exact Or.inl (alookup_aerase_ne hx)
    · by_cases hxm : x = me.1
      · subst hxm
        right
        refine ⟨alookup_ainsert_self _ _ _, ?_, hc⟩
        have hmelast : erow[erow.length - 1]? = some me := by
          rw [← List.getLast?_eq_getElem?]; exact hme
        exact storageSound_get hstore her hmelast
      · left
        rw [alookup_ainsert_ne _ hxm, alookup_aerase_ne hx]
  have hlookBack : ∀ x v, alookup newIdx x = some v →
      x ≠ e ∧ (alookup tm.indices x = some v
        ∨ (v = (r, i) ∧ alookup tm.indices x = some (r, erow.length - 1)
            ∧ i < erow.length - 1)) := by
    intro x v hv
    have hx : x ≠ e := by
      intro hc; subst hc; rw [hlookE] at hv; exact Option.noConfusion hv
    rcases hlookOther x hx with h1 | ⟨h1, h2, h3⟩
    · exact ⟨hx, Or.inl (h1 ▸ hv)⟩
    · rw [h1] at hv
      injection hv with hv
      exact ⟨hx, Or.inr ⟨hv.symm, h2, h3⟩⟩
  -- keys nodup
  have hnd' : keysNodup tm' := by
    rcases hdisj with ⟨hc, rfl⟩ | ⟨hc, me, hme, hmeget, hmene, rfl⟩
    · exact keys_aerase_nodup _ hnd
    · exact keys_ainsert_nodup _ _ (keys_aerase_nodup _ hnd)
  -- storage soundness
  have hstore' : storageSound tm' := by
    rw [storageSound_iff]
    intro r' row' hr' j ent hj
    rw [hE'] at hr'
    by_cases hrr : r' = r
    · subst hrr
      rw [if_pos rfl] at hr'
      injection hr' with hr'
      subst hr'
      rcases hrowEntry j ent hj with ⟨hold, hji, hjlt⟩ | ⟨hji, hlast, hilt2⟩
      · have holdL := storageSound_get hstore her hold
        have hne2 : ent.1 ≠ e := by
          intro hc
          rw [hc, hidx] at holdL
          injection holdL with holdL
          exact hji (congrArg Prod.snd holdL).symm
        rcases hlookOther ent.1 hne2 with h1 | ⟨h1, h2, h3⟩
        · rw [htm'] at *; rw [h1, holdL]
        · rw [holdL] at h2
          injection h2 with h2
          have : j = erow.length - 1 := congrArg Prod.snd h2
          omega
      · rw [hji] at hj ⊢
        have hlastidx : erow[erow.length - 1]? = some ent := by
          rw [← List.getLast?_eq_getElem?]; exact hlast
        have holdL := storageSound_get hstore her hlastidx
        have hne2 : ent.1 ≠ e := by
          intro hc
          rw [hc, hidx] at holdL
          injection holdL with holdL
          have : i = erow.length - 1 := (congrArg Prod.snd holdL)
          omega
        rcases hlookOther ent.1 hne2 with h1 | ⟨h1, h2, h3⟩
        · rw [holdL] at h1
          rcases hdisj with ⟨hc2, hnew⟩ | ⟨hc2, me, hme, hmeget, hmene, hnew⟩
          · omega
          · rw [hmeget] at hj
            injection hj with hj
            subst hj
            rw [hnew] at h1
            rw [alookup_ainsert_self] at h1
            injection h1 with h1
            have : i = erow.length - 1 := congrArg Prod.snd h1
            omega
        · exact h1
    · rw [if_neg hrr] at hr'
      have holdL := storageSound_get hstore hr' hj
      have hne2 : ent.1 ≠ e := by
        intro hc
        rw [hc, hidx] at holdL
        injection holdL with holdL
        exact hrr (congrArg Prod.fst holdL).symm
      rcases hlookOther ent.1 hne2 with h1 | ⟨h1, h2, h3⟩
      · rw [h1, holdL]
      · rw [holdL] at h2
        injection h2 with h2
        exact absurd (congrArg Prod.fst h2) hrr
  -- index soundness
  have hidxS' : idxSound tm' := by
    intro b hb
    have hb' : alookup newIdx b.1 = some b.2 := alookup_eq_some_of_mem hnd' hb
    obtain ⟨hbne, hcase2⟩ := hlookBack b.1 b.2 hb'
    show (entryAt tm' b.2.1 b.2.2).map Prod.fst = some b.1
    unfold entryAt
    rcases hcase2 with hold | ⟨hv, hold, hlt2⟩
    · -- binding unchanged: the old slot must still hold b.1
      obtain ⟨row0, ent0, hrow0, hent0, hfst0⟩ := idxSound_get hidxS hold
      rw [hE']
      by_cases hrr : b.2.1 = r
      · rw [if_pos hrr]
        rw [hrr] at hrow0
        rw [her] at hrow0
        injection hrow0 with hrow0
        subst hrow0
        have hne3 : b.2.2 ≠ i := by
          intro hc
          rw [hc, hei] at hent0
          injection hent0 with hent0
          rw [← hent0] at hfst0
          exact hbne hfst0.symm
        have hne4 : b.2.2 ≠ erow.length - 1 := by
          intro hc
          have hlastL := storageSound_get hstore her (hc ▸ hent0)
          rw [hfst0] at hlastL
          rw [hold] at hlastL
          injection hlastL with hlastL
          have h5 : b.2.2 = erow.length - 1 := congrArg Prod.snd hlastL
          rcases hdisj with ⟨hc2, hnew⟩ | ⟨hc2, me, hme, hmeget, hmene, hnew⟩
          · -- removed slot was the last: erase only; but then the old binding
            -- pointed at the last slot, which no longer exists... contradiction
            -- comes from b.2.2 = len-1 = i, excluded by hne3
            rw [← hc2] at h5
            exact hne3 h5
          · -- binding unchanged but pointing at the last slot: that entity is
            -- `me` and its binding was rewritten to (r, i) — contradiction
            have hmelast : erow[erow.length - 1]? = some me := by
              rw [← List.getLast?_eq_getElem?]; exact hme
            rw [hc] at hent0
            rw [hent0] at hmelast
            injection hmelast with hmelast
            have : b.1 = me.1 := by rw [← hfst0, hmelast]
            rw [hnew] at hb'
            rw [this] at hb'
            rw [alookup_ainsert_self] at hb'
            injection hb' with hb'
            have h8 : b.2.2 = i := (congrArg Prod.snd hb').symm
            exact hne3 h8
        have hlt3 : b.2.2 < erow.length := by
          by_contra hc
          have h9 : erow[b.2.2]? = none := List.getElem?_eq_none_iff.2 (by omega)
          rw [h9] at hent0
          exact Option.noConfusion hent0
        have h10 := swapRemove_getElem?_ne hswE (by omega) hne3
        rw [hent0] at h10
        simp only [Option.some_bind]
        rw [h10]
        simp [hfst0]
      · rw [if_neg hrr]
        rw [hrow0]
        simp only [Option.some_bind]
        rw [hent0]
        simp [hfst0]
    · -- the rewritten binding of the moved entity
      rcases hdisj with ⟨hc2, hnew⟩ | ⟨hc2, me, hme, hmeget, hmene, hnew⟩
      · omega
      · rw [hv]
        rw [hE']
        rw [if_pos rfl]
        simp only [Option.some_bind]
        rw [hmeget]
        have hmelast : erow[erow.length - 1]? = some me := by
          rw [← List.getLast?_eq_getElem?]; exact hme
        have : me.1 = b.1 := by
          have h6 := alookup_eq_some_of_mem hnd (mem_of_alookup_eq_some hold)
          -- b.1 and me.1 both look up to (r, len-1) in tm; nodup keys give uniqueness
          -- via storage soundness: the entry at (r, len-1) is me
          have h7 := idxSound_get hidxS hold
          obtain ⟨row1, ent1, hrow1, hent1, hfst1⟩ := h7
          rw [her] at hrow1
          injection hrow1 with hrow1
          subst hrow1
          rw [hmelast] at hent1
          injection hent1 with hent1
          rw [← hent1] at hfst1
          exact hfst1
        simp [this]
  -- rows sync
  have hsync' : rowsSync tm' := by
    constructor
    · simp [htm', hsync.1]
    · intro p hp
      obtain ⟨jj, hjj, hget⟩ := List.getElem_of_mem hp
      have hz := List.getElem?_zip_eq_some.1
        (hget ▸ List.getElem?_eq_getElem hjj)
      obtain ⟨hz1, hz2⟩ := hz
      rw [hT'] at hz1
      rw [hE'] at hz2
      by_cases hrr : jj = r
      · rw [if_pos hrr] at hz1 hz2
        injection hz1 with hz1
        injection hz2 with hz2
        rw [← hz1, ← hz2]
        omega
      · rw [if_neg hrr] at hz1 hz2
        exact rowsSync_rowlen hsync hz1 hz2
  refine ⟨t, tm', hrem, by simp [htm'], by simp [htm'], rfl,
    ⟨hsync', hidxS', hstore', hnd', by simp [htm']; omega⟩, hlookE, ?_, ?_, ?_, ?_⟩
  · -- rows preserved for other entities
    intro x hx
    show (alookup newIdx x).map Prod.fst = (alookup tm.indices x).map Prod.fst
    rcases hlookOther x hx with h1 | ⟨h1, h2, h3⟩
    · rw [h1]
    · rw [h1, h2]; rfl
  · -- entries preserved
    intro r' j ent hj
    cases hr' : tm'.entities[r']? with
    | none => rw [hr'] at hj; exact Option.noConfusion hj
    | some row' =>
      rw [hr'] at hj
      simp only [Option.some_bind] at hj
      rw [hE'] at hr'
      by_cases hrr : r' = r
      · subst hrr
        rw [if_pos rfl] at hr'
        injection hr' with hr'
        subst hr'
        rcases hrowEntry j ent hj with ⟨hold, hji, hjlt⟩ | ⟨hji, hlast, hilt2⟩
        · exact ⟨j, by rw [her]; simpa using hold⟩
        · refine ⟨erow.length - 1, by rw [her]; simp; rw [← List.getLast?_eq_getElem?]; exact hlast⟩
      · rw [if_neg hrr] at hr'
        exact ⟨j, by rw [hr']; simpa using hj⟩
  · -- row r shrank by one
    intro erow0 erow1 h0 h1
    rw [her] at h0
    injection h0 with h0
    subst h0
    rw [hE', if_pos rfl] at h1
    injection h1 with h1
    subst h1
    omega
  · -- moved entity rebinding
    intro erow0 me0 h0 hlast0 hlt0
    rw [her] at h0
    injection h0 with h0
    subst h0
    rcases hdisj with ⟨hc2, hnew⟩ | ⟨hc2, me, hme, hmeget, hmene, hnew⟩
    · omega
    · rw [hme] at hlast0
      injection hlast0 with hlast0
      subst hlast0
      show alookup newIdx me.1 = some (r, i)
      rw [hnew]
      exact alookup_ainsert_self _ _ _

end ManagerLemmas

/-- Witness for C8 at concrete inputs. -/
theorem dirty_flag_contract_witness :
    (Transform.new.set_position (Point.new 1 2 3)).out_of_date = true
    ∧ Transform.new.position_derived' = some Transform.new.position_derived := by
  have h := dirty_flag_contract (fun _ _ => Quaternion.identity)
    Transform.new Transform.new (Point.new 1 2 3) Quaternion.identity
    Quaternion.identity Vector3.one Vector3.one Vector3.one Vector3.one
    (Point.new 1 2 3)
  exact ⟨h.1, (h.2.2.2.2.2.2.2.2.2.1 rfl).1⟩

section RemovalClaims

open TransformManager

theorem remove_of_alookup_none {tm : TransformManager} {e : Entity}
    (h : alookup tm.indices e = none) : tm.remove e = none := by
  unfold TransformManager.remove
  rw [h]

/-- C6.  Swap-remove: removing a registered entity swap-removes its slot
with the row's last entry, keeps the two parallel arrays in sync, drops
the entity from the index, leaves every other stored entity resolving
(via the index) to the slot that now holds it, and — when the freed slot
was not the last of the row — re-points the moved (previously last)
entity's index entry at the freed `(row, slot)`. -/
theorem remove_swap_correct (tm : TransformManager) (e : Entity) (r i : Nat)
    (hWB : WFbase tm) (hidx : alookup tm.indices e = some (r, i)) :
    ∃ t tm', tm.remove e = some (t, tm')
      ∧ rowsSync tm'
      ∧ alookup tm'.indices e = none
      ∧ idxSound tm'
      ∧ storageSound tm'
      ∧ (∀ x, x ≠ e → rowOf tm' x = rowOf tm x)
      ∧ (∀ erow0 erow1, tm.entities[r]? = some erow0 → tm'.entities[r]? = some erow1 →
          erow1.length = erow0.length - 1)
      ∧ (∀ erow0 me, tm.entities[r]? = some erow0 → erow0.getLast? = some me →
          i < erow0.length - 1 → alookup tm'.indices me.1 = some (r, i)) := by
  obtain ⟨t, tm', hrem, _, _, _, hWB', hnone, hrow, hent, hlen, hmoved⟩ :=
    remove_spec hWB hidx
  exact ⟨t, tm', hrem, hWB'.1, hnone, hWB'.2.1, hWB'.2.2.1, hrow, hlen, hmoved⟩

/-- Witness for C6 on the concrete three-entity row (removing e2). -/
theorem remove_swap_correct_witness :
    ∃ t tm', (c6State.remove 2 = some (t, tm')
      ∧ rowsSync tm'
      ∧ alookup tm'.indices 2 = none
      ∧ idxSound tm'
      ∧ storageSound tm'
      ∧ (∀ x, x ≠ 2 → rowOf tm' x = rowOf c6State x)
      ∧ (∀ erow0 erow1, c6State.entities[0]? = some erow0 → tm'.entities[0]? = some erow1 →
          erow1.length = erow0.length - 1)
      ∧ (∀ erow0 me, c6State.entities[0]? = some erow0 → erow0.getLast? = some me →
          1 < erow0.length - 1 → alookup tm'.indices me.1 = some (0, 1))) := by
  obtain ⟨t, tm', h⟩ := remove_swap_correct c6State 2 0 1 (by decide) (by decide)
  exact ⟨t, tm', h⟩

/-- C5 (corrected), amended claim: `assign` performs no duplicate check —
called on an entity that already has a transform it silently succeeds,
appends a fresh transform at the end of row 0 recording `(entity, None)`,
and re-points the index at the new slot, while the previously stored
entry stays in the rows, no longer referenced by the index. -/
theorem assign_overwrites_duplicate (tm : TransformManager) (e : Entity) (r i : Nat)
    (hWB : WFbase tm) (hidx : alookup tm.indices e = some (r, i)) :
    ∃ trow erow, tm.transforms[0]? = some trow ∧ tm.entities[0]? = some erow
      ∧ tm.assign e = some
          { tm with
            transforms := tm.transforms.set 0 (trow ++ [Transform.new])
            entities := tm.entities.set 0 (erow ++ [(e, none)])
            indices := ainsert tm.indices e (0, trow.length) }
      ∧ (∀ tm', tm.assign e = some tm' →
          alookup tm'.indices e = some (0, trow.length)
            ∧ (tm'.entities[r]?).bind (·[i]?) = (tm.entities[r]?).bind (·[i]?)
            ∧ ((tm.entities[r]?).bind (·[i]?)).map Prod.fst = some e) := by
  obtain ⟨hsync, hidxS, hstore, hnd, hpos⟩ := hWB
  obtain ⟨erow, ent, her, hei, hfst⟩ := idxSound_get hidxS hidx
  have hrlt : r < tm.entities.length := by
    by_contra hc
    rw [List.getElem?_eq_none_iff.2 (by omega)] at her
    exact Option.noConfusion her
  have hilt : i < erow.length := by
    by_contra hc
    rw [List.getElem?_eq_none_iff.2 (by omega)] at hei
    exact Option.noConfusion hei
  have h0e : 0 < tm.entities.length := by omega
  have h0t : 0 < tm.transforms.length := hpos
  obtain ⟨trow0, htr0⟩ : ∃ a, tm.transforms[0]? = some a :=
    ⟨tm.transforms[0], List.getElem?_eq_getElem h0t⟩
  obtain ⟨erow0, her0⟩ : ∃ a, tm.entities[0]? = some a :=
    ⟨tm.entities[0], List.getElem?_eq_getElem h0e⟩
  have hlen0 : trow0.length = erow0.length := rowsSync_rowlen hsync htr0 her0
  have hassign : tm.assign e = some
      { tm with
        transforms := tm.transforms.set 0 (trow0 ++ [Transform.new])
        entities := tm.entities.set 0 (erow0 ++ [(e, none)])
        indices := ainsert tm.indices e (0, trow0.length) } := by
    unfold TransformManager.assign
    rw [htr0, her0]
    dsimp only
    rw [if_pos (by simp [hlen0])]
  refine ⟨trow0, erow0, htr0, her0, hassign, ?_⟩
  intro tm' htm'
  rw [hassign] at htm'
  injection htm' with htm'
  subst htm'
  refine ⟨by simp [alookup_ainsert_self], ?_, ?_⟩
  · show ((tm.entities.set 0 (erow0 ++ [(e, none)]))[r]?).bind _ = _
    by_cases hr0 : r = 0
    · subst hr0
      rw [List.getElem?_set_self h0e, her0]
      simp only [Option.some_bind]
      rw [her0] at her
      injection her with her
      subst her
      rw [List.getElem?_append_left hilt]
    · rw [List.getElem?_set_ne (fun hc => hr0 hc.symm)]
  · rw [her]
    simp only [Option.some_bind]
    rw [hei]
    simp [hfst]

/-- C5 counterexample: on a state where entity 1 already has a transform,
`assign 1` does not fail — it silently stores a second transform for the
same entity (row 0 ends up holding two entries for entity 1). -/
theorem assign_duplicate_counterexample :
    (alookup c5State.indices 1).isSome
      ∧ c5State.assign 1 = some c5Assigned
      ∧ c5Assigned.entities[0]? = some [(1, none), (1, none)]
      ∧ (c5Assigned.transforms[0]?).map List.length = some 2 := by
  refine ⟨by decide, by decide, by decide, by decide⟩

/-- Witness for C5's amended theorem at the concrete duplicate state. -/
theorem assign_overwrites_duplicate_witness :
    ∃ trow erow, c5State.transforms[0]? = some trow ∧ c5State.entities[0]? = some erow
      ∧ c5State.assign 1 = some
          { c5State with
            transforms := c5State.transforms.set 0 (trow ++ [Transform.new])
            entities := c5State.entities.set 0 (erow ++ [(1, none)])
            indices := ainsert c5State.indices 1 (0, trow.length) }
      ∧ (∀ tm', c5State.assign 1 = some tm' →
          alookup tm'.indices 1 = some (0, trow.length)
            ∧ (tm'.entities[0]?).bind (·[0]?) = (c5State.entities[0]?).bind (·[0]?)
            ∧ ((c5State.entities[0]?).bind (·[0]?)).map Prod.fst = some 1) :=
  assign_overwrites_duplicate c5State 1 0 0 (by decide) (by decide)

theorem removeAll_spec : ∀ (L : List Entity) (tm : TransformManager),
    WFbase tm → L.Nodup →
    ((∀ m ∈ L, (alookup tm.indices m).isSome) →
      ∃ tm', removeAll tm L = some tm'
        ∧ WFbase tm'
        ∧ tm'.marked_for_destroy = tm.marked_for_destroy
        ∧ (∀ m ∈ L, alookup tm'.indices m = none)
        ∧ (∀ x, x ∉ L → rowOf tm' x = rowOf tm x))
    ∧ ((∃ m ∈ L, alookup tm.indices m = none) → removeAll tm L = none) := by
  intro L
  induction L with
  | nil =>
    intro tm hWB _
    exact ⟨fun _ => ⟨tm, rfl, hWB, rfl, by simp, fun _ _ => rfl⟩, by simp⟩
  | cons e rest ih =>
    intro tm hWB hnd
    rw [List.nodup_cons] at hnd
    constructor
    · intro hall
      have he : (alookup tm.indices e).isSome := hall e (List.mem_cons_self _ _)
      obtain ⟨⟨r, i⟩, hre⟩ := Option.isSome_iff_exists.1 he
      obtain ⟨t, tm1, hrem, _, _, hmk, hWB1, hnone1, hrow1, -, -, -⟩ :=
        remove_spec hWB hre
      have hrest : ∀ m ∈ rest, (alookup tm1.indices m).isSome := by
        intro m hm
        have hmne : m ≠ e := fun hc => hnd.1 (hc ▸ hm)
        have := hrow1 m hmne
        unfold rowOf at this
        have hsome := hall m (List.mem_cons_of_mem _ hm)
        cases hv : alookup tm.indices m with
        | none => rw [hv] at hsome; simp at hsome
        | some v =>
          cases hv1 : alookup tm1.indices m with
          | none => rw [hv, hv1] at this; simp at this
          | some v1 => simp
      obtain ⟨tm', hrall, hWB', hmk', hnone', hrow'⟩ := (ih tm1 hWB1 hnd.2).1 hrest
      refine ⟨tm', ?_, hWB', by rw [hmk', hmk], ?_, ?_⟩
      · unfold removeAll
        rw [hrem]
        dsimp only
        exact hrall
      · intro m hm
        rcases List.mem_cons.1 hm with rfl | hm2
        · have hnotin : m ∉ rest := hnd.1
          have := hrow' m hnotin
          unfold rowOf at this
          rw [hnone1] at this
          cases hv : alookup tm'.indices m with
          | none => rfl
          | some v => rw [hv] at this; simp at this
        · exact hnone' m hm2
      · intro x hx
        rw [List.mem_cons] at hx
        push_neg at hx
        rw [hrow' x hx.2, hrow1 x hx.1]
    · rintro ⟨m, hm, hmnone⟩
      rcases List.mem_cons.1 hm with rfl | hm2
      · unfold removeAll
        rw [remove_of_alookup_none hmnone]
      · cases hve : alookup tm.indices e with
        | none =>
          unfold removeAll
          rw [remove_of_alookup_none hve]
        | some v =>
          obtain ⟨r, i⟩ := v
          obtain ⟨t, tm1, hrem, _, _, _, hWB1, hnone1, hrow1, -, -, -⟩ :=
            remove_spec hWB hve
          have hmne : m ≠ e := by
            intro hc
            rw [hc, hve] at hmnone
            exact Option.noConfusion hmnone
          have hm1 : alookup tm1.indices m = none := by
            have := hrow1 m hmne
            unfold rowOf at this
            rw [hmnone] at this
            cases hv : alookup tm1.indices m with
            | none => rfl
            | some v2 => rw [hv] at this; simp at this
          have := (ih tm1 hWB1 hnd.2).2 ⟨m, hm2, hm1⟩
          unfold removeAll
          rw [hrem]
          dsimp only
          exact this

/-- C9.  Deferred destruction: `destroy`/`destroy_all` only insert into
the pending set (no other field changes); `destroy_marked` drains the
set, immediately removes every drained entity, and leaves the pending set
empty — and it fails fatally when some marked entity has no transform. -/
theorem deferred_destruction_contract (tm : TransformManager) (e : Entity)
    (hWB : WFbase tm) (hnd : tm.marked_for_destroy.Nodup) :
    (tm.destroy e).transforms = tm.transforms
    ∧ (tm.destroy e).entities = tm.entities
    ∧ (tm.destroy e).indices = tm.indices
    ∧ (tm.destroy e).marked_for_destroy = hsInsert tm.marked_for_destroy e
    ∧ tm.destroy_all e = tm.destroy e
    ∧ ((∀ m ∈ tm.marked_for_destroy, (alookup tm.indices m).isSome) →
        ∃ tm', tm.destroy_marked = some tm'
          ∧ tm'.marked_for_destroy = []
          ∧ (∀ m ∈ tm.marked_for_destroy, alookup tm'.indices m = none)
          ∧ (∀ x, x ∉ tm.marked_for_destroy → rowOf tm' x = rowOf tm x))
    ∧ ((∃ m ∈ tm.marked_for_destroy, alookup tm.indices m = none) →
        tm.destroy_marked = none) := by
  have hWB0 : WFbase { tm with marked_for_destroy := ([] : List Entity) } := hWB
  have hspec := removeAll_spec tm.marked_for_destroy
    { tm with marked_for_destroy := ([] : List Entity) } hWB0 hnd
  refine ⟨rfl, rfl, rfl, rfl, rfl, ?_, ?_⟩
  · intro hall
    obtain ⟨tm', hrall, hWB', hmk', hnone', hrow'⟩ := hspec.1 hall
    exact ⟨tm', hrall, hmk', hnone', hrow'⟩
  · intro hex
    exact hspec.2 hex

/-- Witness for C9: committing the pending set of the concrete marked
state succeeds, and the stale-marked state fails fatally. -/
theorem deferred_destruction_contract_witness :
    ((c9State.destroy 3).marked_for_destroy = hsInsert c9State.marked_for_destroy 3)
      ∧ (∃ tm', c9State.destroy_marked = some tm'
          ∧ tm'.marked_for_destroy = []
          ∧ (∀ m ∈ c9State.marked_for_destroy, alookup tm'.indices m = none)
          ∧ (∀ x, x ∉ c9State.marked_for_destroy → rowOf tm' x = rowOf c9State x))
      ∧ c9Stale.destroy_marked = none := by
  have h1 := deferred_destruction_contract c9State 3 (by decide) (by decide)
  have h2 := deferred_destruction_contract c9Stale 3 (by decide) (by decide)
  refine ⟨h1.2.2.2.1, h1.2.2.2.2.2.1 (by decide), h2.2.2.2.2.2.2 ⟨7, by decide, by decide⟩⟩

end RemovalClaims

section UpdatePass

open TransformManager

theorem update_out_of_date {t p t' : Transform} (h : t.update p = some t') :
    t'.out_of_date = false := by
  unfold Transform.update at h
  by_cases hp : p.out_of_date <;> simp [hp] at h
  exact h ▸ rfl

theorem updateEntry_eq {tmk : TransformManager} {r i : Nat} {trow : List Transform}
    {t0 t1 : Transform} {erow : List (Entity × Option Entity)} {ent : Entity × Option Entity}
    {pt : Transform}
    (htrow : tmk.transforms[r]? = some trow) (ht0 : trow[i]? = some t0)
    (herow : tmk.entities[r]? = some erow) (hent : erow[i]? = some ent)
    (hpt : parentRes tmk ent.2 = some pt) (hup : t0.update pt = some t1) :
    updateEntry tmk r i =
      some { tmk with transforms := tmk.transforms.set r (trow.set i t1) } := by
  obtain ⟨en, po⟩ := ent
  unfold updateEntry
  rw [htrow]
  dsimp only
  rw [ht0, herow]
  dsimp only
  rw [hent]
  dsimp only
  rw [hpt]
  dsimp only
  rw [hup]

theorem updateRowFrom_spec {r : Nat} : ∀ (n : Nat) (i : Nat) (tmk : TransformManager)
    (trow : List Transform) (erow : List (Entity × Option Entity)),
    tmk.transforms[r]? = some trow → tmk.entities[r]? = some erow →
    trow.length = erow.length → i + n = trow.length →
    (∀ (j : Nat) ent, erow[j]? = some ent → i ≤ j →
      ∃ pt, parentRes tmk ent.2 = some pt ∧ pt.out_of_date = false
        ∧ (∀ p, ent.2 = some p → (alookup tmk.indices p).map Prod.fst ≠ some r)) →
    ∃ tmres trow', updateRowFrom r tmk i n = some tmres
      ∧ tmres.entities = tmk.entities
      ∧ tmres.indices = tmk.indices
      ∧ tmres.marked_for_destroy = tmk.marked_for_destroy
      ∧ tmres.transforms.length = tmk.transforms.length
      ∧ tmres.transforms[r]? = some trow'
      ∧ (∀ r', r' ≠ r → tmres.transforms[r']? = tmk.transforms[r']?)
      ∧ trow'.length = trow.length
      ∧ (∀ j, j < i → trow'[j]? = trow[j]?)
      ∧ (∀ (j : Nat) t0 ent, i ≤ j → trow[j]? = some t0 → erow[j]? = some ent →
          ∃ pt t1, parentRes tmk ent.2 = some pt ∧ t0.update pt = some t1
            ∧ trow'[j]? = some t1) := by
  intro n
  induction n with
  | zero =>
    intro i tmk trow erow htrow herow hlen hni hpar
    refine ⟨tmk, trow, rfl, rfl, rfl, rfl, rfl, htrow, fun _ _ => rfl, rfl,
      fun _ _ => rfl, ?_⟩
    intro j t0 ent hij hj hentj
    have : j < trow.length := by
      by_contra hc
      rw [List.getElem?_eq_none_iff.2 (by omega)] at hj
      exact Option.noConfusion hj
    omega
  | succ n ihn =>
    intro i tmk trow erow htrow herow hlen hni hpar
    have hilt : i < trow.length := by omega
    obtain ⟨t0, ht0⟩ : ∃ a, trow[i]? = some a := ⟨trow[i], List.getElem?_eq_getElem hilt⟩
    obtain ⟨ent, hent⟩ : ∃ a, erow[i]? = some a :=
      ⟨erow.get ⟨i, by omega⟩, List.getElem?_eq_getElem (by omega)⟩
    obtain ⟨pt, hpt, hptc, hprow⟩ := hpar i ent hent (le_refl i)
    obtain ⟨t1, ht1⟩ : ∃ a, t0.update pt = some a := by
      unfold Transform.update
      rw [hptc]
      exact ⟨_, rfl⟩
    have hstep := updateEntry_eq htrow ht0 herow hent hpt ht1
    set tmk1 : TransformManager :=
      { tmk with transforms := tmk.transforms.set r (trow.set i t1) } with htmk1
    have hrlt : r < tmk.transforms.length := by
      by_contra hc
      rw [List.getElem?_eq_none_iff.2 (by omega)] at htrow
      exact Option.noConfusion htrow
    have htrow1 : tmk1.transforms[r]? = some (trow.set i t1) := by
      simp [htmk1, List.getElem?_set_self hrlt]
    have herow1 : tmk1.entities[r]? = some erow := herow
    -- parent resolution is unchanged by writing into row r
    have hresStable : ∀ (q : Option Entity),
        (∀ p, q = some p → (alookup tmk.indices p).map Prod.fst ≠ some r) →
        parentRes tmk1 q = parentRes tmk q := by
      intro q hq
      cases q with
      | none => rfl
      | some p =>
        show tmk1.get p = tmk.get p
        unfold TransformManager.get
        show (match alookup tmk.indices p with
          | none => none
          | some (row, index) =>
            match tmk1.transforms[row]? with
            | none => none
            | some trow2 => trow2[index]?) = _
        cases hlp : alookup tmk.indices p with
        | none => rfl
        | some ri =>
          obtain ⟨rp, ip⟩ := ri
          dsimp only
          have hrp : rp ≠ r := by
            intro hc
            exact hq p rfl (by rw [hlp, hc]; rfl)
          have : tmk1.transforms[rp]? = tmk.transforms[rp]? := by
            simp [htmk1, List.getElem?_set_ne (fun hc => hrp hc.symm)]
          rw [this]
    have hpar1 : ∀ (j : Nat) (entj : Entity × Option Entity), erow[j]? = some entj → i + 1 ≤ j →
        ∃ pt, parentRes tmk1 entj.2 = some pt ∧ pt.out_of_date = false
          ∧ (∀ p, entj.2 = some p → (alookup tmk1.indices p).map Prod.fst ≠ some r) := by
      intro j entj hej hij1
      obtain ⟨ptj, hptj, hptcj, hprowj⟩ := hpar j entj hej (by omega)
      refine ⟨ptj, ?_, hptcj, ?_⟩
      · rw [hresStable entj.2 hprowj]
        exact hptj
      · intro p hp
        show (alookup tmk1.indices p).map Prod.fst ≠ some r
        exact hprowj p hp
    obtain ⟨tmres, trow', hrun, hent', hidx', hmk', hlen', htrow', hother', hlen'', hlow', hspec'⟩ :=
      ihn (i + 1) tmk1 (trow.set i t1) erow htrow1 herow1 (by simp [hlen]) (by simp; omega) hpar1
    refine ⟨tmres, trow', ?_, by rw [hent'],
        by rw [hidx'], by rw [hmk'],
        by rw [hlen']; simp [htmk1],
        htrow', ?_, by simp at hlen''; omega, ?_, ?_⟩
    · show updateRowFrom r tmk i (n + 1) = some tmres
      unfold updateRowFrom
      rw [hstep]
      dsimp only
      exact hrun
    · intro r' hr'
      rw [hother' r' hr']
      simp [htmk1, List.getElem?_set_ne (fun hc => hr' hc.symm)]
    · intro j hji
      rw [hlow' j (by omega), List.getElem?_set_ne (by omega)]
    · intro j t0j entj hij hj hej
      by_cases hji : j = i
      · subst hji
        rw [ht0] at hj
        injection hj with hj
        subst hj
        rw [hent] at hej
        injection hej with hej
        subst hej
        refine ⟨pt, t1, hpt, ht1, ?_⟩
        rw [hlow' j (by omega), List.getElem?_set_self (by omega)]
      · have hij1 : i + 1 ≤ j := by omega
        obtain ⟨ptj, t1j, hptj, ht1j, hres⟩ := hspec' j t0j entj hij1
          (by rw [List.getElem?_set_ne (by omega)]; exact hj) hej
        refine ⟨ptj, t1j, ?_, ht1j, hres⟩
        have hstab : parentRes tmk1 entj.2 = parentRes tmk entj.2 := by
          refine hresStable entj.2 ?_
          intro p hp
          obtain ⟨ptx, hx1, hx2, hprowx⟩ := hpar j entj hej (by omega)
          exact hprowx p hp
        exact hstab ▸ hptj

theorem parentRes_congr {tmA tmB : TransformManager}
    (hidx : tmB.indices = tmA.indices) (q : Option Entity)
    (h : ∀ p, q = some p → ∀ rp ip, alookup tmA.indices p = some (rp, ip) →
      tmB.transforms[rp]? = tmA.transforms[rp]?) :
    parentRes tmB q = parentRes tmA q := by
  cases q with
  | none => rfl
  | some p =>
    show tmB.get p = tmA.get p
    unfold TransformManager.get
    rw [hidx]
    cases hlp : alookup tmA.indices p with
    | none => rfl
    | some ri =>
      obtain ⟨rp, ip⟩ := ri
      dsimp only
      rw [h p rfl rp ip hlp]

theorem updateRowsFrom_spec {tm : TransformManager} (hWF : WF tm) :
    ∀ (n k : Nat) (tmk : TransformManager), UpdatedBelow tm k tmk →
    k + n = tm.transforms.length →
    ∃ tm', updateRowsFrom tmk k n = some tm' ∧ UpdatedBelow tm (k + n) tm' := by
  intro n
  induction n with
  | zero =>
    intro k tmk hU hkn
    exact ⟨tmk, rfl, hU⟩
  | succ n ihn =>
    intro k tmk hU hkn
    obtain ⟨hent, hidx, hmk, hlen, hge, hlens, hupd, hflag⟩ := hU
    obtain ⟨⟨hsync, hidxS, hstore, hnd, hpos⟩, hp0, hprow⟩ := hWF
    have hklt : k < tm.transforms.length := by omega
    obtain ⟨trow, htrowT⟩ : ∃ a, tm.transforms[k]? = some a :=
      ⟨tm.transforms[k], List.getElem?_eq_getElem hklt⟩
    have htrowK : tmk.transforms[k]? = some trow := by rw [hge k (le_refl k)]; exact htrowT
    have hkltE : k < tm.entities.length := by rw [← hsync.1]; exact hklt
    obtain ⟨erow, herowT⟩ : ∃ a, tm.entities[k]? = some a :=
      ⟨tm.entities[k], List.getElem?_eq_getElem hkltE⟩
    have herowK : tmk.entities[k]? = some erow := by rw [hent]; exact herowT
    have hlenK : trow.length = erow.length := rowsSync_rowlen hsync htrowT herowT
    -- parent facts for row k in state tmk
    have hpar : ∀ (j : Nat) (ent : Entity × Option Entity), erow[j]? = some ent → 0 ≤ j →
        ∃ pt, parentRes tmk ent.2 = some pt ∧ pt.out_of_date = false
          ∧ (∀ p, ent.2 = some p → (alookup tmk.indices p).map Prod.fst ≠ some k) := by
      intro j ent hej _
      have hmem : ent ∈ erow := List.getElem?_mem hej
      cases hq : ent.2 with
      | none =>
        exact ⟨DUMMY_TRANSFORM, rfl, rfl, fun p hp => Option.noConfusion hp⟩
      | some p =>
        have hkpos : ¬ k = 0 := by
          intro hc
          have := (parentNoneIffRow0_get hp0 herowT hmem).2 hc
          rw [hq] at this
          exact Option.noConfusion this
        have hlookp := parentRowOK_get hprow herowT hmem hq
        cases hlp : alookup tm.indices p with
        | none => rw [hlp] at hlookp; exact Option.noConfusion hlookp
        | some ri =>
          obtain ⟨rp, ip⟩ := ri
          rw [hlp] at hlookp
          injection hlookp with hlookp
          have hrp : rp = k - 1 := hlookp
          subst hrp
          obtain ⟨erowP, entP, herowP, hentP, hfstP⟩ := idxSound_get hidxS hlp
          have hiplt : ip < erowP.length := by
            by_contra hc
            rw [List.getElem?_eq_none_iff.2 (by omega)] at hentP
            exact Option.noConfusion hentP
          have hkm1 : k - 1 < tm.transforms.length := by omega
          obtain ⟨trowP, htrowP⟩ : ∃ a, tm.transforms[k - 1]? = some a :=
            ⟨tm.transforms[k - 1], List.getElem?_eq_getElem hkm1⟩
          have hlenP : trowP.length = erowP.length := rowsSync_rowlen hsync htrowP herowP
          obtain ⟨trowPk, htrowPk⟩ : ∃ a, tmk.transforms[k - 1]? = some a := by
            have := hlens (k - 1) (by omega)
            rw [htrowP] at this
            cases hv : tmk.transforms[k - 1]? with
            | none => rw [hv] at this; simp at this
            | some a => exact ⟨a, rfl⟩
          have hlenPk : trowPk.length = trowP.length := by
            have := hlens (k - 1) (by omega)
            rw [htrowP, htrowPk] at this
            simpa using this
          obtain ⟨pt, hpt⟩ : ∃ a, trowPk[ip]? = some a :=
            ⟨trowPk.get ⟨ip, by omega⟩, List.getElem?_eq_getElem (by omega)⟩
          refine ⟨pt, ?_, ?_, ?_⟩
          · show tmk.get p = some pt
            unfold TransformManager.get
            rw [hidx, hlp]
            dsimp only
            rw [htrowPk]
            exact hpt
          · refine hflag (k - 1) (by omega) ip pt ?_
            rw [htrowPk]
            simpa using hpt
          · intro p' hp'
            injection hp' with hp'
            subst hp'
            rw [hidx, hlp]
            simp
            omega
    obtain ⟨tmres, trow', hrun, hentR, hidxR, hmkR, hlenR, htrowR, hotherR, hlenR2, hlowR, hspecR⟩ :=
      updateRowFrom_spec trow.length 0 tmk trow erow htrowK herowK hlenK (by omega) hpar
    -- parents of any row < k+1 live in rows ≠ k, so parentRes is stable
    have hstable : ∀ (ent : Entity × Option Entity) (r : Nat), r < k + 1 →
        (∀ row, tm.entities[r]? = some row → ent ∈ row) →
        parentRes tmres ent.2 = parentRes tmk ent.2 := by
      intro ent r hr hmemf
      refine parentRes_congr (by rw [hidxR]) ent.2 ?_
      intro p hp rp ip hlpp
      have hrlt : r < tm.entities.length := by
        rw [← hsync.1]; omega
      obtain ⟨row, hrow⟩ : ∃ a, tm.entities[r]? = some a :=
        ⟨tm.entities[r], List.getElem?_eq_getElem hrlt⟩
      have hmem := hmemf row hrow
      have hlookp := parentRowOK_get hprow hrow hmem hp
      rw [hidx] at hlpp
      rw [hlpp] at hlookp
      injection hlookp with hlookp
      have hrpk : rp ≠ k := by
        have : rp = r - 1 := hlookp
        have hkpos : ¬ r = 0 := by
          intro hc
          have := (parentNoneIffRow0_get hp0 hrow hmem).2 hc
          rw [hp] at this
          exact Option.noConfusion this
        omega
      exact hotherR rp hrpk
    refine ihn (k + 1) tmres ⟨by rw [hentR, hent], by rw [hidxR, hidx],
      by rw [hmkR, hmk], by rw [hlenR, hlen], ?_, ?_, ?_, ?_⟩ (by omega)
      |>.elim fun tm' h => ?_
    · intro r hr
      rw [hotherR r (by omega)]
      exact hge r (by omega)
    · intro r hr
      by_cases hrk : r = k
      · subst hrk
        rw [htrowR, htrowT]
        simp [hlenR2]
      · rw [hotherR r hrk]
        exact hlens r (by omega)
    · intro r hr i t0 ent h0 hentE
      by_cases hrk : r = k
      · rw [hrk] at h0 hentE ⊢
        rw [htrowT] at h0
        simp only [Option.some_bind] at h0
        rw [herowT] at hentE
        simp only [Option.some_bind] at hentE
        obtain ⟨pt, t1, hpt, ht1, hres⟩ := hspecR i t0 ent (by omega) h0 hentE
        refine ⟨pt, t1, ?_, ht1, ?_⟩
        · rw [htrowR]
          simpa using hres
        · rw [hstable ent k (by omega) (fun row hrow => by
            rw [herowT] at hrow
            injection hrow with hrow
            subst hrow
            exact List.getElem?_mem hentE)]
          exact hpt
      · have hrlt2 : r < k := by omega
        obtain ⟨pt, t1, hres, ht1, hpt⟩ := hupd r hrlt2 i t0 ent h0 hentE
        refine ⟨pt, t1, ?_, ht1, ?_⟩
        · rw [hotherR r hrk]
          exact hres
        · rw [hstable ent r (by omega) (fun row hrow => by
            cases hE0 : tm.entities[r]? with
            | none => rw [hE0] at hentE; simp at hentE
            | some row0 =>
              rw [hE0] at hrow
              injection hrow with hrow
              subst hrow
              rw [hE0] at hentE
              simp only [Option.some_bind] at hentE
              exact List.getElem?_mem hentE)]
          exact hpt
    · intro r hr i t1 h1
      by_cases hrk : r = k
      · subst hrk
        rw [htrowR] at h1
        simp only [Option.some_bind] at h1
        have hilt : i < trow'.length := by
          by_contra hc
          rw [List.getElem?_eq_none_iff.2 (by omega)] at h1
          exact Option.noConfusion h1
        obtain ⟨t0, ht0⟩ : ∃ a, trow[i]? = some a :=
          ⟨trow.get ⟨i, by omega⟩, List.getElem?_eq_getElem (by omega)⟩
        obtain ⟨ent, hentE⟩ : ∃ a, erow[i]? = some a :=
          ⟨erow.get ⟨i, by omega⟩, List.getElem?_eq_getElem (by omega)⟩
        obtain ⟨pt, t1', hpt, ht1', hres⟩ := hspecR i t0 ent (by omega) ht0 hentE
        rw [h1] at hres
        injection hres with hres
        subst hres
        exact update_out_of_date ht1'
      · rw [hotherR r hrk] at h1
        exact hflag r (by omega) i t1 h1
    · -- assemble the final result
      obtain ⟨hrun2, hU'⟩ := h
      refine ⟨tm', ?_, by rw [show k + (n + 1) = (k + 1) + n from by omega]; exact hU'⟩
      show updateRowsFrom tmk k (n + 1) = some tm'
      unfold updateRowsFrom
      have hmin : min ((tmk.transforms[k]?.getD []).length) ((tmk.entities[k]?.getD []).length)
          = trow.length := by
        rw [htrowK, herowK]
        simp [hlenK]
      dsimp only
      rw [hmin, hrun]
      exact hrun2

/-- **C3** (batch update pass): on a well-formed manager,
`transform_update` succeeds and visits every stored (transform, parent)
entry row by row in increasing row order; each stored transform is put
through `Transform.update` unconditionally — regardless of its
`out_of_date` flag — against its effective parent, which is the identity
sentinel `DUMMY_TRANSFORM` for parentless entries and otherwise the
parent's value as it stands in the finished pass (so each entity's parent
is updated before that entity consumes it, `Transform.update` itself
demanding a clean parent); entities, indices, the pending-destruction
set, and all row shapes are unchanged, and afterwards every stored
transform has `out_of_date = false`. -/
theorem transform_update_batch_pass (tm : TransformManager)
    (hWF : TransformManager.WF tm) :
    ∃ tm', transform_update tm = some tm'
      ∧ tm'.entities = tm.entities
      ∧ tm'.indices = tm.indices
      ∧ tm'.marked_for_destroy = tm.marked_for_destroy
      ∧ tm'.transforms.length = tm.transforms.length
      ∧ (∀ (r : Nat), (tm'.transforms[r]?).map List.length
          = (tm.transforms[r]?).map List.length)
      ∧ (∀ (r i : Nat) t0 ent, (tm.transforms[r]?).bind (·[i]?) = some t0 →
          (tm.entities[r]?).bind (·[i]?) = some ent →
          ∃ pt t1, TransformManager.parentRes tm' ent.2 = some pt
            ∧ (ent.2 = none → pt = DUMMY_TRANSFORM)
            ∧ t0.update pt = some t1
            ∧ (tm'.transforms[r]?).bind (·[i]?) = some t1)
      ∧ (∀ (r i : Nat) t1, (tm'.transforms[r]?).bind (·[i]?) = some t1 →
          t1.out_of_date = false) := by
  have hU0 : TransformManager.UpdatedBelow tm 0 tm :=
    ⟨rfl, rfl, rfl, rfl, fun _ _ => rfl,
      fun r hr => absurd hr (Nat.not_lt_zero r),
      fun r hr => absurd hr (Nat.not_lt_zero r),
      fun r hr => absurd hr (Nat.not_lt_zero r)⟩
  obtain ⟨tm', hrun, hU⟩ :=
    updateRowsFrom_spec hWF tm.transforms.length 0 tm hU0 (by omega)
  obtain ⟨hent, hidx, hmk, hlen, hge, hlens, hupd, hflag⟩ := hU
  have hminC : min tm.transforms.length tm.entities.length
      = tm.transforms.length := by
    rw [hWF.1.1.1]
    exact Nat.min_self _
  refine ⟨tm', ?_, hent, hidx, hmk, hlen, ?_, ?_, ?_⟩
  · show TransformManager.updateRowsFrom tm 0
        (min tm.transforms.length tm.entities.length) = some tm'
    rw [hminC]
    simpa using hrun
  · intro r
    by_cases hr : r < tm.transforms.length
    · exact hlens r (by omega)
    · rw [hge r (by omega)]
  · intro r i t0 ent h0 hentE
    by_cases hr : r < tm.transforms.length
    · obtain ⟨pt, t1, hres, ht1, hpt⟩ := hupd r (by omega) i t0 ent h0 hentE
      refine ⟨pt, t1, hpt, ?_, ht1, hres⟩
      intro hq
      rw [hq] at hpt
      injection hpt with hpt
      exact hpt.symm
    · rw [List.getElem?_eq_none_iff.2 (by omega)] at h0
      exact Option.noConfusion h0
  · intro r i t1 h1
    by_cases hr : r < tm.transforms.length
    · exact hflag r (by omega) i t1 h1
    · rw [hge r (by omega), List.getElem?_eq_none_iff.2 (by omega)] at h1
      exact Option.noConfusion h1

theorem transform_update_batch_pass_witness :
    TransformManager.WF c6State
    ∧ (∃ tm', transform_update c6State = some tm'
      ∧ tm'.entities = c6State.entities
      ∧ tm'.indices = c6State.indices
      ∧ tm'.marked_for_destroy = c6State.marked_for_destroy
      ∧ tm'.transforms.length = c6State.transforms.length
      ∧ (∀ (r : Nat), (tm'.transforms[r]?).map List.length
          = (c6State.transforms[r]?).map List.length)
      ∧ (∀ (r i : Nat) t0 ent,
          (c6State.transforms[r]?).bind (·[i]?) = some t0 →
          (c6State.entities[r]?).bind (·[i]?) = some ent →
          ∃ pt t1, TransformManager.parentRes tm' ent.2 = some pt
            ∧ (ent.2 = none → pt = DUMMY_TRANSFORM)
            ∧ t0.update pt = some t1
            ∧ (tm'.transforms[r]?).bind (·[i]?) = some t1)
      ∧ (∀ (r i : Nat) t1, (tm'.transforms[r]?).bind (·[i]?) = some t1 →
          t1.out_of_date = false)) :=
  ⟨by decide, transform_update_batch_pass c6State (by decide)⟩

end UpdatePass

section HierarchyPresence

open TransformManager

/-- A successful `assign` characterised computationally (no
well-formedness assumption): both root rows exist and the three fields
are extended as in the source. -/
theorem assign_eq {tm tm' : TransformManager} {e : Entity}
    (ha : tm.assign e = some tm') :
    ∃ trow erow, tm.transforms[0]? = some trow ∧ tm.entities[0]? = some erow
      ∧ tm' = { tm with
          transforms := tm.transforms.set 0 (trow ++ [Transform.new])
          entities := tm.entities.set 0 (erow ++ [(e, none)])
          indices := ainsert tm.indices e (0, trow.length) } := by
  unfold TransformManager.assign at ha
  cases htr : tm.transforms[0]? with
  | none => rw [htr] at ha; exact Option.noConfusion ha
  | some trow =>
    cases her : tm.entities[0]? with
    | none => rw [htr, her] at ha; exact Option.noConfusion ha
    | some erow =>
      rw [htr, her] at ha
      dsimp only at ha
      by_cases hif : (trow ++ [Transform.new]).length
          = (erow ++ [((e : Entity), (none : Option Entity))]).length
      · rw [if_pos hif] at ha
        injection ha with ha
        exact ⟨trow, erow, rfl, rfl, ha.symm⟩
      · rw [if_neg hif] at ha
        exact Option.noConfusion ha

/-- `presenceInv` survives replacing both arrays of one row, provided
each entry of the new entity row is an old entry of that row or has a
parent-presence matching the row number. -/
theorem presenceInv_setRow {tm : TransformManager} {r : Nat}
    {trow' : List Transform} {erow erow' : List (Entity × Option Entity)}
    {idx' : List (Entity × (Nat × Nat))} {mk' : List Entity}
    (hP : presenceInv tm) (her : tm.entities[r]? = some erow)
    (hsub : ∀ x ∈ erow', x ∈ erow ∨ (x.2 = none ↔ r = 0)) :
    presenceInv
      { transforms := tm.transforms.set r trow'
        entities := tm.entities.set r erow'
        indices := idx'
        marked_for_destroy := mk' } := by
  obtain ⟨hlen, hp0⟩ := hP
  refine ⟨by simp [hlen], ?_⟩
  rw [parentNoneIffRow0_iff]
  intro r' row hr' ent hm
  dsimp only at hr'
  by_cases hrr : r' = r
  · subst hrr
    have hrlt : r' < tm.entities.length := by
      by_contra hc
      rw [List.getElem?_eq_none_iff.2 (by omega)] at her
      exact Option.noConfusion her
    rw [List.getElem?_set_self hrlt] at hr'
    injection hr' with hr'
    subst hr'
    rcases hsub ent hm with hmem | hiff
    · exact parentNoneIffRow0_get hp0 her hmem
    · exact hiff
  · rw [List.getElem?_set_ne (fun hc => hrr hc.symm)] at hr'
    exact parentNoneIffRow0_get hp0 hr' hm

/-- `assign` preserves the parent-presence invariant: the fresh entry is
appended to row 0 recording no parent. -/
theorem presenceInv_assign {tm tm' : TransformManager} {e : Entity}
    (hP : presenceInv tm) (ha : tm.assign e = some tm') : presenceInv tm' := by
  obtain ⟨trow, erow, htr, her, rfl⟩ := assign_eq ha
  refine presenceInv_setRow hP her (fun x hx => ?_)
  rcases List.mem_append.1 hx with h1 | h1
  · exact Or.inl h1
  · rw [List.mem_singleton] at h1
    subst h1
    exact Or.inr (by simp)

/-- `remove` preserves the parent-presence invariant: every entry of the
shrunken row was already stored in that row. -/
theorem presenceInv_remove {tm tm' : TransformManager} {e : Entity} {t : Transform}
    (hP : presenceInv tm) (hr : tm.remove e = some (t, tm')) : presenceInv tm' := by
  unfold TransformManager.remove at hr
  cases hidx : alookup tm.indices e with
  | none => rw [hidx] at hr; exact Option.noConfusion hr
  | some ri =>
    obtain ⟨r, i⟩ := ri
    rw [hidx] at hr
    dsimp only at hr
    cases htr : tm.transforms[r]? with
    | none => rw [htr] at hr; exact Option.noConfusion hr
    | some trow =>
      cases her : tm.entities[r]? with
      | none => rw [htr, her] at hr; exact Option.noConfusion hr
      | some erow =>
        rw [htr, her] at hr
        dsimp only at hr
        by_cases hle : trow.length = erow.length
        case neg => rw [if_neg hle] at hr; exact Option.noConfusion hr
        rw [if_pos hle] at hr
        cases hsr : swapRemove erow i with
        | none => rw [hsr] at hr; exact Option.noConfusion hr
        | some pe =>
          obtain ⟨⟨re, q⟩, erow'⟩ := pe
          cases hst : swapRemove trow i with
          | none => rw [hsr, hst] at hr; exact Option.noConfusion hr
          | some pt =>
            obtain ⟨t0, trow'⟩ := pt
            rw [hsr, hst] at hr
            dsimp only at hr
            by_cases hre : re = e
            case neg => rw [if_neg hre] at hr; exact Option.noConfusion hr
            rw [if_pos hre] at hr
            have hsub : ∀ x ∈ erow', x ∈ erow ∨ (x.2 = none ↔ r = 0) :=
              fun x hx => Or.inl (swapRemove_mem hsr hx)
            by_cases hlast : i ≠ erow'.length
            · rw [if_pos hlast] at hr
              cases hmv : erow'[i]? with
              | none => rw [hmv] at hr; exact Option.noConfusion hr
              | some me =>
                rw [hmv] at hr
                dsimp only at hr
                injection hr with hr
                rw [Prod.mk.injEq] at hr
                obtain ⟨-, hr2⟩ := hr
                subst hr2
                exact presenceInv_setRow hP her hsub
            · rw [if_neg hlast] at hr
              injection hr with hr
              rw [Prod.mk.injEq] at hr
              obtain ⟨-, hr2⟩ := hr
              subst hr2
              exact presenceInv_setRow hP her hsub

/-- The growth loop preserves the parent-presence invariant: it appends
the same number of empty rows to both arrays. -/
theorem presenceInv_growTo {tm : TransformManager} (hP : presenceInv tm)
    (target : Nat) : presenceInv (tm.growTo target) := by
  obtain ⟨hlen, hp0⟩ := hP
  unfold TransformManager.growTo
  dsimp only
  constructor
  · simp [hlen]
  · rw [parentNoneIffRow0_iff]
    intro r row hr ent hm
    dsimp only at hr
    by_cases hrl : r < tm.entities.length
    · rw [List.getElem?_append_left hrl] at hr
      exact parentNoneIffRow0_get hp0 hr hm
    · rw [List.getElem?_append_right (by omega)] at hr
      have hrow := List.getElem?_mem hr
      rw [List.eq_of_mem_replicate hrow] at hm
      exact absurd hm (List.not_mem_nil ent)

/-- The snapshot loop of `set_row_recursive` preserves any property
preserved by its step function. -/
theorem childFold_pres {P : TransformManager → Prop} {ent : Entity}
    {step : TransformManager → Entity → Option TransformManager}
    (hstep : ∀ tm c tm', P tm → step tm c = some tm' → P tm') :
    ∀ (l : List (Entity × Option Entity)) (tm tm' : TransformManager),
      P tm → childFold ent step tm l = some tm' → P tm' := by
  intro l
  induction l with
  | nil =>
    intro tm tm' hP h
    unfold childFold at h
    injection h with h
    subst h
    exact hP
  | cons a rest ih =>
    intro tm tm' hP h
    obtain ⟨c, mp⟩ := a
    unfold childFold at h
    by_cases hmp : mp = some ent
    · rw [if_pos hmp] at h
      cases hstep0 : step tm c with
      | none => rw [hstep0] at h; exact Option.noConfusion h
      | some tm1 =>
        rw [hstep0] at h
        dsimp only at h
        exact ih tm1 tm' (hstep tm c tm1 hP hstep0) h
    · rw [if_neg hmp] at h
      exact ih tm tm' hP h

/-- `set_row_recursive` preserves the parent-presence invariant: its
`debug_assert!` guard forces the relocated entry's recorded parent to be
`none` exactly when the target row is 0, and every recursive relocation
targets a positive row with a `Some` parent. -/
theorem srr_presenceInv :
    ∀ (fuel : Nat) (tm : TransformManager) (e : Entity) (p : Option Entity)
      (nr : Nat) (tm' : TransformManager), presenceInv tm →
      set_row_recursive fuel tm e p nr = some tm' → presenceInv tm' := by
  intro fuel
  induction fuel with
  | zero =>
    intro tm e p nr tm' _ h
    exact Option.noConfusion h
  | succ fuel ih =>
    intro tm e p nr tm' hP h
    unfold set_row_recursive at h
    by_cases hg : (nr = 0 ∧ p = none) ∨ (0 < nr ∧ p ≠ none)
    case neg => rw [if_neg hg] at h; exact Option.noConfusion h
    rw [if_pos hg] at h
    cases hidx : alookup tm.indices e with
    | none => rw [hidx] at h; exact Option.noConfusion h
    | some ri =>
      obtain ⟨old_row, oi⟩ := ri
      rw [hidx] at h
      dsimp only at h
      cases hrem : tm.remove e with
      | none => rw [hrem] at h; exact Option.noConfusion h
      | some pr =>
        obtain ⟨t, tm1⟩ := pr
        rw [hrem] at h
        dsimp only at h
        have hP2 : presenceInv (tm1.growTo (nr + 1)) :=
          presenceInv_growTo (presenceInv_remove hP hrem) (nr + 1)
        cases htr2 : (tm1.growTo (nr + 1)).transforms[nr]? with
        | none => rw [htr2] at h; exact Option.noConfusion h
        | some trow =>
          cases her2 : (tm1.growTo (nr + 1)).entities[nr]? with
          | none => rw [htr2, her2] at h; exact Option.noConfusion h
          | some erow =>
            rw [htr2, her2] at h
            dsimp only at h
            have hsub4 : ∀ x ∈ erow ++ [((e : Entity), p)],
                x ∈ erow ∨ (x.2 = none ↔ nr = 0) := by
              intro x hx
              rcases List.mem_append.1 hx with h1 | h1
              · exact Or.inl h1
              · rw [List.mem_singleton] at h1
                subst h1
                refine Or.inr ?_
                rcases hg with ⟨h0, hpn⟩ | ⟨h0, hpn⟩
                · simp [hpn, h0]
                · exact ⟨fun hc => absurd hc hpn, fun hc => absurd hc (by omega)⟩
            cases hch : ((tm1.growTo (nr + 1)).entities.set nr
                (erow ++ [(e, p)]))[old_row + 1]? with
            | none => rw [hch] at h; exact Option.noConfusion h
            | some children =>
              rw [hch] at h
              dsimp only at h
              refine childFold_pres ?_ children _ tm' ?_ h
              · intro tmA c tmA' hA hs
                exact ih tmA c (some e) (nr + 1) tmA' hA hs
              · exact presenceInv_setRow hP2 her2 hsub4

/-- `set_child` preserves the parent-presence invariant. -/
theorem presenceInv_set_child {tm tm' : TransformManager} {p c : Entity}
    (hP : presenceInv tm) (hs : tm.set_child p c = some tm') :
    presenceInv tm' := by
  unfold TransformManager.set_child at hs
  cases hidx : alookup tm.indices p with
  | none => rw [hidx] at hs; exact Option.noConfusion hs
  | some ri =>
    obtain ⟨pr, pi⟩ := ri
    rw [hidx] at hs
    dsimp only at hs
    exact srr_presenceInv (srrFuel tm) tm c (some p) (pr + 1) tm' hP hs

/-- Every state reachable by `assign`, `set_child`, and removal of
childless entities satisfies the parent-presence invariant. -/
theorem reachable_presenceInv {tm : TransformManager} (h : ReachableU tm) :
    presenceInv tm := by
  induction h with
  | base => exact ⟨rfl, by decide⟩
  | assign_step tm0 tm1 e _ ha ih => exact presenceInv_assign ih ha
  | set_child_step tm0 tm1 p c _ hs ih => exact presenceInv_set_child ih hs
  | remove_step tm0 tm1 e t _ _ hrem ih => exact presenceInv_remove ih hrem

/-- The child-row scan of `walk_hierarchy`/`walk_children` succeeds on a
row all of whose entries record a parent. -/
theorem childScan_isSome (entity : Entity) :
    ∀ erow : List (Entity × Option Entity), (∀ ent ∈ erow, ent.2 ≠ none) →
    (erow.foldr
      (fun child acc =>
        match acc, child.2 with
        | some l, some p => some (if p = entity then child.1 :: l else l)
        | _, _ => none)
      (some [])).isSome = true := by
  intro erow
  induction erow with
  | nil => intro _; rfl
  | cons a rest ih =>
    intro h
    have hrest := ih (fun ent hm => h ent (List.mem_cons_of_mem a hm))
    obtain ⟨l, hl⟩ := Option.isSome_iff_exists.mp hrest
    rw [List.foldr_cons, hl]
    cases ha2 : a.2 with
    | none => exact absurd ha2 (h a (List.mem_cons_self a rest))
    | some p => rfl

/-- On a state satisfying the parent-presence invariant, the child-row
scan — which unwraps every recorded parent of the scanned row — never
panics. -/
theorem childrenOf_isSome {tm : TransformManager} (hP : presenceInv tm)
    (e : Entity) : (TransformManager.childrenOf tm e).isSome = true := by
  obtain ⟨hlen, hp0⟩ := hP
  unfold TransformManager.childrenOf
  cases hidx : alookup tm.indices e with
  | none => rfl
  | some ri =>
    obtain ⟨row, oi⟩ := ri
    dsimp only
    by_cases hlt : row + 1 < tm.transforms.length
    · rw [if_pos hlt]
      cases her : tm.entities[row + 1]? with
      | none =>
        rw [List.getElem?_eq_none_iff] at her
        omega
      | some erow =>
        refine childScan_isSome e erow (fun ent hm hc => ?_)
        have := (parentNoneIffRow0_get hp0 her hm).1 hc
        omega
    · rw [if_neg hlt]
      rfl

/-- **C10** (implicit parent-presence invariant): in every state
reachable from the empty manager by `assign`, `set_child`, and removal of
childless entities, an entry stored in row 0 records no parent and an
entry stored in any row ≥ 1 records `Some` parent (`ent.2 = none ↔ r =
0`); consequently the child-row scan shared by `walk_hierarchy` and
`walk_children`, which calls `.unwrap()` on the recorded parent of every
scanned entry, never panics: `childrenOf` returns `some` for every
entity. -/
theorem walk_parent_presence (tm : TransformManager)
    (h : TransformManager.ReachableU tm) :
    TransformManager.parentNoneIffRow0 tm
    ∧ (∀ (r : Nat) (row : List (Entity × Option Entity))
        (ent : Entity × Option Entity), tm.entities[r]? = some row →
        ent ∈ row → (ent.2 = none ↔ r = 0))
    ∧ (∀ e : Entity, (TransformManager.childrenOf tm e).isSome = true) := by
  have hP := reachable_presenceInv h
  exact ⟨hP.2, fun r row ent hr hm => parentNoneIffRow0_get hP.2 hr hm,
    fun e => childrenOf_isSome hP e⟩

/-- Witness for C10 at the concrete reachable state `c10State`. -/
theorem walk_parent_presence_witness :
    TransformManager.ReachableU c10State
    ∧ (TransformManager.parentNoneIffRow0 c10State
      ∧ (∀ (r : Nat) (row : List (Entity × Option Entity))
          (ent : Entity × Option Entity), c10State.entities[r]? = some row →
          ent ∈ row → (ent.2 = none ↔ r = 0))
      ∧ (∀ e : Entity, (TransformManager.childrenOf c10State e).isSome = true)) :=
  have hstep : TransformManager.new.assign 1 = some c10State := by decide
  have hre : TransformManager.ReachableU c10State :=
    TransformManager.ReachableU.assign_step TransformManager.new c10State 1
      TransformManager.ReachableU.base hstep
  ⟨hre, walk_parent_presence c10State hre⟩

end HierarchyPresence

section Reparenting

open TransformManager

/-- **C4** (reparenting, failing behaviour): the claim asserts that
`set_child(parent, child)` succeeds for any registered parent and child,
placing child at row `parent.row + 1` and relocating its descendants.
The code diverges from this: `set_row_recursive` reads
`self.entities[old_row + 1]` without a bounds check, so the call panics
(index out of bounds) whenever the moved entity currently occupies the
deepest allocated row.  Concretely, on the reachable state `c4State`
(entities 1 and 3 at row 0, entity 2 — childless — at row 1 under
parent 1), both 3 and 2 are registered, yet `set_child 3 2` fails
instead of placing 2 at row 1 under 3. -/
theorem set_child_oob_panic :
    TransformManager.ReachableU c4State
    ∧ (alookup c4State.indices 3).isSome = true
    ∧ (alookup c4State.indices 2).isSome = true
    ∧ TransformManager.childless c4State 2
    ∧ c4State.set_child 3 2 = none := by
  refine ⟨?_, by decide, by decide, by decide, by decide⟩
  have h1 : TransformManager.new.assign 1 = some c4s1 := by decide
  have h2 : c4s1.assign 2 = some c4s2 := by decide
  have h3 : c4s2.assign 3 = some c4s3 := by decide
  have h4 : c4s3.set_child 1 2 = some c4State := by decide
  exact ReachableU.set_child_step c4s3 c4State 1 2
    (ReachableU.assign_step c4s2 c4s3 3
      (ReachableU.assign_step c4s1 c4s2 2
        (ReachableU.assign_step TransformManager.new c4s1 1 ReachableU.base h1)
        h2)
      h3)
    h4

end Reparenting

section RowDepthInfrastructure

open TransformManager

theorem fstep_det {g : Entity → Option Entity} {x y z : Entity}
    (h1 : fstep g x y) (h2 : fstep g x z) : y = z := by
  unfold fstep at h1 h2
  rw [h1] at h2
  injection h2

theorem reaches_refl {g : Entity → Option Entity} (x : Entity) : Reaches g x x :=
  Relation.ReflTransGen.refl

theorem reaches_head_cases {g : Entity → Option Entity} {x z : Entity}
    (h : Reaches g x z) : x = z ∨ ∃ y, g x = some y ∧ Reaches g y z := by
  rcases Relation.ReflTransGen.cases_head h with h | ⟨y, hxy, hyz⟩
  · exact Or.inl h
  · exact Or.inr ⟨y, hxy, hyz⟩

theorem reachesS_head_cases {g : Entity → Option Entity} {x z : Entity}
    (h : ReachesS g x z) : ∃ y, g x = some y ∧ Reaches g y z := by
  induction h using Relation.TransGen.head_induction_on with
  | base h1 => exact ⟨_, h1, Relation.ReflTransGen.refl⟩
  | ih h1 h2 _ => exact ⟨_, h1, Relation.TransGen.to_reflTransGen h2⟩

theorem reachesS_of_reaches_step {g : Entity → Option Entity} {a b c : Entity}
    (h : Reaches g a b) (hs : g b = some c) : ReachesS g a c :=
  Relation.TransGen.tail' h hs

theorem reachesS_of_step_reaches {g : Entity → Option Entity} {a b c : Entity}
    (hs : g a = some b) (h : Reaches g b c) : ReachesS g a c :=
  Relation.TransGen.head' hs h

theorem reaches_of_reachesS {g : Entity → Option Entity} {a b : Entity}
    (h : ReachesS g a b) : Reaches g a b :=
  Relation.TransGen.to_reflTransGen h

theorem reaches_of_step {g : Entity → Option Entity} {a b : Entity}
    (hs : g a = some b) : Reaches g a b :=
  Relation.ReflTransGen.single hs

theorem reaches_trans {g : Entity → Option Entity} {a b c : Entity}
    (h1 : Reaches g a b) (h2 : Reaches g b c) : Reaches g a c :=
  Relation.ReflTransGen.trans h1 h2

theorem parentF_eq_some_iff {tm : TransformManager} {x p : Entity} :
    parentF tm x = some p ↔ parentLink tm x = some (some p) := by
  unfold TransformManager.parentF
  cases h : parentLink tm x with
  | none => simp
  | some q =>
    cases q with
    | none => simp
    | some p' => simp

/-- A stored entry's recorded parent, read through `parentF`. -/
theorem parentF_of_entry {tm : TransformManager} {x p : Entity} {r i : Nat}
    {q : Option Entity}
    (hlook : alookup tm.indices x = some (r, i))
    (hent : entryAt tm r i = some (p, q)) :
    parentF tm x = match q with | some v => some v | none => none := by
  have hpl : parentLink tm x = some q := by
    unfold TransformManager.parentLink
    rw [hlook]
    show (entryAt tm r i).map Prod.snd = some q
    rw [hent]
    rfl
  unfold TransformManager.parentF
  rw [hpl]
  cases q with
  | none => rfl
  | some v => rfl

/-- `parentF tm x = some v` unpacked: the index resolves `x` to a slot
holding `(x, Some v)`. -/
theorem parentF_elim {tm : TransformManager} {x v : Entity}
    (hWB : WFbase tm) (h : parentF tm x = some v) :
    ∃ r i row, alookup tm.indices x = some (r, i)
      ∧ tm.entities[r]? = some row ∧ row[i]? = some (x, some v) := by
  rw [parentF_eq_some_iff] at h
  unfold TransformManager.parentLink at h
  cases hlook : alookup tm.indices x with
  | none => rw [hlook] at h; exact Option.noConfusion h
  | some ri =>
    obtain ⟨r, i⟩ := ri
    rw [hlook] at h
    have h2 : (entryAt tm r i).map Prod.snd = some (some v) := h
    cases hent : entryAt tm r i with
    | none => rw [hent] at h2; exact Option.noConfusion h2
    | some ent =>
      rw [hent] at h2
      obtain ⟨y, q⟩ := ent
      have h3 : some q = some (some v) := h2
      injection h3 with h3
      have hfst := idxSound_get hWB.2.1 hlook
      obtain ⟨row, ent', hrow, hent', hfst'⟩ := hfst
      have hent2 : row[i]? = some (y, q) := by
        unfold TransformManager.entryAt at hent
        rw [hrow] at hent
        simpa using hent
      rw [hent'] at hent2
      injection hent2 with hent2
      have hy : y = x := by rw [hent2] at hfst'; exact hfst'
      exact ⟨r, i, row, rfl, hrow, by rw [hent', hent2, hy, h3]⟩

/-- In a fully well-formed state every parent link is row-graded. -/
theorem wf_pairHealthy {tm : TransformManager} {u v : Entity}
    (hWB : WFbase tm) (hp0 : parentNoneIffRow0 tm) (hprow : parentRowOK tm)
    (h : parentF tm u = some v) : pairHealthy tm u v := by
  obtain ⟨r, i, row, hlook, hrow, hent⟩ := parentF_elim hWB h
  have hmem : (u, some v) ∈ row := List.getElem?_mem hent
  have hr0 : ¬ r = 0 := by
    intro hc
    have := (parentNoneIffRow0_get hp0 hrow hmem).2 hc
    exact Option.noConfusion this
  have hpr := parentRowOK_get hprow hrow hmem rfl
  refine ⟨r - 1, ?_, ?_⟩
  · unfold TransformManager.rowOf
    cases hlv : alookup tm.indices v with
    | none => rw [hlv] at hpr; exact Option.noConfusion hpr
    | some ri =>
      rw [hlv] at hpr
      simpa using hpr
  · unfold TransformManager.rowOf
    rw [hlook]
    simp
    omega

theorem parentF_congr {tmA tmB : TransformManager} {x : Entity}
    (h : parentLink tmB x = parentLink tmA x) :
    parentF tmB x = parentF tmA x := by
  unfold TransformManager.parentF
  rw [h]

theorem rowOf_isSome {tm : TransformManager} {x : Entity} :
    (TransformManager.rowOf tm x).isSome = (alookup tm.indices x).isSome := by
  unfold TransformManager.rowOf
  cases alookup tm.indices x <;> rfl

theorem rowsSync_of_rows {tm : TransformManager}
    (hlen : tm.transforms.length = tm.entities.length)
    (hrows : ∀ (r : Nat) trow erow, tm.transforms[r]? = some trow →
      tm.entities[r]? = some erow → trow.length = erow.length) :
    rowsSync tm := by
  refine ⟨hlen, ?_⟩
  intro p hp
  obtain ⟨i, hi⟩ := List.mem_iff_getElem?.1 hp
  obtain ⟨h1, h2⟩ := List.getElem?_zip_eq_some.1 hi
  exact hrows i p.1 p.2 h1 h2

/-- `parentLink` is unchanged between two base-well-formed states that
keep each entity's row and whose entries all originate, row for row, in
the older state. -/
theorem parentLink_pres {tmA tmB : TransformManager}
    (hWA : WFbase tmA) (hWB : WFbase tmB) (x : Entity)
    (hrow : rowOf tmB x = rowOf tmA x)
    (horig : ∀ (r j : Nat) (ent : Entity × Option Entity),
      (tmB.entities[r]?).bind (fun row => row[j]?) = some ent →
      ∃ j0 : Nat, (tmA.entities[r]?).bind (fun row => row[j0]?) = some ent) :
    parentLink tmB x = parentLink tmA x := by
  cases hlB : alookup tmB.indices x with
  | none =>
    have hBn : rowOf tmB x = none := by
      unfold TransformManager.rowOf
      rw [hlB]
      rfl
    have hAn : rowOf tmA x = none := by rw [← hrow]; exact hBn
    have hlA : alookup tmA.indices x = none := by
      unfold TransformManager.rowOf at hAn
      cases h : alookup tmA.indices x with
      | none => rfl
      | some ri => rw [h] at hAn; exact absurd hAn (by simp)
    unfold TransformManager.parentLink
    rw [hlB, hlA]
    rfl
  | some ri =>
    obtain ⟨r, j⟩ := ri
    obtain ⟨row, ent, hrowB, hentB, hfstB⟩ := idxSound_get hWB.2.1 hlB
    obtain ⟨j0, hA⟩ := horig r j ent (by rw [hrowB]; simpa using hentB)
    cases hrowA : tmA.entities[r]? with
    | none => rw [hrowA] at hA; simp at hA
    | some rowA =>
      rw [hrowA] at hA
      simp only [Option.some_bind] at hA
      have hlookA := storageSound_get hWA.2.2.1 hrowA hA
      rw [hfstB] at hlookA
      unfold TransformManager.parentLink
      rw [hlB, hlookA]
      show (entryAt tmB r j).map Prod.snd = (entryAt tmA r j0).map Prod.snd
      unfold TransformManager.entryAt
      rw [hrowB, hrowA]
      simp only [Option.some_bind]
      rw [hentB, hA]

theorem growTo_entities (tm : TransformManager) (target : Nat) :
    (tm.growTo target).entities
      = tm.entities ++ List.replicate (target - tm.transforms.length) [] := rfl

theorem growTo_transforms (tm : TransformManager) (target : Nat) :
    (tm.growTo target).transforms
      = tm.transforms ++ List.replicate (target - tm.transforms.length) [] := rfl

theorem growTo_indices (tm : TransformManager) (target : Nat) :
    (tm.growTo target).indices = tm.indices := rfl

theorem entryAt_growTo (tm : TransformManager) (target : Nat) (r j : Nat) :
    entryAt (tm.growTo target) r j = entryAt tm r j := by
  unfold TransformManager.entryAt
  rw [growTo_entities]
  by_cases hr : r < tm.entities.length
  · rw [List.getElem?_append_left hr]
  · have hrhs : tm.entities[r]? = none := List.getElem?_eq_none_iff.2 (by omega)
    rw [List.getElem?_append_right (by omega), hrhs]
    cases hrep : (List.replicate (target - tm.transforms.length)
        ([] : List (Entity × Option Entity)))[r - tm.entities.length]? with
    | none => rfl
    | some row =>
      have := List.eq_of_mem_replicate (List.getElem?_mem hrep)
      subst this
      simp

theorem rowOf_growTo (tm : TransformManager) (target : Nat) (x : Entity) :
    rowOf (tm.growTo target) x = rowOf tm x := rfl

theorem parentLink_growTo (tm : TransformManager) (target : Nat) (x : Entity) :
    parentLink (tm.growTo target) x = parentLink tm x := by
  unfold TransformManager.parentLink
  rw [growTo_indices]
  cases alookup tm.indices x with
  | none => rfl
  | some ri => simp only [Option.some_bind]; rw [entryAt_growTo]

theorem WFbase_growTo {tm : TransformManager} (hWB : WFbase tm) (target : Nat) :
    WFbase (tm.growTo target) := by
  obtain ⟨hsync, hidxS, hstore, hnd, hpos⟩ := hWB
  refine ⟨?_, ?_, ?_, hnd, ?_⟩
  · refine rowsSync_of_rows ?_ ?_
    · show (tm.transforms ++ _).length = (tm.entities ++ _).length
      simp [hsync.1]
    · intro r trow erow htr her
      rw [growTo_transforms] at htr
      rw [growTo_entities] at her
      have hlen0 := hsync.1
      by_cases hr : r < tm.transforms.length
      · rw [List.getElem?_append_left hr] at htr
        rw [List.getElem?_append_left (by omega)] at her
        exact rowsSync_rowlen hsync htr her
      · rw [List.getElem?_append_right (by omega)] at htr
        rw [List.getElem?_append_right (by omega)] at her
        have h1 := List.eq_of_mem_replicate (List.getElem?_mem htr)
        have h2 := List.eq_of_mem_replicate (List.getElem?_mem her)
        subst h1
        subst h2
        rfl
  · intro b hb
    show (entryAt (tm.growTo target) b.2.1 b.2.2).map Prod.fst = some b.1
    rw [entryAt_growTo]
    exact hidxS b hb
  · rw [storageSound_iff]
    intro r row hrow i ent hent
    rw [growTo_entities] at hrow
    by_cases hr : r < tm.entities.length
    · rw [List.getElem?_append_left hr] at hrow
      exact storageSound_get hstore hrow hent
    · rw [List.getElem?_append_right (by omega)] at hrow
      have := List.eq_of_mem_replicate (List.getElem?_mem hrow)
      subst this
      simp at hent
  · show 0 < (tm.transforms ++ _).length
    simp
    omega

/-- Post-state of the push phase: appending `(e, Some pe)` to row `nr`
of a base-well-formed state in which `e` is unregistered. -/
theorem pushRow_spec {tm2 : TransformManager} {e : Entity} {pe : Option Entity}
    {nr : Nat} {t : Transform} {trow : List Transform}
    {erow : List (Entity × Option Entity)}
    (hWB2 : WFbase tm2)
    (hnone : alookup tm2.indices e = none)
    (htr2 : tm2.transforms[nr]? = some trow)
    (her2 : tm2.entities[nr]? = some erow) :
    WFbase { transforms := tm2.transforms.set nr (trow ++ [t])
             entities := tm2.entities.set nr (erow ++ [(e, pe)])
             indices := ainsert tm2.indices e (nr, trow.length)
             marked_for_destroy := tm2.marked_for_destroy }
    ∧ alookup (ainsert tm2.indices e (nr, trow.length)) e = some (nr, trow.length)
    ∧ (∀ x, x ≠ e → alookup (ainsert tm2.indices e (nr, trow.length)) x
        = alookup tm2.indices x)
    ∧ parentLink { transforms := tm2.transforms.set nr (trow ++ [t])
                   entities := tm2.entities.set nr (erow ++ [(e, pe)])
                   indices := ainsert tm2.indices e (nr, trow.length)
                   marked_for_destroy := tm2.marked_for_destroy } e = some pe
    ∧ (∀ x, x ≠ e →
        parentLink { transforms := tm2.transforms.set nr (trow ++ [t])
                     entities := tm2.entities.set nr (erow ++ [(e, pe)])
                     indices := ainsert tm2.indices e (nr, trow.length)
                     marked_for_destroy := tm2.marked_for_destroy } x
          = parentLink tm2 x)
    ∧ (∀ (r j : Nat) (ent : Entity × Option Entity),
        entryAt { transforms := tm2.transforms.set nr (trow ++ [t])
                  entities := tm2.entities.set nr (erow ++ [(e, pe)])
                  indices := ainsert tm2.indices e (nr, trow.length)
                  marked_for_destroy := tm2.marked_for_destroy } r j = some ent →
        ent = (e, pe) ∨ ∃ j0 : Nat, entryAt tm2 r j0 = some ent) := by
  obtain ⟨hsync, hidxS, hstore, hnd, hpos⟩ := hWB2
  set tm4 : TransformManager :=
    { transforms := tm2.transforms.set nr (trow ++ [t])
      entities := tm2.entities.set nr (erow ++ [(e, pe)])
      indices := ainsert tm2.indices e (nr, trow.length)
      marked_for_destroy := tm2.marked_for_destroy } with htm4
  have hE4 : tm4.entities = tm2.entities.set nr (erow ++ [(e, pe)]) := rfl
  have hT4 : tm4.transforms = tm2.transforms.set nr (trow ++ [t]) := rfl
  have hI4 : tm4.indices = ainsert tm2.indices e (nr, trow.length) := rfl
  have hlen : trow.length = erow.length := rowsSync_rowlen hsync htr2 her2
  have hnrT : nr < tm2.transforms.length := by
    by_contra hc
    rw [List.getElem?_eq_none_iff.2 (by omega)] at htr2
    exact Option.noConfusion htr2
  have hnrE : nr < tm2.entities.length := by
    by_contra hc
    rw [List.getElem?_eq_none_iff.2 (by omega)] at her2
    exact Option.noConfusion her2
  have hrowE : tm4.entities[nr]? = some (erow ++ [(e, pe)]) := by
    rw [hE4]
    exact List.getElem?_set_self hnrE
  have hslotE : (erow ++ [(e, pe)])[trow.length]? = some (e, pe) := by
    rw [hlen, List.getElem?_append_right (le_refl _)]
    simp
  have hlookSelf : alookup tm4.indices e = some (nr, trow.length) := by
    rw [hI4]
    exact alookup_ainsert_self _ _ _
  have hlookNe : ∀ x, x ≠ e → alookup tm4.indices x = alookup tm2.indices x := by
    intro x hx
    rw [hI4]
    exact alookup_ainsert_ne _ hx
  have hpushEnt : entryAt tm4 nr trow.length = some (e, pe) := by
    unfold TransformManager.entryAt
    rw [hrowE]
    simp only [Option.some_bind]
    exact hslotE
  have hentOld : ∀ (r j : Nat) (ent : Entity × Option Entity),
      entryAt tm2 r j = some ent → entryAt tm4 r j = some ent := by
    intro r j ent h
    unfold TransformManager.entryAt at h ⊢
    rw [hE4]
    by_cases hr : r = nr
    · subst hr
      rw [her2] at h
      simp only [Option.some_bind] at h
      have hj : j < erow.length := by
        by_contra hc
        rw [List.getElem?_eq_none_iff.2 (by omega)] at h
        exact Option.noConfusion h
      rw [List.getElem?_set_self hnrE]
      simp only [Option.some_bind]
      rw [List.getElem?_append_left hj]
      exact h
    · rw [List.getElem?_set_ne (fun hc => hr hc.symm)]
      exact h
  have hE4row : ∀ r : Nat, r ≠ nr → tm4.entities[r]? = tm2.entities[r]? := by
    intro r hr
    rw [hE4]
    exact List.getElem?_set_ne (fun hc => hr hc.symm)
  refine ⟨⟨?_, ?_, ?_, ?_, ?_⟩, hlookSelf, hlookNe, ?_, ?_, ?_⟩
  · refine rowsSync_of_rows ?_ ?_
    · rw [hE4, hT4]
      simp [hsync.1]
    · intro r trowx erowx htrx herx
      rw [hT4] at htrx
      rw [hE4] at herx
      by_cases hr : r = nr
      · subst hr
        rw [List.getElem?_set_self hnrT] at htrx
        rw [List.getElem?_set_self hnrE] at herx
        injection htrx with htrx
        injection herx with herx
        subst htrx
        subst herx
        simp [hlen]
      · rw [List.getElem?_set_ne (fun hc => hr hc.symm)] at htrx
        rw [List.getElem?_set_ne (fun hc => hr hc.symm)] at herx
        exact rowsSync_rowlen hsync htrx herx
  · intro b hb
    rw [hI4, ainsert] at hb
    rcases List.mem_cons.1 hb with hb | hb
    · subst hb
      show (entryAt tm4 nr trow.length).map Prod.fst = some e
      rw [hpushEnt]
      rfl
    · obtain ⟨hbmem, hbne⟩ := mem_aerase.1 hb
      have hold := hidxS b hbmem
      cases hent : entryAt tm2 b.2.1 b.2.2 with
      | none => rw [hent] at hold; exact Option.noConfusion hold
      | some ent =>
        show (entryAt tm4 b.2.1 b.2.2).map Prod.fst = some b.1
        rw [hentOld b.2.1 b.2.2 ent hent]
        rw [hent] at hold
        exact hold
  · rw [storageSound_iff]
    intro r row hrow i ent hent
    show alookup tm4.indices ent.1 = some (r, i)
    by_cases hr : r = nr
    · subst hr
      rw [hrowE] at hrow
      injection hrow with hrow
      subst hrow
      by_cases hi : i < erow.length
      · rw [List.getElem?_append_left hi] at hent
        have hold := storageSound_get hstore her2 hent
        have hne : ent.1 ≠ e := by
          intro hc
          rw [hc, hnone] at hold
          exact Option.noConfusion hold
        rw [hlookNe ent.1 hne]
        exact hold
      · by_cases hi2 : i = erow.length
        · subst hi2
          rw [List.getElem?_append_right (le_refl _)] at hent
          simp at hent
          subst hent
          rw [hlookSelf, hlen]
        · rw [List.getElem?_eq_none_iff.2 (by simp; omega)] at hent
          exact Option.noConfusion hent
    · rw [hE4row r hr] at hrow
      have hold := storageSound_get hstore hrow hent
      have hne : ent.1 ≠ e := by
        intro hc
        rw [hc, hnone] at hold
        exact Option.noConfusion hold
      rw [hlookNe ent.1 hne]
      exact hold
  · show (tm4.indices.map Prod.fst).Nodup
    rw [hI4]
    exact keys_ainsert_nodup e _ hnd
  · show 0 < tm4.transforms.length
    rw [hT4]
    simpa using hpos
  · show parentLink tm4 e = some pe
    unfold TransformManager.parentLink
    rw [hlookSelf]
    simp only [Option.some_bind]
    rw [hpushEnt]
    rfl
  · intro x hx
    show parentLink tm4 x = parentLink tm2 x
    unfold TransformManager.parentLink
    rw [hlookNe x hx]
    cases hlx : alookup tm2.indices x with
    | none => rfl
    | some ri =>
      simp only [Option.some_bind]
      obtain ⟨row, ent, hrow, hent, hfst⟩ := idxSound_get hidxS hlx
      have hent2 : entryAt tm2 ri.1 ri.2 = some ent := by
        unfold TransformManager.entryAt
        rw [hrow]
        simpa using hent
      rw [hent2, hentOld ri.1 ri.2 ent hent2]
  · intro r j ent hent
    have hent' : (tm4.entities[r]?).bind (fun row => row[j]?) = some ent := hent
    by_cases hr : r = nr
    · subst hr
      rw [hrowE] at hent'
      simp only [Option.some_bind] at hent'
      by_cases hj : j < erow.length
      · rw [List.getElem?_append_left hj] at hent'
        refine Or.inr ⟨j, ?_⟩
        unfold TransformManager.entryAt
        rw [her2]
        simpa using hent'
      · by_cases hj2 : j = erow.length
        · subst hj2
          rw [List.getElem?_append_right (le_refl _)] at hent'
          simp at hent'
          exact Or.inl hent'.symm
        · rw [List.getElem?_eq_none_iff.2 (by simp; omega)] at hent'
          exact Option.noConfusion hent'
    · rw [hE4row r hr] at hent'
      exact Or.inr ⟨j, hent'⟩

/-- Destructuring of one successful step of `set_row_recursive`: the
guard passed, the lookup/remove/grow/push pipeline ran, and the final
result came from the fold over the snapshotted child row. -/
theorem srr_elim {fuel : Nat} {tm tm' : TransformManager} {e pe : Entity} {nr : Nat}
    (h : set_row_recursive (fuel + 1) tm e (some pe) nr = some tm') :
    0 < nr ∧
    ∃ (old_row oi : Nat) (t : Transform) (tm1 : TransformManager)
      (trow : List Transform) (erow children : List (Entity × Option Entity)),
      alookup tm.indices e = some (old_row, oi)
      ∧ tm.remove e = some (t, tm1)
      ∧ (tm1.growTo (nr + 1)).transforms[nr]? = some trow
      ∧ (tm1.growTo (nr + 1)).entities[nr]? = some erow
      ∧ (srrPush tm1 e pe nr t trow erow).entities[old_row + 1]? = some children
      ∧ childFold e (fun tmAcc child =>
          set_row_recursive fuel tmAcc child (some e) (nr + 1))
          (srrPush tm1 e pe nr t trow erow) children = some tm' := by
  unfold set_row_recursive at h
  by_cases hg : (nr = 0 ∧ (some pe : Option Entity) = none)
      ∨ (0 < nr ∧ (some pe : Option Entity) ≠ none)
  case neg => rw [if_neg hg] at h; exact Option.noConfusion h
  rw [if_pos hg] at h
  have hnr : 0 < nr := by
    rcases hg with ⟨-, hc⟩ | ⟨h1, -⟩
    · exact Option.noConfusion hc
    · exact h1
  refine ⟨hnr, ?_⟩
  cases hlook : alookup tm.indices e with
  | none => rw [hlook] at h; exact Option.noConfusion h
  | some ri =>
    obtain ⟨old_row, oi⟩ := ri
    rw [hlook] at h
    dsimp only at h
    cases hrem : tm.remove e with
    | none => rw [hrem] at h; exact Option.noConfusion h
    | some pr =>
      obtain ⟨t, tm1⟩ := pr
      rw [hrem] at h
      dsimp only at h
      cases htr2 : (tm1.growTo (nr + 1)).transforms[nr]? with
      | none => rw [htr2] at h; exact Option.noConfusion h
      | some trow =>
        cases her2 : (tm1.growTo (nr + 1)).entities[nr]? with
        | none => rw [htr2, her2] at h; exact Option.noConfusion h
        | some erow =>
          rw [htr2, her2] at h
          dsimp only at h
          cases hch : ((tm1.growTo (nr + 1)).entities.set nr
              (erow ++ [(e, some pe)]))[old_row + 1]? with
          | none => rw [hch] at h; exact Option.noConfusion h
          | some children =>
            rw [hch] at h
            dsimp only at h
            exact ⟨old_row, oi, t, tm1, trow, erow, children, rfl, rfl, htr2, her2,
              hch, h⟩

/-- Effect of the whole remove/grow/push pipeline of
`set_row_recursive` on the invariants, rows, and parent links. -/
theorem srr_body {tm : TransformManager} {e pe : Entity} {nr old_row oi : Nat}
    {t : Transform} {tm1 : TransformManager} {trow : List Transform}
    {erow : List (Entity × Option Entity)}
    (hWB : WFbase tm) (hp0 : parentNoneIffRow0 tm)
    (hlook : alookup tm.indices e = some (old_row, oi))
    (hrem : tm.remove e = some (t, tm1))
    (htr2 : (tm1.growTo (nr + 1)).transforms[nr]? = some trow)
    (her2 : (tm1.growTo (nr + 1)).entities[nr]? = some erow)
    (hnr : 0 < nr) :
    WFbase (srrPush tm1 e pe nr t trow erow)
    ∧ parentNoneIffRow0 (srrPush tm1 e pe nr t trow erow)
    ∧ rowOf (srrPush tm1 e pe nr t trow erow) e = some nr
    ∧ parentF (srrPush tm1 e pe nr t trow erow) e = some pe
    ∧ (∀ x, x ≠ e → rowOf (srrPush tm1 e pe nr t trow erow) x = rowOf tm x)
    ∧ (∀ x, x ≠ e → parentF (srrPush tm1 e pe nr t trow erow) x = parentF tm x)
    ∧ (∀ x, (alookup (srrPush tm1 e pe nr t trow erow).indices x).isSome
        = (alookup tm.indices x).isSome)
    ∧ (∀ (r j : Nat) (ent : Entity × Option Entity),
        entryAt (srrPush tm1 e pe nr t trow erow) r j = some ent →
        ent = (e, some pe) ∨ ∃ j0 : Nat, entryAt tm r j0 = some ent) := by
  obtain ⟨t', tm1', hrem', hTlen, hElen, hmk1, hWB1, hnone1, hrowpres, horig,
    hshrink, hmoved⟩ := remove_spec hWB hlook
  rw [hrem] at hrem'
  injection hrem' with hpair
  rw [Prod.mk.injEq] at hpair
  obtain ⟨ht', htm1'⟩ := hpair
  subst ht'
  subst htm1'
  have hWB2 : WFbase (tm1.growTo (nr + 1)) := WFbase_growTo hWB1 (nr + 1)
  have hnone2 : alookup (tm1.growTo (nr + 1)).indices e = none := hnone1
  obtain ⟨hWB4, hlookSelf, hlookNe, hpl4e, hpl4ne, horig4⟩ :=
    pushRow_spec hWB2 hnone2 htr2 her2
  have hWB4' : WFbase (srrPush tm1 e pe nr t trow erow) := hWB4
  have hpl4e' : parentLink (srrPush tm1 e pe nr t trow erow) e = some (some pe) :=
    hpl4e
  have hpl4ne' : ∀ x, x ≠ e → parentLink (srrPush tm1 e pe nr t trow erow) x
      = parentLink (tm1.growTo (nr + 1)) x := hpl4ne
  have horig4' : ∀ (r j : Nat) (ent : Entity × Option Entity),
      entryAt (srrPush tm1 e pe nr t trow erow) r j = some ent →
      ent = (e, some pe) ∨ ∃ j0 : Nat, entryAt (tm1.growTo (nr + 1)) r j0 = some ent :=
    horig4
  have hrowpres1 : ∀ x, x ≠ e → rowOf tm1 x = rowOf tm x := hrowpres
  refine ⟨hWB4, ?_, ?_, ?_, ?_, ?_, ?_, ?_⟩
  · -- parentNoneIffRow0 via the presence-invariant machinery
    have hpres : presenceInv tm := ⟨hWB.1.1, hp0⟩
    have hpres1 : presenceInv tm1 := presenceInv_remove hpres hrem
    have hpres2 : presenceInv (tm1.growTo (nr + 1)) := presenceInv_growTo hpres1 _
    have hpres4 : presenceInv
        { transforms := (tm1.growTo (nr + 1)).transforms.set nr (trow ++ [t])
          entities := (tm1.growTo (nr + 1)).entities.set nr (erow ++ [(e, some pe)])
          indices := ainsert (tm1.growTo (nr + 1)).indices e (nr, trow.length)
          marked_for_destroy := (tm1.growTo (nr + 1)).marked_for_destroy } :=
      presenceInv_setRow hpres2 her2 (fun x hx => by
      rcases List.mem_append.1 hx with h1 | h1
      · exact Or.inl h1
      · rw [List.mem_singleton] at h1
        refine Or.inr ⟨?_, ?_⟩
        · intro hc
          rw [h1] at hc
          simp at hc
        · intro hc
          exact absurd hc (by omega))
    exact hpres4.2
  · show (alookup (srrPush tm1 e pe nr t trow erow).indices e).map Prod.fst
      = some nr
    rw [show (srrPush tm1 e pe nr t trow erow).indices
        = ainsert (tm1.growTo (nr + 1)).indices e (nr, trow.length) from rfl]
    rw [hlookSelf]
    rfl
  · exact parentF_eq_some_iff.2 hpl4e'
  · intro x hx
    show (alookup (srrPush tm1 e pe nr t trow erow).indices x).map Prod.fst
      = rowOf tm x
    rw [show (srrPush tm1 e pe nr t trow erow).indices
        = ainsert (tm1.growTo (nr + 1)).indices e (nr, trow.length) from rfl]
    rw [hlookNe x hx]
    rw [growTo_indices]
    exact hrowpres1 x hx
  · intro x hx
    refine parentF_congr ?_
    rw [hpl4ne' x hx, parentLink_growTo]
    exact parentLink_pres hWB hWB1 x (hrowpres1 x hx) horig
  · intro x
    by_cases hx : x = e
    · rw [hx]
      rw [show (srrPush tm1 e pe nr t trow erow).indices
          = ainsert (tm1.growTo (nr + 1)).indices e (nr, trow.length) from rfl]
      rw [hlookSelf, hlook]
      rfl
    · rw [show (srrPush tm1 e pe nr t trow erow).indices
          = ainsert (tm1.growTo (nr + 1)).indices e (nr, trow.length) from rfl]
      rw [hlookNe x hx, growTo_indices]
      rw [← rowOf_isSome, ← rowOf_isSome, hrowpres1 x hx]
  · intro r j ent hent
    rcases horig4' r j ent hent with h1 | ⟨j0, h1⟩
    · exact Or.inl h1
    · rw [entryAt_growTo] at h1
      rcases horig r j0 ent h1 with ⟨j00, h2⟩
      exact Or.inr ⟨j00, h2⟩

theorem parentRowOKExcept_mono {A B : Set Entity} {tm : TransformManager}
    (hAB : A ⊆ B) (h : parentRowOKExcept A tm) : parentRowOKExcept B tm :=
  fun rp hrp ent hm hnot p hp => h rp hrp ent hm (fun hc => hnot (hAB hc)) p hp

theorem parentRowOKExcept_iff {B : Set Entity} {tm : TransformManager} :
    parentRowOKExcept B tm ↔ ∀ (r : Nat) row, tm.entities[r]? = some row →
      ∀ ent ∈ row, ent.1 ∉ B → ∀ p, ent.2 = some p →
        (alookup tm.indices p).map Prod.fst = some (r - 1) := by
  constructor
  · intro h r row hr ent hm hnot p hp
    refine h (r, row) (List.mem_enum_iff_getElem?.2 hr) ent hm hnot p ?_
    rw [hp]
    simp
  · intro h rp hrp ent hm hnot p hp
    cases hq : ent.2 with
    | none => rw [hq] at hp; simp at hp
    | some p' =>
      rw [hq] at hp
      simp only [Option.toList_some, List.mem_singleton] at hp
      subst hp
      exact h rp.1 rp.2 (List.mem_enum_iff_getElem?.1 hrp) ent hm hnot p hq

/-- A stored entry read off a row determines `rowOf` and `parentF` of
its entity. -/
theorem entry_facts {tm : TransformManager} {r j : Nat}
    {row : List (Entity × Option Entity)} {ent : Entity × Option Entity}
    (hWB : WFbase tm) (hrow : tm.entities[r]? = some row)
    (hent : row[j]? = some ent) :
    TransformManager.rowOf tm ent.1 = some r ∧ parentF tm ent.1 = ent.2 := by
  have hlook := storageSound_get hWB.2.2.1 hrow hent
  constructor
  · unfold TransformManager.rowOf
    rw [hlook]
    rfl
  · have hpl : parentLink tm ent.1 = some ent.2 := by
      unfold TransformManager.parentLink
      rw [hlook]
      show (entryAt tm r j).map Prod.snd = some ent.2
      unfold TransformManager.entryAt
      rw [hrow]
      simp only [Option.some_bind]
      rw [hent]
      rfl
    unfold TransformManager.parentF
    rw [hpl]
    cases ent.2 with
    | none => rfl
    | some v => rfl

theorem reaches_ne_reachesS {g : Entity → Option Entity} {a b : Entity}
    (h : Reaches g a b) (hne : a ≠ b) : ReachesS g a b := by
  rcases reaches_head_cases h with h1 | ⟨y, hay, hyb⟩
  · exact absurd h1 hne
  · exact Relation.TransGen.head' hay hyb

/-- The loop of `set_row_recursive` over the snapshotted child row: the
per-child relocation (provided by `hstepIH`, the recursion at one less
fuel) consumes the stale children one by one, preserving the invariants
and fixing every processed child at row `nr + 1`. -/
theorem srr_fold {g : Entity → Option Entity} {e : Entity} {nr : Nat}
    {step : TransformManager → Entity → Option TransformManager}
    (hstepIH : ∀ (tmk : TransformManager) (c : Entity) (tmres : TransformManager)
      (Bc : Set Entity),
      WFbase tmk → parentNoneIffRow0 tmk →
      TransformManager.rowOf tmk e = some nr →
      parentRowOKExcept Bc tmk →
      (∀ x ∈ Bc, ∃ a, g x = some a ∧ ReachesS g c a) →
      g c = some e →
      (∀ x, x ≠ c → g x = parentF tmk x) →
      ¬ ReachesS g c c →
      step tmk c = some tmres →
        WFbase tmres ∧ parentNoneIffRow0 tmres
        ∧ parentRowOKExcept (Bc \ {c}) tmres
        ∧ (∀ x, parentF tmres x = g x)
        ∧ TransformManager.rowOf tmres c = some (nr + 1)
        ∧ (∀ x, ¬ Reaches g x c →
            TransformManager.rowOf tmres x = TransformManager.rowOf tmk x)
        ∧ (∀ x, (alookup tmres.indices x).isSome = (alookup tmk.indices x).isSome)) :
    ∀ (rest : List (Entity × Option Entity)) (tmk tm' : TransformManager)
      (B0 : Set Entity),
      WFbase tmk → parentNoneIffRow0 tmk →
      TransformManager.rowOf tmk e = some nr →
      parentRowOKExcept (B0 ∪ {x | ∃ mp, (x, mp) ∈ rest ∧ mp = some e}) tmk →
      (∀ x ∈ B0, ∃ a, g x = some a ∧ ReachesS g e a) →
      (∀ p ∈ rest, g p.1 = p.2) →
      (∀ p ∈ rest, p.2 = some e → p.1 ≠ e ∧ ¬ ReachesS g p.1 p.1
        ∧ ¬ Reaches g e p.1) →
      (∀ x, parentF tmk x = g x) →
      childFold e step tmk rest = some tm' →
        WFbase tm' ∧ parentNoneIffRow0 tm'
        ∧ parentRowOKExcept B0 tm'
        ∧ (∀ x, parentF tm' x = g x)
        ∧ TransformManager.rowOf tm' e = some nr
        ∧ (∀ x, (∀ p ∈ rest, p.2 = some e → ¬ Reaches g x p.1) →
            TransformManager.rowOf tm' x = TransformManager.rowOf tmk x)
        ∧ (∀ x, (alookup tm'.indices x).isSome = (alookup tmk.indices x).isSome) := by
  intro rest
  induction rest with
  | nil =>
    intro tmk tm' B0 hW hP hrowE hExc hB5 hpairs hchild hg h
    unfold childFold at h
    injection h with h
    subst h
    refine ⟨hW, hP, ?_, hg, hrowE, fun x _ => rfl, fun x => rfl⟩
    refine parentRowOKExcept_mono ?_ hExc
    intro y hy
    rcases hy with hy | hy
    · exact hy
    · obtain ⟨mp, hmem, -⟩ := hy
      exact absurd hmem (List.not_mem_nil _)
  | cons a rest' ih =>
    intro tmk tm' B0 hW hP hrowE hExc hB5 hpairs hchild hg h
    obtain ⟨c, mp⟩ := a
    unfold childFold at h
    by_cases hmp : mp = some e
    · rw [if_pos hmp] at h
      cases hstep0 : step tmk c with
      | none => rw [hstep0] at h; exact Option.noConfusion h
      | some tmk1 =>
        rw [hstep0] at h
        dsimp only at h
        have hgc : g c = some e := by
          have := hpairs (c, mp) (List.mem_cons_self _ _)
          rw [hmp] at this
          exact this
        obtain ⟨hce, hacy_c, hnotreach_ec⟩ :=
          hchild (c, mp) (List.mem_cons_self _ _) hmp
        obtain ⟨hW1, hP1, hExc1, hgf1, hrowc1, hframe1, hdom1⟩ :=
          hstepIH tmk c tmk1
            (B0 ∪ {x | ∃ mp', (x, mp') ∈ (c, mp) :: rest' ∧ mp' = some e})
            hW hP hrowE hExc
            (fun x hx => by
              rcases hx with hx | hx
              · obtain ⟨a, hga, hae⟩ := hB5 x hx
                exact ⟨a, hga, reachesS_of_step_reaches hgc
                  (reaches_of_reachesS hae)⟩
              · obtain ⟨mp', hmem, hmp'⟩ := hx
                have := hpairs (x, mp') hmem
                rw [hmp'] at this
                exact ⟨e, this, Relation.TransGen.single hgc⟩)
            hgc (fun x _ => (hg x).symm) hacy_c hstep0
        obtain ⟨hW2, hP2, hExc2, hgf2, hrowE2, hframe2, hdom2⟩ :=
          ih tmk1 tm' B0 hW1 hP1
            (by rw [hframe1 e hnotreach_ec]; exact hrowE)
            (parentRowOKExcept_mono (by
              intro y hy
              obtain ⟨hy1, hy2⟩ := hy
              rcases hy1 with hy1 | hy1
              · exact Or.inl hy1
              · obtain ⟨mp', hmem, hmp'⟩ := hy1
                rcases List.mem_cons.1 hmem with hmem | hmem
                · exfalso
                  apply hy2
                  have : y = c := congrArg Prod.fst hmem
                  exact this
                · exact Or.inr ⟨mp', hmem, hmp'⟩) hExc1)
            hB5 (fun p hp => hpairs p (List.mem_cons_of_mem _ hp))
            (fun p hp hpe => hchild p (List.mem_cons_of_mem _ hp) hpe)
            hgf1 h
        refine ⟨hW2, hP2, hExc2, hgf2, hrowE2, ?_, ?_⟩
        · intro x hx
          rw [hframe2 x (fun p hp hpe => hx p (List.mem_cons_of_mem _ hp) hpe)]
          exact hframe1 x (hx (c, mp) (List.mem_cons_self _ _) hmp)
        · intro x
          rw [hdom2 x, hdom1 x]
    · rw [if_neg hmp] at h
      obtain ⟨hW2, hP2, hExc2, hgf2, hrowE2, hframe2, hdom2⟩ :=
        ih tmk tm' B0 hW hP hrowE
          (parentRowOKExcept_mono (by
            intro y hy
            rcases hy with hy | hy
            · exact Or.inl hy
            · obtain ⟨mp', hmem, hmp'⟩ := hy
              rcases List.mem_cons.1 hmem with hmem | hmem
              · exfalso
                have : mp' = mp := congrArg Prod.snd hmem
                rw [this] at hmp'
                exact hmp hmp'
              · exact Or.inr ⟨mp', hmem, hmp'⟩) hExc)
          hB5 (fun p hp => hpairs p (List.mem_cons_of_mem _ hp))
          (fun p hp hpe => hchild p (List.mem_cons_of_mem _ hp) hpe) hg h
      exact ⟨hW2, hP2, hExc2, hgf2, hrowE2,
        fun x hx => hframe2 x (fun p hp hpe => hx p (List.mem_cons_of_mem _ hp) hpe),
        hdom2⟩

/-- Main invariant-preservation lemma for `set_row_recursive` in the
acyclic case: on a state that is base-well-formed and parent-row-correct
except on a stale set `B` (entities whose recorded parents sit on the
relocation spine above `e`), a successful run relocates `e` to row `nr`
under `pe` and its whole subtree below it, restoring parent-row
correctness except on `B \ {e}`; no parent link changes (they all agree
with the ambient parent function `g`), and entities outside `e`'s
subtree keep their rows. -/
theorem srr_main :
    ∀ (fuel : Nat) (tm tm' : TransformManager) (e pe : Entity) (nr : Nat)
      (g : Entity → Option Entity) (B : Set Entity),
      WFbase tm → parentNoneIffRow0 tm →
      TransformManager.rowOf tm pe = some (nr - 1) →
      parentRowOKExcept B tm →
      (∀ x ∈ B, ∃ a, g x = some a ∧ ReachesS g e a) →
      g e = some pe →
      (∀ x, x ≠ e → g x = parentF tm x) →
      ¬ ReachesS g e e →
      set_row_recursive fuel tm e (some pe) nr = some tm' →
        WFbase tm' ∧ parentNoneIffRow0 tm'
        ∧ parentRowOKExcept (B \ {e}) tm'
        ∧ (∀ x, parentF tm' x = g x)
        ∧ TransformManager.rowOf tm' e = some nr
        ∧ (∀ x, ¬ Reaches g x e →
            TransformManager.rowOf tm' x = TransformManager.rowOf tm x)
        ∧ (∀ x, (alookup tm'.indices x).isSome = (alookup tm.indices x).isSome) := by
  intro fuel
  induction fuel with
  | zero =>
    intro tm tm' e pe nr g B _ _ _ _ _ _ _ _ h
    exact Option.noConfusion h
  | succ fuel ih =>
    intro tm tm' e pe nr g B hWB hp0 hrowpe hExc hB5 hge hgne hacyc h
    obtain ⟨hnr, old_row, oi, t, tm1, trow, erow, children, hlook, hrem, htr2,
      her2, hch, hfold⟩ := srr_elim h
    obtain ⟨hWB4, hP04, hrow4e, hpF4e, hrow4ne, hpF4ne, hdom4, horig4⟩ :=
      srr_body hWB hp0 hlook hrem htr2 her2 hnr
    have hpee : pe ≠ e := fun hc =>
      hacyc (Relation.TransGen.single (show fstep g e e from hc ▸ hge))
    have hgf4 : ∀ x, parentF (srrPush tm1 e pe nr t trow erow) x = g x := by
      intro x
      by_cases hx : x = e
      · rw [hx, hpF4e, hge]
      · rw [hpF4ne x hx, hgne x hx]
    have hpairs : ∀ p ∈ children, g p.1 = p.2 := by
      intro p hp
      obtain ⟨j, hj⟩ := List.mem_iff_getElem?.1 hp
      have h2 := (entry_facts hWB4 hch hj).2
      rw [hgf4 p.1] at h2
      exact h2
    have hrowe : TransformManager.rowOf tm e = some old_row := by
      unfold TransformManager.rowOf
      rw [hlook]
      rfl
    have hExc4 : parentRowOKExcept
        ((B \ {e}) ∪ {x | ∃ mp, (x, mp) ∈ children ∧ mp = some e})
        (srrPush tm1 e pe nr t trow erow) := by
      rw [parentRowOKExcept_iff]
      intro r row hrow ent hm hnot p hp
      obtain ⟨j, hj⟩ := List.mem_iff_getElem?.1 hm
      have hentf := entry_facts hWB4 hrow hj
      by_cases hent1 : ent.1 = e
      · have h1 : TransformManager.rowOf (srrPush tm1 e pe nr t trow erow) e
            = some r := hent1 ▸ hentf.1
        rw [hrow4e] at h1
        injection h1 with h1
        have hp2 : ent.2 = some pe := by
          have h2 := hentf.2
          rw [hent1, hpF4e] at h2
          exact h2.symm
        rw [hp2] at hp
        injection hp with hp
        show TransformManager.rowOf (srrPush tm1 e pe nr t trow erow) p
          = some (r - 1)
        rw [← hp, hrow4ne pe hpee, hrowpe, h1]
      · have hrx : TransformManager.rowOf tm ent.1 = some r := by
          rw [← hrow4ne ent.1 hent1]
          exact hentf.1
        have hpFx : parentF tm ent.1 = some p := by
          have h2 := hentf.2
          rw [hpF4ne ent.1 hent1] at h2
          rw [h2, hp]
        have hnotB : ent.1 ∉ B := fun hc => hnot (Or.inl ⟨hc, hent1⟩)
        obtain ⟨r0, i0, row0, hlook0, hrow0, hent0⟩ := parentF_elim hWB hpFx
        have hr0 : r0 = r := by
          have hx0 : TransformManager.rowOf tm ent.1 = some r0 := by
            unfold TransformManager.rowOf
            rw [hlook0]
            rfl
          rw [hrx] at hx0
          injection hx0 with hx0
          exact hx0.symm
        have hcond := (parentRowOKExcept_iff.1 hExc) r0 row0 hrow0
          (ent.1, some p) (List.getElem?_mem hent0) hnotB p rfl
        by_cases hpe' : p = e
        · exfalso
          subst hpe'
          rw [show alookup tm.indices p = some (old_row, oi) from hlook] at hcond
          have hcond2 : some old_row = some (r0 - 1) := hcond
          injection hcond2 with hcond
          have hr0pos : ¬ r0 = 0 := by
            have hmem0 : (ent.1, some p) ∈ row0 := List.getElem?_mem hent0
            intro hc
            have := (parentNoneIffRow0_get hp0 hrow0 hmem0).2 hc
            exact Option.noConfusion this
          have hreq : r = old_row + 1 := by omega
          rw [hreq] at hrow
          rw [hch] at hrow
          injection hrow with hrow
          subst hrow
          refine hnot (Or.inr ⟨ent.2, ?_, ?_⟩)
          · exact hm
          · have h2 := hentf.2
            rw [hpF4ne ent.1 hent1] at h2
            rw [← h2, hpFx]
        · rw [hr0] at hcond
          show TransformManager.rowOf (srrPush tm1 e pe nr t trow erow) p
            = some (r - 1)
          rw [hrow4ne p hpe']
          exact hcond
    have hchild : ∀ p ∈ children, p.2 = some e → p.1 ≠ e
        ∧ ¬ ReachesS g p.1 p.1 ∧ ¬ Reaches g e p.1 := by
      intro p hp hpe
      have hgp : g p.1 = some e := by rw [hpairs p hp, hpe]
      have hne : p.1 ≠ e := by
        intro hc
        rw [hc] at hgp
        exact hacyc (Relation.TransGen.single hgp)
      refine ⟨hne, ?_, ?_⟩
      · intro hcc
        obtain ⟨y, hcy, hyc⟩ := reachesS_head_cases hcc
        rw [hgp] at hcy
        injection hcy with hcy
        subst hcy
        exact hacyc (reachesS_of_reaches_step hyc hgp)
      · intro hre
        rcases reaches_head_cases hre with h1 | ⟨y, hey, hyc⟩
        · exact hne h1.symm
        · exact hacyc (reachesS_of_reaches_step
            (Relation.ReflTransGen.head hey hyc) hgp)
    obtain ⟨hWf, hPf, hExcf, hgff, hrowef, hframef, hdomf⟩ :=
      srr_fold
        (fun tmk c tmres Bc hW hP hrowE hExcc hB5c hgc hgnec hacyc_c hs =>
          ih tmk tmres c e (nr + 1) g Bc hW hP hrowE hExcc hB5c hgc hgnec
            hacyc_c hs)
        children (srrPush tm1 e pe nr t trow erow) tm' (B \ {e})
        hWB4 hP04 hrow4e hExc4 (fun x hx => hB5 x hx.1) hpairs hchild hgf4 hfold
    refine ⟨hWf, hPf, hExcf, hgff, hrowef, ?_, ?_⟩
    · intro x hx
      have hxe : x ≠ e := fun hc => hx (hc ▸ Relation.ReflTransGen.refl)
      have hcond : ∀ p ∈ children, p.2 = some e → ¬ Reaches g x p.1 := by
        intro p hp hpe hreach
        have hgp : g p.1 = some e := by rw [hpairs p hp, hpe]
        exact hx (reaches_trans hreach (reaches_of_step hgp))
      rw [hframef x hcond]
      exact hrow4ne x hxe
    · intro x
      rw [hdomf x, hdom4 x]

theorem gsteps_pair_at {g : Entity → Option Entity} :
    ∀ {l : List Entity}, gsteps g l → ∀ {i : Nat} {x y : Entity},
      l[i]? = some x → l[i + 1]? = some y → g x = some y := by
  intro l
  induction l with
  | nil =>
    intro _ i x y hx _
    simp at hx
  | cons a l ih =>
    cases l with
    | nil =>
      intro _ i x y _ hy
      rw [List.getElem?_eq_none_iff.2 (by simp)] at hy
      exact Option.noConfusion hy
    | cons b l' =>
      intro hs i x y hx hy
      obtain ⟨h1, h2⟩ := hs
      cases i with
      | zero =>
        simp only [List.getElem?_cons_zero, List.getElem?_cons_succ] at hx hy
        injection hx with hx2
        injection hy with hy2
        rw [← hx2, ← hy2]
        exact h1
      | succ i' =>
        exact ih h2 (by simpa using hx) (by simpa using hy)

theorem gsteps_of_pairs {g : Entity → Option Entity} :
    ∀ {l : List Entity},
      (∀ (i : Nat) (x y : Entity), l[i]? = some x → l[i + 1]? = some y →
        g x = some y) → gsteps g l := by
  intro l
  induction l with
  | nil => intro _; trivial
  | cons a l ih =>
    cases l with
    | nil => intro _; trivial
    | cons b l' =>
      intro h
      refine ⟨h 0 a b (by simp) (by simp), ih ?_⟩
      intro i x y hx hy
      exact h (i + 1) x y (by simpa using hx) (by simpa using hy)

theorem listHealthy_pair_at {tm : TransformManager} :
    ∀ {l : List Entity}, listHealthy tm l → ∀ {i : Nat} {x y : Entity},
      l[i]? = some x → l[i + 1]? = some y → pairHealthy tm x y := by
  intro l
  induction l with
  | nil =>
    intro _ i x y hx _
    simp at hx
  | cons a l ih =>
    cases l with
    | nil =>
      intro _ i x y _ hy
      rw [List.getElem?_eq_none_iff.2 (by simp)] at hy
      exact Option.noConfusion hy
    | cons b l' =>
      intro hs i x y hx hy
      obtain ⟨h1, h2⟩ := hs
      cases i with
      | zero =>
        simp only [List.getElem?_cons_zero, List.getElem?_cons_succ] at hx hy
        injection hx with hx2
        injection hy with hy2
        rw [← hx2, ← hy2]
        exact h1
      | succ i' =>
        exact ih h2 (by simpa using hx) (by simpa using hy)

theorem listHealthy_of_pairs {tm : TransformManager} :
    ∀ {l : List Entity},
      (∀ (i : Nat) (x y : Entity), l[i]? = some x → l[i + 1]? = some y →
        pairHealthy tm x y) → listHealthy tm l := by
  intro l
  induction l with
  | nil => intro _; trivial
  | cons a l ih =>
    cases l with
    | nil => intro _; trivial
    | cons b l' =>
      intro h
      refine ⟨h 0 a b (by simp) (by simp), ih ?_⟩
      intro i x y hx hy
      exact h (i + 1) x y (by simpa using hx) (by simpa using hy)

theorem gsteps_head_reaches_last {g : Entity → Option Entity} :
    ∀ {l : List Entity} {a b : Entity}, gsteps g l → l.head? = some a →
      l.getLast? = some b → Reaches g a b := by
  intro l
  induction l with
  | nil =>
    intro a b _ ha _
    exact Option.noConfusion ha
  | cons x l ih =>
    cases l with
    | nil =>
      intro a b _ ha hb
      injection ha with ha
      have hb2 : some x = some b := hb
      injection hb2 with hb2
      rw [← ha, ← hb2]
      exact Relation.ReflTransGen.refl
    | cons y l' =>
      intro a b hs ha hb
      obtain ⟨h1, h2⟩ := hs
      injection ha with ha
      rw [← ha]
      refine Relation.ReflTransGen.head h1 (ih h2 rfl ?_)
      rw [List.getLast?_cons_cons] at hb
      exact hb

/-- First-occurrence split of a list at a member. -/
theorem mem_split_first {α : Type} [DecidableEq α] {a : α} :
    ∀ {l : List α}, a ∈ l → ∃ s t, l = s ++ a :: t ∧ a ∉ s := by
  intro l
  induction l with
  | nil => intro h; exact absurd h (List.not_mem_nil a)
  | cons b l ih =>
    intro h
    by_cases hb : b = a
    · subst hb
      exact ⟨[], l, rfl, List.not_mem_nil b⟩
    · rcases List.mem_cons.1 h with h1 | h1
      · exact absurd h1.symm hb
      · obtain ⟨s, t, hst, hns⟩ := ih h1
        exact ⟨b :: s, t, by rw [hst]; rfl,
          fun hc => (List.mem_cons.1 hc).elim (fun h2 => hb h2.symm) hns⟩

theorem childFold_cons {ent : Entity}
    {step : TransformManager → Entity → Option TransformManager}
    (tmk : TransformManager) (c : Entity) (mp : Option Entity)
    (rest : List (Entity × Option Entity)) :
    childFold ent step tmk ((c, mp) :: rest)
      = if mp = some ent then
          match step tmk c with
          | none => none
          | some tm1 => childFold ent step tm1 rest
        else childFold ent step tmk rest := rfl

theorem childFold_append {ent : Entity}
    {step : TransformManager → Entity → Option TransformManager} :
    ∀ (l1 l2 : List (Entity × Option Entity)) (tmk : TransformManager),
      childFold ent step tmk (l1 ++ l2)
        = (childFold ent step tmk l1).bind (fun tmm => childFold ent step tmm l2) := by
  intro l1
  induction l1 with
  | nil =>
    intro l2 tmk
    rfl
  | cons a l1' ih =>
    intro l2 tmk
    obtain ⟨c, mp⟩ := a
    rw [List.cons_append, childFold_cons, childFold_cons]
    by_cases hmp : mp = some ent
    · rw [if_pos hmp, if_pos hmp]
      cases step tmk c with
      | none => rfl
      | some tm1 => exact ih l2 tm1
    · rw [if_neg hmp, if_neg hmp]
      exact ih l2 tmk

/-- The stale-set transfer through the push phase, shared by the acyclic
and the cyclic analysis: after the push, parent-row correctness holds
except on the previous stale set (minus `e`) and the current children of
`e` — the pushed entry itself is correct unless it records `e` as its own
parent, in which case it is itself among the snapshotted children. -/
theorem srr_push_exc {tm : TransformManager} {e pe : Entity}
    {nr old_row oi : Nat} {t : Transform} {tm1 : TransformManager}
    {trow : List Transform} {erow children : List (Entity × Option Entity)}
    {B : Set Entity}
    (hWB : WFbase tm) (hp0 : parentNoneIffRow0 tm)
    (hlook : alookup tm.indices e = some (old_row, oi))
    (hrem : tm.remove e = some (t, tm1))
    (htr2 : (tm1.growTo (nr + 1)).transforms[nr]? = some trow)
    (her2 : (tm1.growTo (nr + 1)).entities[nr]? = some erow)
    (hnr : 0 < nr)
    (hrowpe : TransformManager.rowOf tm pe = some (nr - 1))
    (hExc : parentRowOKExcept B tm)
    (hch : (srrPush tm1 e pe nr t trow erow).entities[old_row + 1]? = some children)
    (hpe_cases : pe ≠ e ∨ ∃ mp, ((e : Entity), mp) ∈ children ∧ mp = some e) :
    parentRowOKExcept
      ((B \ {e}) ∪ {x | ∃ mp, (x, mp) ∈ children ∧ mp = some e})
      (srrPush tm1 e pe nr t trow erow) := by
  obtain ⟨hWB4, hP04, hrow4e, hpF4e, hrow4ne, hpF4ne, hdom4, horig4⟩ :=
    @srr_body tm e pe nr old_row oi t tm1 trow erow hWB hp0 hlook hrem htr2 her2 hnr
  rw [parentRowOKExcept_iff]
  intro r row hrow ent hm hnot p hp
  obtain ⟨j, hj⟩ := List.mem_iff_getElem?.1 hm
  have hentf := entry_facts hWB4 hrow hj
  by_cases hent1 : ent.1 = e
  · rcases hpe_cases with hpee | hself
    · have h1 : TransformManager.rowOf (srrPush tm1 e pe nr t trow erow) e
          = some r := hent1 ▸ hentf.1
      rw [hrow4e] at h1
      injection h1 with h1
      have hp2 : ent.2 = some pe := by
        have h2 := hentf.2
        rw [hent1, hpF4e] at h2
        exact h2.symm
      rw [hp2] at hp
      injection hp with hp
      show TransformManager.rowOf (srrPush tm1 e pe nr t trow erow) p
        = some (r - 1)
      rw [← hp, hrow4ne pe hpee, hrowpe, h1]
    · exact absurd (Or.inr (hent1 ▸ hself)) hnot
  · have hrx : TransformManager.rowOf tm ent.1 = some r := by
      rw [← hrow4ne ent.1 hent1]
      exact hentf.1
    have hpFx : parentF tm ent.1 = some p := by
      have h2 := hentf.2
      rw [hpF4ne ent.1 hent1] at h2
      rw [h2, hp]
    have hnotB : ent.1 ∉ B := fun hc => hnot (Or.inl ⟨hc, hent1⟩)
    obtain ⟨r0, i0, row0, hlook0, hrow0, hent0⟩ := parentF_elim hWB hpFx
    have hr0 : r0 = r := by
      have hx0 : TransformManager.rowOf tm ent.1 = some r0 := by
        unfold TransformManager.rowOf
        rw [hlook0]
        rfl
      rw [hrx] at hx0
      injection hx0 with hx0
      exact hx0.symm
    have hcond := (parentRowOKExcept_iff.1 hExc) r0 row0 hrow0
      (ent.1, some p) (List.getElem?_mem hent0) hnotB p rfl
    by_cases hpe' : p = e
    · exfalso
      subst hpe'
      rw [show alookup tm.indices p = some (old_row, oi) from hlook] at hcond
      have hcond2 : some old_row = some (r0 - 1) := hcond
      injection hcond2 with hcond
      have hr0pos : ¬ r0 = 0 := by
        have hmem0 : (ent.1, some p) ∈ row0 := List.getElem?_mem hent0
        intro hc
        have := (parentNoneIffRow0_get hp0 hrow0 hmem0).2 hc
        exact Option.noConfusion this
      have hreq : r = old_row + 1 := by omega
      rw [hreq] at hrow
      rw [hch] at hrow
      injection hrow with hrow
      subst hrow
      refine hnot (Or.inr ⟨ent.2, ?_, ?_⟩)
      · exact hm
      · have h2 := hentf.2
        rw [hpF4ne ent.1 hent1] at h2
        rw [← h2, hpFx]
    · rw [hr0] at hcond
      show TransformManager.rowOf (srrPush tm1 e pe nr t trow erow) p
        = some (r - 1)
      rw [hrow4ne p hpe']
      exact hcond


theorem gsteps_append_left {g : Entity → Option Entity} :
    ∀ {l1 : List Entity} (l2 : List Entity), gsteps g (l1 ++ l2) → gsteps g l1 := by
  intro l1
  induction l1 with
  | nil => intro l2 _; trivial
  | cons x l1' ih =>
    cases l1' with
    | nil => intro l2 _; trivial
    | cons y l1'' =>
      intro l2 h
      have h' : g x = some y ∧ gsteps g ((y :: l1'') ++ l2) := h
      exact ⟨h'.1, ih l2 h'.2⟩

theorem gsteps_last_to {g : Entity → Option Entity} {b : Entity} :
    ∀ {l : List Entity} {a : Entity}, gsteps g (l ++ [b]) → l.getLast? = some a →
      g a = some b := by
  intro l
  induction l with
  | nil => intro a _ hl; exact Option.noConfusion hl
  | cons x l' ih =>
    cases l' with
    | nil =>
      intro a h hl
      have hl2 : some x = some a := hl
      injection hl2 with hl2
      have h' : g x = some b ∧ gsteps g ([b] : List Entity) := h
      rw [← hl2]
      exact h'.1
    | cons y l'' =>
      intro a h hl
      have h' : g x = some y ∧ gsteps g ((y :: l'') ++ [b]) := h
      rw [List.getLast?_cons_cons] at hl
      exact ih h'.2 hl

theorem listHealthy_last_to {tm : TransformManager} {b : Entity} :
    ∀ {l : List Entity} {a : Entity}, listHealthy tm (l ++ [b]) →
      l.getLast? = some a → pairHealthy tm a b := by
  intro l
  induction l with
  | nil => intro a _ hl; exact Option.noConfusion hl
  | cons x l' ih =>
    cases l' with
    | nil =>
      intro a h hl
      have hl2 : some x = some a := hl
      injection hl2 with hl2
      have h' : pairHealthy tm x b ∧ listHealthy tm ([b] : List Entity) := h
      rw [← hl2]
      exact h'.1
    | cons y l'' =>
      intro a h hl
      have h' : pairHealthy tm x y ∧ listHealthy tm ((y :: l'') ++ [b]) := h
      rw [List.getLast?_cons_cons] at hl
      exact ih h'.2 hl

theorem dropLast_append_of_getLast {α : Type} {a : α} :
    ∀ {l : List α}, l.getLast? = some a → l.dropLast ++ [a] = l := by
  intro l
  induction l with
  | nil => intro h; exact Option.noConfusion h
  | cons x l' ih =>
    cases l' with
    | nil =>
      intro h
      have h2 : some x = some a := h
      injection h2 with h2
      rw [← h2]
      rfl
    | cons y l'' =>
      intro h
      rw [List.getLast?_cons_cons] at h
      have h3 := ih h
      show x :: ((y :: l'').dropLast ++ [a]) = x :: y :: l''
      rw [h3]

theorem cycle_closed {g : Entity → Option Entity} {e : Entity} {M : List Entity}
    (hs : gsteps g (e :: M ++ [e])) :
    ∀ z ∈ e :: M, ∀ w, g z = some w → w ∈ e :: M := by
  intro z hz w hw
  obtain ⟨i, hi⟩ := List.mem_iff_getElem?.1 hz
  have hilen : i < (e :: M).length := by
    by_contra hc
    rw [List.getElem?_eq_none_iff.2 (by omega)] at hi
    exact Option.noConfusion hi
  have hP : (e :: M ++ [e])[i]? = some z := by
    have h1 : ((e :: M) ++ [e])[i]? = (e :: M)[i]? := List.getElem?_append_left hilen
    exact h1.trans hi
  by_cases hnext : i + 1 < (e :: M).length
  · obtain ⟨y, hy⟩ : ∃ y, (e :: M)[i + 1]? = some y :=
      ⟨(e :: M)[i + 1], List.getElem?_eq_getElem hnext⟩
    have h1 : ((e :: M) ++ [e])[i + 1]? = (e :: M)[i + 1]? :=
      List.getElem?_append_left hnext
    have hstep := gsteps_pair_at hs hP (h1.trans hy)
    rw [hw] at hstep
    injection hstep with hstep
    rw [← hstep] at hy
    exact List.mem_iff_getElem?.2 ⟨i + 1, hy⟩
  · have hieq : i + 1 = (e :: M).length := by omega
    have h1 : ((e :: M) ++ [e])[i + 1]? = some e := by
      rw [List.getElem?_append_right (by omega)]
      rw [hieq]
      simp
    have hstep := gsteps_pair_at hs hP h1
    rw [hw] at hstep
    injection hstep with hstep
    rw [hstep]
    exact List.mem_cons_self _ _

theorem orbit_mem {g : Entity → Option Entity} {e : Entity} {M : List Entity}
    (hs : gsteps g (e :: M ++ [e])) :
    ∀ z ∈ e :: M, ∀ w, Reaches g z w → w ∈ e :: M := by
  intro z hz w hw
  induction hw with
  | refl => exact hz
  | tail h1 h2 ih => exact cycle_closed hs _ ih _ h2

theorem cyc_pred_unique {g : Entity → Option Entity} {e : Entity} {M : List Entity}
    (hs : gsteps g (e :: M ++ [e])) (hnd : (e :: M).Nodup)
    {z : Entity} (hz : z ∈ e :: M) (hze : g z = some e) :
    z = (M.getLast?).getD e := by
  obtain ⟨i, hi⟩ := List.mem_iff_getElem?.1 hz
  have hilen : i < (e :: M).length := by
    by_contra hc
    rw [List.getElem?_eq_none_iff.2 (by omega)] at hi
    exact Option.noConfusion hi
  have hP : (e :: M ++ [e])[i]? = some z := by
    have h1 : ((e :: M) ++ [e])[i]? = (e :: M)[i]? := List.getElem?_append_left hilen
    exact h1.trans hi
  by_cases hnext : i + 1 < (e :: M).length
  · obtain ⟨y, hy⟩ : ∃ y, (e :: M)[i + 1]? = some y :=
      ⟨(e :: M)[i + 1], List.getElem?_eq_getElem hnext⟩
    have h1 : ((e :: M) ++ [e])[i + 1]? = (e :: M)[i + 1]? :=
      List.getElem?_append_left hnext
    have hstep := gsteps_pair_at hs hP (h1.trans hy)
    rw [hze] at hstep
    injection hstep with hstep
    rw [← hstep] at hy
    have hy2 : M[i]? = some e := by simpa using hy
    have heM : e ∈ M := List.mem_iff_getElem?.2 ⟨i, hy2⟩
    exact absurd heM (List.nodup_cons.1 hnd).1
  · have hieq : i = M.length := by
      have hL : (e :: M).length = M.length + 1 := rfl
      omega
    cases M with
    | nil =>
      have hi0 : i = 0 := by simpa using hieq
      rw [hi0] at hi
      simp only [List.getElem?_cons_zero] at hi
      injection hi with hi
      rw [← hi]
      rfl
    | cons m0 M' =>
      have hilen2 : i = M'.length + 1 := by rw [hieq]; rfl
      rw [hilen2] at hi
      have hi2 : (m0 :: M')[M'.length]? = some z := by simpa using hi
      have hlast : (m0 :: M').getLast? = some z := by
        rw [List.getLast?_eq_getElem?]
        simpa using hi2
      rw [hlast]
      rfl



theorem childFold_cons_self_none {ent : Entity}
    {step : TransformManager → Entity → Option TransformManager}
    {tmk : TransformManager} {c : Entity}
    {rest : List (Entity × Option Entity)}
    (h : step tmk c = none) :
    childFold ent step tmk ((c, some ent) :: rest) = none := by
  rw [childFold_cons, if_pos rfl, h]

/-- On a parent cycle, `set_row_recursive` never terminates successfully:
whatever the fuel, the call on the cycle member `e` exhausts the fuel and
returns `none` (the model of the source's unbounded recursion). -/
theorem srr_cyc :
    ∀ (fuel : Nat) (tm : TransformManager) (e pe : Entity) (nr : Nat)
      (g : Entity → Option Entity) (B : Set Entity) (M : List Entity),
      WFbase tm → parentNoneIffRow0 tm →
      TransformManager.rowOf tm pe = some (nr - 1) →
      parentRowOKExcept B tm →
      (∀ x ∈ B, ∃ a, g x = some a ∧ ReachesS g e a) →
      g e = some pe →
      (∀ x, x ≠ e → g x = parentF tm x) →
      gsteps g (e :: M ++ [e]) →
      (e :: M).Nodup →
      listHealthy tm (M ++ [e]) →
      set_row_recursive fuel tm e (some pe) nr = none := by
  intro fuel
  induction fuel with
  | zero =>
    intro tm e pe nr g B M _ _ _ _ _ _ _ _ _ _
    rfl
  | succ fuel ih =>
    intro tm e pe nr g B M hWB hp0 hrowpe hExc hB5 hge hgne hsteps hnd hhealth
    have hprefix : gsteps g (e :: M) := gsteps_append_left [e] hsteps
    have hlastEM : (e :: M).getLast? = some ((M.getLast?).getD e) := by
      cases M with
      | nil => rfl
      | cons m0 M' =>
        rw [List.getLast?_cons_cons]
        obtain ⟨cl, hcl⟩ := Option.isSome_iff_exists.1
          (List.getLast?_isSome.2 (show (m0 :: M') ≠ [] by simp))
        rw [hcl]
        rfl
    set ccyc : Entity := (M.getLast?).getD e with hccyc_def
    have hgcc : g ccyc = some e := gsteps_last_to hsteps hlastEM
    have hcyc : ReachesS g e e :=
      reachesS_of_reaches_step (gsteps_head_reaches_last hprefix rfl hlastEM) hgcc
    have heM : e ∉ M := (List.nodup_cons.1 hnd).1
    unfold set_row_recursive
    by_cases hg1 : (nr = 0 ∧ (some pe : Option Entity) = none)
        ∨ (0 < nr ∧ (some pe : Option Entity) ≠ none)
    case neg => rw [if_neg hg1]
    rw [if_pos hg1]
    have hnr : 0 < nr := by
      rcases hg1 with ⟨-, hc⟩ | ⟨h1, -⟩
      · exact Option.noConfusion hc
      · exact h1
    cases hlook : alookup tm.indices e with
    | none => rfl
    | some ri =>
      obtain ⟨old_row, oi⟩ := ri
      dsimp only
      cases hrem : tm.remove e with
      | none => rfl
      | some pr =>
        obtain ⟨t, tm1⟩ := pr
        dsimp only
        cases htr2 : (tm1.growTo (nr + 1)).transforms[nr]? with
        | none => rfl
        | some trow =>
          cases her2 : (tm1.growTo (nr + 1)).entities[nr]? with
          | none => rfl
          | some erow =>
            dsimp only
            cases hch : ((tm1.growTo (nr + 1)).entities.set nr
                (erow ++ [(e, some pe)]))[old_row + 1]? with
            | none => rfl
            | some children =>
              show childFold e (fun tmAcc child =>
                  set_row_recursive fuel tmAcc child (some e) (nr + 1))
                  (srrPush tm1 e pe nr t trow erow) children = none
              have hch' : (srrPush tm1 e pe nr t trow erow).entities[old_row + 1]?
                  = some children := hch
              obtain ⟨hWB4, hP04, hrow4e, hpF4e, hrow4ne, hpF4ne, hdom4, horig4⟩ :=
                @srr_body tm e pe nr old_row oi t tm1 trow erow hWB hp0 hlook
                  hrem htr2 her2 hnr
              have hgf4 : ∀ x, parentF (srrPush tm1 e pe nr t trow erow) x = g x := by
                intro x
                by_cases hx : x = e
                · rw [hx, hpF4e, hge]
                · rw [hpF4ne x hx, hgne x hx]
              have hpairs : ∀ p ∈ children, g p.1 = p.2 := by
                intro p hp
                obtain ⟨j, hj⟩ := List.mem_iff_getElem?.1 hp
                have h2 := (entry_facts hWB4 hch' hj).2
                rw [hgf4 p.1] at h2
                exact h2
              have hrowe : TransformManager.rowOf tm e = some old_row := by
                unfold TransformManager.rowOf
                rw [hlook]
                rfl
              have hpFcc : parentF (srrPush tm1 e pe nr t trow erow) ccyc
                  = some e := by
                rw [hgf4 ccyc, hgcc]
              obtain ⟨r4, i4, row4, hlook4, hrow4, hent4⟩ := parentF_elim hWB4 hpFcc
              have hrowOf4cc : TransformManager.rowOf
                  (srrPush tm1 e pe nr t trow erow) ccyc = some r4 := by
                unfold TransformManager.rowOf
                rw [hlook4]
                rfl
              have hr4 : r4 = old_row + 1 := by
                by_cases hcece : ccyc = e
                · have hpee : pe = e := by
                    have h1 := hgcc
                    rw [hcece, hge] at h1
                    exact Option.some.inj h1
                  have h2 := hrowpe
                  rw [hpee, hrowe] at h2
                  injection h2 with h2
                  rw [hcece, hrow4e] at hrowOf4cc
                  injection hrowOf4cc with h4
                  omega
                · have hclM : M.getLast? = some ccyc := by
                    cases hM : M.getLast? with
                    | none =>
                      exfalso
                      apply hcece
                      rw [hccyc_def, hM]
                      rfl
                    | some cl =>
                      rw [hccyc_def, hM]
                      rfl
                  obtain ⟨ρ, hρe, hρc⟩ := listHealthy_last_to hhealth hclM
                  rw [hrowe] at hρe
                  injection hρe with hρe
                  have h5 : TransformManager.rowOf
                      (srrPush tm1 e pe nr t trow erow) ccyc = some (ρ + 1) := by
                    rw [hrow4ne ccyc hcece]
                    exact hρc
                  rw [h5] at hrowOf4cc
                  injection hrowOf4cc with h6
                  omega
              have hccmem : (ccyc, some e) ∈ children := by
                rw [hr4] at hrow4
                rw [hch'] at hrow4
                injection hrow4 with hrow4
                rw [hrow4]
                exact List.getElem?_mem hent4
              obtain ⟨pre, post, hsplit, hnotpre⟩ := mem_split_first hccmem
              have hpe_cases : pe ≠ e
                  ∨ ∃ mp, ((e : Entity), mp) ∈ children ∧ mp = some e := by
                by_cases hcece : ccyc = e
                · refine Or.inr ⟨some e, ?_, rfl⟩
                  have h3 : ((e : Entity), some e) = (ccyc, some e) := by
                    rw [hcece]
                  rw [h3]
                  exact hccmem
                · refine Or.inl ?_
                  intro hc
                  have hMne : M ≠ [] := by
                    intro h0
                    apply hcece
                    rw [hccyc_def, h0]
                    rfl
                  obtain ⟨m0, M', hM⟩ := List.exists_cons_of_ne_nil hMne
                  have h1 : g e = some m0 ∧ gsteps g ((m0 :: M') ++ [e]) := by
                    rw [hM] at hsteps
                    exact hsteps
                  have h2 := h1.1
                  rw [hge] at h2
                  injection h2 with h2
                  apply heM
                  rw [hM, ← h2, hc]
                  exact List.mem_cons_self _ _
              have hExcPush := srr_push_exc hWB hp0 hlook hrem htr2 her2 hnr
                hrowpe hExc hch' hpe_cases
              have hExcPre : parentRowOKExcept
                  (((B \ {e}) ∪ {x | ∃ mp, (x, mp) ∈ (ccyc, some e) :: post
                      ∧ mp = some e})
                    ∪ {x | ∃ mp, (x, mp) ∈ pre ∧ mp = some e})
                  (srrPush tm1 e pe nr t trow erow) := by
                refine parentRowOKExcept_mono ?_ hExcPush
                intro y hy
                rcases hy with hy | hy
                · exact Or.inl (Or.inl hy)
                · obtain ⟨mp, hmem, hmp⟩ := hy
                  rw [hsplit] at hmem
                  rcases List.mem_append.1 hmem with hm1 | hm1
                  · exact Or.inr ⟨mp, hm1, hmp⟩
                  · exact Or.inl (Or.inr ⟨mp, hm1, hmp⟩)
              have hB5' : ∀ x ∈ ((B \ {e})
                  ∪ {x | ∃ mp, (x, mp) ∈ (ccyc, some e) :: post ∧ mp = some e}),
                  ∃ a, g x = some a ∧ ReachesS g e a := by
                intro x hx
                rcases hx with hx | hx
                · exact hB5 x hx.1
                · obtain ⟨mp, hmem, hmp⟩ := hx
                  have hgx : g x = mp := by
                    apply hpairs (x, mp)
                    rw [hsplit]
                    exact List.mem_append_right _ hmem
                  exact ⟨e, by rw [hgx, hmp], hcyc⟩
              have horbit : ∀ z ∈ e :: M, ∀ w, Reaches g z w → w ∈ e :: M :=
                orbit_mem hsteps
              have huniq : ∀ z ∈ e :: M, g z = some e → z = ccyc := by
                intro z hz hze
                rw [hccyc_def]
                exact cyc_pred_unique hsteps hnd hz hze
              have hchildPre : ∀ p ∈ pre, p.2 = some e → p.1 ≠ e
                  ∧ ¬ ReachesS g p.1 p.1 ∧ ¬ Reaches g e p.1 := by
                intro p hp hpe2
                have hgp : g p.1 = some e := by
                  rw [hpairs p (by rw [hsplit]; exact List.mem_append_left _ hp),
                    hpe2]
                have hnotcc : p.1 ∉ e :: M := by
                  intro hin
                  have h1 := huniq p.1 hin hgp
                  apply hnotpre
                  have h2 : p = (ccyc, some e) := by rw [← h1, ← hpe2]
                  rw [← h2]
                  exact hp
                refine ⟨?_, ?_, ?_⟩
                · intro hc
                  apply hnotcc
                  rw [hc]
                  exact List.mem_cons_self _ _
                · intro hcc
                  obtain ⟨y, hcy, hyc⟩ := reachesS_head_cases hcc
                  rw [hgp] at hcy
                  injection hcy with hcy
                  subst hcy
                  exact hnotcc (horbit e (List.mem_cons_self _ _) p.1 hyc)
                · intro hre
                  exact hnotcc (horbit e (List.mem_cons_self _ _) p.1 hre)
              rw [hsplit, childFold_append]
              cases hpre : childFold e (fun tmAcc child =>
                  set_row_recursive fuel tmAcc child (some e) (nr + 1))
                  (srrPush tm1 e pe nr t trow erow) pre with
              | none => rfl
              | some tmm =>
                obtain ⟨hWf, hPf, hExcf, hgff, hrowef, hframef, hdomf⟩ :=
                  srr_fold
                    (fun tmk c tmres Bc hW hP hrowE hExcc hB5c hgc hgnec
                        hacyc_c hs =>
                      srr_main fuel tmk tmres c e (nr + 1) g Bc hW hP hrowE
                        hExcc hB5c hgc hgnec hacyc_c hs)
                    pre (srrPush tm1 e pe nr t trow erow) tmm
                    ((B \ {e}) ∪ {x | ∃ mp, (x, mp) ∈ (ccyc, some e) :: post
                      ∧ mp = some e})
                    hWB4 hP04 hrow4e hExcPre hB5'
                    (fun p hp => hpairs p (by
                      rw [hsplit]
                      exact List.mem_append_left _ hp))
                    hchildPre hgf4 hpre
                show childFold e (fun tmAcc child =>
                    set_row_recursive fuel tmAcc child (some e) (nr + 1))
                    tmm ((ccyc, some e) :: post) = none
                have hrowM : ∀ z ∈ M, TransformManager.rowOf tmm z
                    = TransformManager.rowOf tm z := by
                  intro z hz
                  have hze : z ≠ e := by
                    intro hc
                    apply heM
                    rw [← hc]
                    exact hz
                  have hcond : ∀ p ∈ pre, p.2 = some e → ¬ Reaches g z p.1 := by
                    intro p hp hpe2 hreach
                    have hgp : g p.1 = some e := by
                      rw [hpairs p (by
                        rw [hsplit]
                        exact List.mem_append_left _ hp), hpe2]
                    have hin : p.1 ∈ e :: M :=
                      horbit z (List.mem_cons_of_mem _ hz) p.1 hreach
                    have h1 := huniq p.1 hin hgp
                    apply hnotpre
                    have h2 : p = (ccyc, some e) := by rw [← h1, ← hpe2]
                    rw [← h2]
                    exact hp
                  rw [hframef z hcond]
                  exact hrow4ne z hze
                have hdecomp : (e :: M).dropLast ++ [ccyc] = e :: M :=
                  dropLast_append_of_getLast hlastEM
                have hsteps' : gsteps g (ccyc :: (e :: M).dropLast ++ [ccyc]) := by
                  have h1 : gsteps g (ccyc :: (e :: M)) := ⟨hgcc, hprefix⟩
                  have h2 : ccyc :: (e :: M).dropLast ++ [ccyc]
                      = ccyc :: (e :: M) := by
                    rw [List.cons_append, hdecomp]
                  rw [h2]
                  exact h1
                have hnd' : (ccyc :: (e :: M).dropLast).Nodup := by
                  have h1 : ((e :: M).dropLast ++ [ccyc]).Nodup := by
                    rw [hdecomp]
                    exact hnd
                  rw [List.nodup_append] at h1
                  obtain ⟨hD, -, hdisj⟩ := h1
                  refine List.nodup_cons.2 ⟨?_, hD⟩
                  intro hcin
                  exact hdisj hcin (List.mem_singleton.2 rfl)
                have hhealth' : listHealthy tmm ((e :: M).dropLast ++ [ccyc]) := by
                  rw [hdecomp]
                  refine listHealthy_of_pairs ?_
                  intro i x y hx hy
                  cases i with
                  | zero =>
                    simp only [List.getElem?_cons_zero,
                      List.getElem?_cons_succ] at hx hy
                    injection hx with hx
                    have h0 : 0 < M.length := by
                      by_contra hc
                      rw [List.getElem?_eq_none_iff.2 (by omega)] at hy
                      exact Option.noConfusion hy
                    have hy' : ((e :: M) ++ [e])[1]? = some y := by
                      rw [List.getElem?_append_left (by simp; omega)]
                      simpa using hy
                    have hx0 : ((e :: M) ++ [e])[0]? = some e := by
                      rw [List.getElem?_append_left (by simp)]
                      simp
                    have hgey : g e = some y := gsteps_pair_at hsteps hx0 hy'
                    rw [hge] at hgey
                    injection hgey with hgey
                    rw [← hx, ← hgey]
                    have hpeM : pe ∈ M := by
                      rw [hgey]
                      exact List.mem_iff_getElem?.2 ⟨0, hy⟩
                    refine ⟨nr - 1, ?_, ?_⟩
                    · rw [hrowM pe hpeM]
                      exact hrowpe
                    · have h7 : nr - 1 + 1 = nr := by omega
                      rw [h7]
                      exact hrowef
                  | succ j =>
                    simp only [List.getElem?_cons_succ] at hx hy
                    have hxM : x ∈ M := List.mem_iff_getElem?.2 ⟨j, hx⟩
                    have hyM : y ∈ M := List.mem_iff_getElem?.2 ⟨j + 1, hy⟩
                    have hylt : j + 1 < M.length := by
                      by_contra hc
                      rw [List.getElem?_eq_none_iff.2 (by omega)] at hy
                      exact Option.noConfusion hy
                    obtain ⟨ρ, hρ1, hρ2⟩ :=
                      listHealthy_pair_at hhealth
                        (show (M ++ [e])[j]? = some x by
                          rw [List.getElem?_append_left (by omega)]
                          exact hx)
                        (show (M ++ [e])[j + 1]? = some y by
                          rw [List.getElem?_append_left hylt]
                          exact hy)
                    refine ⟨ρ, ?_, ?_⟩
                    · rw [hrowM y hyM]
                      exact hρ1
                    · rw [hrowM x hxM]
                      exact hρ2
                have hnone : set_row_recursive fuel tmm ccyc (some e) (nr + 1)
                    = none := by
                  refine ih tmm ccyc e (nr + 1) g
                    ((B \ {e}) ∪ {x | ∃ mp, (x, mp) ∈ (ccyc, some e) :: post
                      ∧ mp = some e})
                    ((e :: M).dropLast)
                    hWf hPf hrowef hExcf ?_ hgcc ?_ hsteps' hnd' hhealth'
                  · intro x hx
                    rcases hx with hx | hx
                    · obtain ⟨a, hga, hea⟩ := hB5 x hx.1
                      exact ⟨a, hga,
                        Relation.TransGen.trans (Relation.TransGen.single hgcc) hea⟩
                    · obtain ⟨mp, hmem, hmp⟩ := hx
                      have hgx : g x = mp := by
                        apply hpairs (x, mp)
                        rw [hsplit]
                        exact List.mem_append_right _ hmem
                      exact ⟨e, by rw [hgx, hmp], Relation.TransGen.single hgcc⟩
                  · intro x hx
                    exact (hgff x).symm
                exact childFold_cons_self_none hnone


end RowDepthInfrastructure

end Gunship

namespace Gunship
section RowDepthInfrastructure2
open TransformManager

/-- Iterated parent steps under an ambient parent function. -/
def gIter (g : Entity → Option Entity) : Nat → Entity → Option Entity
  | 0, x => some x
  | n + 1, x => (g x).bind (gIter g n)

/-- The path of iterates starting at `x` (cut short on a dangling link). -/
def gPath (g : Entity → Option Entity) : Nat → Entity → List Entity
  | 0, x => [x]
  | n + 1, x =>
    match g x with
    | none => [x]
    | some y => x :: gPath g n y

theorem gIter_one {g : Entity → Option Entity} (x : Entity) : gIter g 1 x = g x := by
  show (g x).bind (gIter g 0) = g x
  cases g x with
  | none => rfl
  | some y => rfl

theorem gIter_succ_some {g : Entity → Option Entity} {x y : Entity}
    (h : g x = some y) (n : Nat) : gIter g (n + 1) x = gIter g n y := by
  show (g x).bind (gIter g n) = gIter g n y
  rw [h]
  rfl

theorem gIter_succ_none {g : Entity → Option Entity} {x : Entity}
    (h : g x = none) (n : Nat) : gIter g (n + 1) x = none := by
  show (g x).bind (gIter g n) = none
  rw [h]
  rfl

theorem gIter_add {g : Entity → Option Entity} :
    ∀ (m n : Nat) (x : Entity),
      gIter g (m + n) x = (gIter g m x).bind (gIter g n) := by
  intro m
  induction m with
  | zero =>
    intro n x
    rw [Nat.zero_add]
    rfl
  | succ m ih =>
    intro n x
    rw [Nat.succ_add]
    show (g x).bind (gIter g (m + n)) = ((g x).bind (gIter g m)).bind (gIter g n)
    cases g x with
    | none => rfl
    | some y =>
      show gIter g (m + n) y = (gIter g m y).bind (gIter g n)
      exact ih n y

theorem gIter_succ_right {g : Entity → Option Entity} (n : Nat) (x : Entity) :
    gIter g (n + 1) x = (gIter g n x).bind g := by
  rw [gIter_add n 1 x]
  cases gIter g n x with
  | none => rfl
  | some y =>
    show gIter g 1 y = g y
    exact gIter_one y

theorem reachesS_iter {g : Entity → Option Entity} {x y : Entity}
    (h : ReachesS g x y) : ∃ n, 0 < n ∧ gIter g n x = some y := by
  induction h with
  | single h1 =>
    exact ⟨1, Nat.one_pos, by rw [gIter_one]; exact h1⟩
  | tail h1 h2 ih =>
    obtain ⟨n, hn, hit⟩ := ih
    refine ⟨n + 1, Nat.succ_pos n, ?_⟩
    rw [gIter_succ_right, hit]
    exact h2

theorem gPath_succ_some {g : Entity → Option Entity} {x y : Entity}
    (h : g x = some y) (n : Nat) : gPath g (n + 1) x = x :: gPath g n y := by
  conv_lhs => unfold gPath
  rw [h]

theorem gPath_getElem {g : Entity → Option Entity} :
    ∀ (n : Nat) (x : Entity), (gIter g n x).isSome →
      ∀ i, i ≤ n → (gPath g n x)[i]? = gIter g i x := by
  intro n
  induction n with
  | zero =>
    intro x _ i hi
    have hi0 : i = 0 := Nat.le_zero.1 hi
    rw [hi0]
    rfl
  | succ n ih =>
    intro x hsome i hi
    cases hgx : g x with
    | none =>
      exfalso
      rw [gIter_succ_none hgx] at hsome
      simp at hsome
    | some y =>
      rw [gPath_succ_some hgx]
      have h1 : (gIter g n y).isSome := by
        rw [← gIter_succ_some hgx n]
        exact hsome
      cases i with
      | zero =>
        rw [List.getElem?_cons_zero]
        rfl
      | succ j =>
        rw [List.getElem?_cons_succ, gIter_succ_some hgx j]
        exact ih y h1 j (Nat.le_of_succ_le_succ hi)

theorem gPath_length {g : Entity → Option Entity} :
    ∀ (n : Nat) (x : Entity), (gIter g n x).isSome →
      (gPath g n x).length = n + 1 := by
  intro n
  induction n with
  | zero => intro x _; rfl
  | succ n ih =>
    intro x hsome
    cases hgx : g x with
    | none =>
      exfalso
      rw [gIter_succ_none hgx] at hsome
      simp at hsome
    | some y =>
      rw [gPath_succ_some hgx]
      have h1 : (gIter g n y).isSome := by
        rw [← gIter_succ_some hgx n]
        exact hsome
      rw [List.length_cons, ih y h1]

/-- From a cyclic entity a rotation-free simple cycle: interior nodes
`M`, chained, with no repetition. -/
theorem cycle_package {g : Entity → Option Entity} {c : Entity}
    (hcyc : ReachesS g c c) :
    ∃ M : List Entity, gsteps g (c :: M ++ [c]) ∧ (c :: M).Nodup := by
  obtain ⟨n0, hn0pos, hn0⟩ := reachesS_iter hcyc
  have hex : ∃ n, 0 < n ∧ gIter g n c = some c := ⟨n0, hn0pos, hn0⟩
  have hspec := Nat.find_spec hex
  have hminq : ∀ m, m < Nat.find hex → ¬ (0 < m ∧ gIter g m c = some c) :=
    fun m hm => Nat.find_min hex hm
  set n : Nat := Nat.find hex with hn
  obtain ⟨hnpos, hniter⟩ := hspec
  have hallsome : ∀ i, i ≤ n → (gIter g i c).isSome := by
    intro i hi
    cases hit : gIter g i c with
    | some z => rfl
    | none =>
      exfalso
      have e1 : gIter g (i + (n - i)) c = (gIter g i c).bind (gIter g (n - i)) :=
        gIter_add i (n - i) c
      rw [Nat.add_sub_cancel' hi, hniter, hit] at e1
      exact Option.noConfusion e1
  have hPi : ∀ i, i ≤ n → (gPath g n c)[i]? = gIter g i c :=
    gPath_getElem n c (hallsome n (le_refl n))
  have hPlen : (gPath g n c).length = n + 1 :=
    gPath_length n c (hallsome n (le_refl n))
  have hP0 : (gPath g n c).head? = some c := by
    rw [List.head?_eq_getElem?, hPi 0 (by omega)]
    rfl
  have hcons : c :: (gPath g n c).tail = gPath g n c :=
    List.cons_head?_tail (Option.mem_def.2 hP0)
  have hTlen : (gPath g n c).tail.length = n := by
    have h1 := hPlen
    rw [← hcons] at h1
    simpa using h1
  have hPlast : (gPath g n c).getLast? = some c := by
    rw [List.getLast?_eq_getElem?, hPlen]
    exact (hPi n (le_refl n)).trans hniter
  have hTlast : (gPath g n c).tail.getLast? = some c := by
    have hPlast2 := hPlast
    rw [← hcons] at hPlast2
    cases hT0 : (gPath g n c).tail with
    | nil =>
      exfalso
      rw [hT0] at hTlen
      simp at hTlen
      omega
    | cons t0 T2 =>
      rw [hT0] at hPlast2
      rw [List.getLast?_cons_cons] at hPlast2
      exact hPlast2
  have hTM : (gPath g n c).tail.dropLast ++ [c] = (gPath g n c).tail :=
    dropLast_append_of_getLast hTlast
  refine ⟨(gPath g n c).tail.dropLast, ?_, ?_⟩
  · have h6 : c :: (gPath g n c).tail.dropLast ++ [c] = gPath g n c := by
      rw [List.cons_append, hTM]
      exact hcons
    rw [h6]
    refine gsteps_of_pairs ?_
    intro i x y hx hy
    have hylt : i + 1 < (gPath g n c).length := by
      by_contra hc2
      rw [List.getElem?_eq_none_iff.2 (by omega)] at hy
      exact Option.noConfusion hy
    have hile : i + 1 ≤ n := by
      rw [hPlen] at hylt
      omega
    rw [hPi i (by omega)] at hx
    rw [hPi (i + 1) hile] at hy
    have h8 : gIter g (i + 1) c = (gIter g i c).bind g := gIter_succ_right i c
    rw [hx, hy] at h8
    exact h8.symm
  · have h6 : (gPath g n c).dropLast = c :: (gPath g n c).tail.dropLast := by
      conv_lhs => rw [← hcons, ← hTM]
      rw [← List.cons_append, List.dropLast_concat]
    rw [← h6]
    rw [List.nodup_iff_getElem?_ne_getElem?]
    intro i j hij hjlen
    have hdlen : (gPath g n c).dropLast.length = n := by
      rw [List.length_dropLast, hPlen]
      rfl
    rw [hdlen] at hjlen
    rw [List.getElem?_dropLast, List.getElem?_dropLast]
    rw [if_pos (show i < (gPath g n c).length - 1 by rw [hPlen]; omega),
      if_pos (show j < (gPath g n c).length - 1 by rw [hPlen]; omega)]
    rw [hPi i (by omega), hPi j (by omega)]
    intro heq
    have e1 : gIter g (i + (n - j)) c = (gIter g i c).bind (gIter g (n - j)) :=
      gIter_add i (n - j) c
    have e2 : gIter g (j + (n - j)) c = (gIter g j c).bind (gIter g (n - j)) :=
      gIter_add j (n - j) c
    rw [Nat.add_sub_cancel' (show j ≤ n by omega)] at e2
    rw [heq, ← e2, hniter] at e1
    exact hminq (i + (n - j)) (by omega) ⟨by omega, e1⟩

/-- `set_child` preserves the full hierarchical invariant: the snapshot
recursion either completes having relocated the moved subtree
consistently (the acyclic case, via the main preservation lemma) or
would run forever (the cyclic case, in which the fuel semantics returns
`none`, so no successful result arises). -/
theorem set_child_WF {tm tm' : TransformManager} {q c : Entity}
    (hWF : WF tm) (h : tm.set_child q c = some tm') : WF tm' := by
  obtain ⟨hWB, hp0, hprow⟩ := hWF
  unfold TransformManager.set_child at h
  cases hlookq : alookup tm.indices q with
  | none => rw [hlookq] at h; exact Option.noConfusion h
  | some rp =>
    obtain ⟨parent_row, pi⟩ := rp
    rw [hlookq] at h
    dsimp only at h
    set g : Entity → Option Entity :=
      fun x => if x = c then some q else parentF tm x with hgdef
    have hgc : g c = some q := by
      rw [hgdef]
      simp
    have hgne : ∀ x, x ≠ c → g x = parentF tm x := by
      intro x hx
      rw [hgdef]
      simp [hx]
    have hrowq : TransformManager.rowOf tm q = some ((parent_row + 1) - 1) := by
      unfold TransformManager.rowOf
      rw [hlookq]
      rfl
    have hExc0 : parentRowOKExcept ∅ tm := by
      intro rp hrp ent hm _ p hp
      exact hprow rp hrp ent hm p hp
    have hB5 : ∀ x ∈ (∅ : Set Entity), ∃ a, g x = some a ∧ ReachesS g c a := by
      intro x hx
      exact absurd hx (Set.not_mem_empty x)
    rcases Classical.em (ReachesS g c c) with hcyc | hacyc
    · exfalso
      obtain ⟨M, hsteps, hnd⟩ := cycle_package hcyc
      have hhealth : listHealthy tm (M ++ [c]) := by
        refine listHealthy_of_pairs ?_
        intro i x y hx hy
        have hgxy : g x = some y :=
          gsteps_pair_at hsteps
            (by
              show (c :: (M ++ [c]))[i + 1]? = some x
              rw [List.getElem?_cons_succ]
              exact hx)
            (by
              show (c :: (M ++ [c]))[i + 1 + 1]? = some y
              rw [List.getElem?_cons_succ]
              exact hy)
        have hylt : i + 1 < (M ++ [c]).length := by
          by_contra hc2
          rw [List.getElem?_eq_none_iff.2 (by omega)] at hy
          exact Option.noConfusion hy
        have hilt : i < M.length := by
          rw [List.length_append, List.length_singleton] at hylt
          omega
        have hxmem : x ∈ M := by
          rw [List.getElem?_append_left hilt] at hx
          exact List.mem_iff_getElem?.2 ⟨i, hx⟩
        have hxc : x ≠ c := by
          intro hc2
          apply (List.nodup_cons.1 hnd).1
          rw [← hc2]
          exact hxmem
        have hpF : parentF tm x = some y := by
          rw [← hgne x hxc]
          exact hgxy
        exact wf_pairHealthy hWB hp0 hprow hpF
      have hnone := srr_cyc (srrFuel tm) tm c q (parent_row + 1) g ∅ M
        hWB hp0 hrowq hExc0 hB5 hgc hgne hsteps hnd hhealth
      rw [hnone] at h
      exact Option.noConfusion h
    · obtain ⟨hWB', hP0', hExc', hgf', hrowc', hframe', hdom'⟩ :=
        srr_main (srrFuel tm) tm tm' c q (parent_row + 1) g ∅
          hWB hp0 hrowq hExc0 hB5 hgc hgne hacyc h
      refine ⟨hWB', hP0', ?_⟩
      intro rp hrp ent hm p hp
      exact hExc' rp hrp ent hm
        (fun hc2 => (Set.not_mem_empty ent.1) hc2.1) p hp

end RowDepthInfrastructure2
end Gunship

namespace Gunship
section RowDepthInfrastructure3
open TransformManager

/-- A fresh `assign` preserves the full invariant. -/
theorem assign_WF {tm tm' : TransformManager} {e : Entity}
    (hWF : WF tm) (hfresh : alookup tm.indices e = none)
    (ha : tm.assign e = some tm') : WF tm' := by
  obtain ⟨hWB, hp0, hprow⟩ := hWF
  have hpres := presenceInv_assign ⟨hWB.1.1, hp0⟩ ha
  obtain ⟨trow, erow, htr, her, rfl⟩ := assign_eq ha
  obtain ⟨hWB', hlookSelf, hlookNe, hpl, hplne, horig⟩ :=
    @pushRow_spec tm e (none : Option Entity) 0 Transform.new trow erow
      hWB hfresh htr her
  refine ⟨hWB', hpres.2, ?_⟩
  rw [parentRowOK_iff]
  intro r row hrow ent hm p hp
  have hrow2 : (tm.entities.set 0 (erow ++ [(e, (none : Option Entity))]))[r]?
      = some row := hrow
  have hElt : 0 < tm.entities.length := by
    by_contra hc
    rw [List.getElem?_eq_none_iff.2 (by omega)] at her
    exact Option.noConfusion her
  by_cases hr0 : r = 0
  · exfalso
    subst hr0
    rw [List.getElem?_set_self hElt] at hrow2
    injection hrow2 with hrow2
    subst hrow2
    rcases List.mem_append.1 hm with h1 | h1
    · have hn : ent.2 = none := (parentNoneIffRow0_get hp0 her h1).2 rfl
      rw [hn] at hp
      exact Option.noConfusion hp
    · rw [List.mem_singleton] at h1
      subst h1
      exact Option.noConfusion hp
  · rw [List.getElem?_set_ne (fun hc => hr0 hc.symm)] at hrow2
    have hold := parentRowOK_get hprow hrow2 hm hp
    have hpe : p ≠ e := by
      intro hc
      rw [hc, hfresh] at hold
      exact Option.noConfusion hold
    show (alookup (ainsert tm.indices e (0, trow.length)) p).map Prod.fst
      = some (r - 1)
    rw [hlookNe p hpe]
    exact hold

/-- Removing a childless entity preserves the full invariant. -/
theorem remove_childless_WF {tm tm' : TransformManager} {e : Entity}
    {t : Transform} (hWF : WF tm) (hcl : childless tm e)
    (hr : tm.remove e = some (t, tm')) : WF tm' := by
  obtain ⟨hWB, hp0, hprow⟩ := hWF
  cases hlook : alookup tm.indices e with
  | none =>
    exfalso
    unfold TransformManager.remove at hr
    rw [hlook] at hr
    exact Option.noConfusion hr
  | some ri =>
    obtain ⟨r, i⟩ := ri
    obtain ⟨t0, tmr, hrem0, hTlen, hElen, hmk, hWB', hnone, hrowpres, horig,
      hshrink, hmoved⟩ := remove_spec hWB hlook
    rw [hr] at hrem0
    injection hrem0 with hpair
    rw [Prod.mk.injEq] at hpair
    obtain ⟨-, htm⟩ := hpair
    subst htm
    refine ⟨hWB', (presenceInv_remove ⟨hWB.1.1, hp0⟩ hr).2, ?_⟩
    rw [parentRowOK_iff]
    intro r' row hrow ent hm p hp
    obtain ⟨j, hj⟩ := List.mem_iff_getElem?.1 hm
    have hent0 : (tm'.entities[r']?).bind (fun row0 => row0[j]?) = some ent := by
      rw [hrow]
      simpa using hj
    obtain ⟨j0, hj0⟩ := horig r' j ent hent0
    cases hrow0 : tm.entities[r']? with
    | none =>
      rw [hrow0] at hj0
      exact Option.noConfusion hj0
    | some row0 =>
      rw [hrow0] at hj0
      simp only [Option.some_bind] at hj0
      have hmem0 : ent ∈ row0 := List.getElem?_mem hj0
      have hold := parentRowOK_get hprow hrow0 hmem0 hp
      have hpe : p ≠ e := by
        intro hc
        apply hcl row0 (List.mem_iff_getElem?.2 ⟨r', hrow0⟩) ent hmem0
        rw [hp, hc]
      show TransformManager.rowOf tm' p = some (r' - 1)
      rw [hrowpres p hpe]
      exact hold

/-- The empty manager satisfies the full invariant. -/
theorem WF_new : WF TransformManager.new := by decide

/-- Every state reachable with duplicate-free `assign` satisfies the
full hierarchical invariant. -/
theorem reachableF_WF {tm : TransformManager} (h : ReachableF tm) : WF tm := by
  induction h with
  | base => exact WF_new
  | assign_step tm1 tm2 e h1 hfresh ha ih => exact assign_WF ih hfresh ha
  | set_child_step tm1 tm2 p c h1 hsc ih => exact set_child_WF ih hsc
  | remove_step tm1 tm2 e t h1 hcl hrem ih => exact remove_childless_WF ih hcl hrem

/-- Under the full invariant, the recorded row is exactly the number of
parent links to a parentless entry, for any sufficient fuel. -/
theorem depthFrom_eq_row {tm : TransformManager} (hWF : WF tm) :
    ∀ (fuel r : Nat) (e : Entity) (i : Nat),
      alookup tm.indices e = some (r, i) → r ≤ fuel →
      TransformManager.depthFrom fuel tm e = some r := by
  obtain ⟨hWB, hp0, hprow⟩ := hWF
  intro fuel
  induction fuel with
  | zero =>
    intro r e i hlook hle
    have hr0 : r = 0 := Nat.le_zero.1 hle
    subst hr0
    obtain ⟨row, ent, hrow, hent, hfst⟩ := idxSound_get hWB.2.1 hlook
    have hmem : ent ∈ row := List.getElem?_mem hent
    have hpl : parentLink tm e = some ent.2 := by
      unfold TransformManager.parentLink
      rw [hlook]
      show (entryAt tm 0 i).map Prod.snd = some ent.2
      unfold TransformManager.entryAt
      rw [hrow]
      show (row[i]?).map Prod.snd = some ent.2
      rw [hent]
      rfl
    have hn : ent.2 = none := (parentNoneIffRow0_get hp0 hrow hmem).2 rfl
    rw [hn] at hpl
    unfold TransformManager.depthFrom
    rw [hpl]
  | succ fuel ih =>
    intro r e i hlook hle
    obtain ⟨row, ent, hrow, hent, hfst⟩ := idxSound_get hWB.2.1 hlook
    have hmem : ent ∈ row := List.getElem?_mem hent
    have hpl : parentLink tm e = some ent.2 := by
      unfold TransformManager.parentLink
      rw [hlook]
      show (entryAt tm r i).map Prod.snd = some ent.2
      unfold TransformManager.entryAt
      rw [hrow]
      show (row[i]?).map Prod.snd = some ent.2
      rw [hent]
      rfl
    by_cases hr0 : r = 0
    · have hn : ent.2 = none := (parentNoneIffRow0_get hp0 hrow hmem).2 hr0
      rw [hn] at hpl
      subst hr0
      unfold TransformManager.depthFrom
      rw [hpl]
    · cases hq : ent.2 with
      | none => exact absurd ((parentNoneIffRow0_get hp0 hrow hmem).1 hq) hr0
      | some p =>
        rw [hq] at hpl
        have hpr := parentRowOK_get hprow hrow hmem hq
        cases hlp : alookup tm.indices p with
        | none =>
          rw [hlp] at hpr
          exact Option.noConfusion hpr
        | some rip =>
          obtain ⟨rp, ip⟩ := rip
          rw [hlp] at hpr
          have hrp : rp = r - 1 := by
            have h2 : some rp = some (r - 1) := hpr
            exact Option.some.inj h2
          rw [hrp] at hlp
          unfold TransformManager.depthFrom
          rw [hpl]
          show (TransformManager.depthFrom fuel tm p).map (· + 1) = some r
          rw [ih (r - 1) p ip hlp (by omega)]
          show some (r - 1 + 1) = some r
          have h3 : r - 1 + 1 = r := by omega
          rw [h3]

end RowDepthInfrastructure3
end Gunship

namespace Gunship
section RowDepthClaim
open TransformManager

/-- **C1** (corrected: `assign` restricted to entities without a
transform): in every state reachable from the empty manager by
duplicate-free `assign`, `set_child`, and removal of childless entities,
every entity present in the index is stored at a row number equal to the
number of parent links followed from its entry to an entry whose
recorded parent is `none` — the fuel-bounded link count `depthFrom`
returns exactly the recorded row for every sufficient fuel. -/
theorem row_depth_invariant (tm : TransformManager)
    (hre : TransformManager.ReachableF tm) (e : Entity) (r i : Nat)
    (hlook : alookup tm.indices e = some (r, i)) (fuel : Nat)
    (hfuel : r ≤ fuel) :
    TransformManager.rowOf tm e = some r
    ∧ TransformManager.depthFrom fuel tm e = some r := by
  constructor
  · unfold TransformManager.rowOf
    rw [hlook]
    rfl
  · exact depthFrom_eq_row (reachableF_WF hre) fuel r e i hlook hfuel

/-- Witness for the corrected C1 at the three-entity chain 10 → 11 → 12
(entity 12 at row 2 with exactly two parent links). -/
theorem row_depth_invariant_witness :
    TransformManager.ReachableF c1s5
    ∧ alookup c1s5.indices 12 = some (2, 0)
    ∧ 2 ≤ 2
    ∧ (TransformManager.rowOf c1s5 12 = some 2
      ∧ TransformManager.depthFrom 2 c1s5 12 = some 2) := by
  have h1 : TransformManager.new.assign 10 = some c1s1 := by decide
  have hf1 : alookup TransformManager.new.indices 10 = none := by decide
  have h2 : c1s1.assign 11 = some c1s2 := by decide
  have hf2 : alookup c1s1.indices 11 = none := by decide
  have h3 : c1s2.assign 12 = some c1s3 := by decide
  have hf3 : alookup c1s2.indices 12 = none := by decide
  have h4 : c1s3.set_child 10 11 = some c1s4 := by decide
  have h5 : c1s4.set_child 11 12 = some c1s5 := by decide
  have hre : TransformManager.ReachableF c1s5 :=
    ReachableF.set_child_step c1s4 c1s5 11 12
      (ReachableF.set_child_step c1s3 c1s4 10 11
        (ReachableF.assign_step c1s2 c1s3 12
          (ReachableF.assign_step c1s1 c1s2 11
            (ReachableF.assign_step TransformManager.new c1s1 10
              ReachableF.base hf1 h1) hf2 h2) hf3 h3) h4) h5
  have hlook : alookup c1s5.indices 12 = some (2, 0) := by decide
  exact ⟨hre, hlook, le_refl 2,
    row_depth_invariant c1s5 hre 12 2 0 hlook 2 (le_refl 2)⟩

/-- **C1** (counterexample to the literal claim): `assign`, as the claim
words it, performs no duplicate check; re-assigning entity 11 after the
chain 10 → 11 → 12 reaches a state — through exactly the claimed
operations — in which entity 12 is stored at row 2 while only one parent
link separates its entry from a parentless entry. -/
theorem row_depth_counterexample :
    TransformManager.ReachableU c1Broken
    ∧ alookup c1Broken.indices 12 = some (2, 0)
    ∧ TransformManager.rowOf c1Broken 12 = some 2
    ∧ TransformManager.depthFrom 8 c1Broken 12 = some 1
    ∧ (1 : Nat) ≠ 2 := by
  refine ⟨?_, by decide, by decide, by decide, by decide⟩
  have h1 : TransformManager.new.assign 10 = some c1s1 := by decide
  have h2 : c1s1.assign 11 = some c1s2 := by decide
  have h3 : c1s2.assign 12 = some c1s3 := by decide
  have h4 : c1s3.set_child 10 11 = some c1s4 := by decide
  have h5 : c1s4.set_child 11 12 = some c1s5 := by decide
  have h6 : c1s5.assign 11 = some c1Broken := by decide
  exact ReachableU.assign_step c1s5 c1Broken 11
    (ReachableU.set_child_step c1s4 c1s5 11 12
      (ReachableU.set_child_step c1s3 c1s4 10 11
        (ReachableU.assign_step c1s2 c1s3 12
          (ReachableU.assign_step c1s1 c1s2 11
            (ReachableU.assign_step TransformManager.new c1s1 10
              ReachableU.base h1) h2) h3) h4) h5) h6

end RowDepthClaim
end Gunship
